import Mathlib

/-!
# Board-object group masks (`boardobj/boardobjgrpmask.c`)

A shallow embedding of the group-mask operations of the nvgpu driver and the
properties proved about them.

Conventions of the embedding:

* machine integers are natural numbers; a `u32` word is a natural number below
  `2 ^ 32`, a `u8` value one below `2 ^ 8`, and every place where the C code
  can wrap carries an explicit `% 2 ^ w`;
* a pointer argument is an `Option`: `none` is the `NULL` pointer, `some x` a
  pointer to an object whose current contents are `x`;
* the word storage behind `data[]` is a list; `data[i]` is read with
  `List.getD _ i 0` and written with `List.set`;
* every operation returns its C return value together with the contents,
  after the call, of the objects it was handed.
-/

namespace Nvgpu

/-! ## Constants and helpers declared in headers -/

/-- Modelled from the spec: the constant `CTRL_BOARDOBJGRP_E32_MAX_OBJECTS` of
`ctrl/ctrlboardobj.h`, a header that is not part of the sources; the small
supported capacity, 32 bits. -/
def CTRL_BOARDOBJGRP_E32_MAX_OBJECTS : Nat := 32

/-- Modelled from the spec: the constant `CTRL_BOARDOBJGRP_E255_MAX_OBJECTS`
of `ctrl/ctrlboardobj.h`; the large supported capacity, 255 bits. -/
def CTRL_BOARDOBJGRP_E255_MAX_OBJECTS : Nat := 255

/-- Modelled from the spec: the constant `CTRL_BOARDOBJ_IDX_INVALID` of
`ctrl/ctrlboardobj.h`; the sentinel "invalid index", 255. -/
def CTRL_BOARDOBJ_IDX_INVALID : Nat := 255

/-- Modelled from the spec: the constant
`CTRL_BOARDOBJGRP_MASK_MASK_ELEMENT_BIT_SIZE` of `ctrl/ctrlboardobj.h`; the
width of one storage word, 32 bits. -/
def CTRL_BOARDOBJGRP_MASK_MASK_ELEMENT_BIT_SIZE : Nat := 32

/-- Modelled from the spec: the helper
`CTRL_BOARDOBJGRP_MASK_MASK_ELEMENT_INDEX` of `ctrl/ctrlboardobj.h`;
`word_index = bit_index / 32`. -/
def CTRL_BOARDOBJGRP_MASK_MASK_ELEMENT_INDEX (bit : Nat) : Nat :=
  bit / CTRL_BOARDOBJGRP_MASK_MASK_ELEMENT_BIT_SIZE

/-- Modelled from the spec: the helper
`CTRL_BOARDOBJGRP_MASK_MASK_ELEMENT_OFFSET` of `ctrl/ctrlboardobj.h`;
`bit_offset = bit_index mod 32`. -/
def CTRL_BOARDOBJGRP_MASK_MASK_ELEMENT_OFFSET (bit : Nat) : Nat :=
  bit % CTRL_BOARDOBJGRP_MASK_MASK_ELEMENT_BIT_SIZE

/-- Modelled from the spec: the helper `CTRL_BOARDOBJGRP_MASK_DATA_SIZE` of
`ctrl/ctrlboardobj.h`; the number of 32-bit storage words required to hold
`bits` bits, `ceil(bits / 32)`. -/
def CTRL_BOARDOBJGRP_MASK_DATA_SIZE (bits : Nat) : Nat :=
  (bits + (CTRL_BOARDOBJGRP_MASK_MASK_ELEMENT_BIT_SIZE - 1)) /
    CTRL_BOARDOBJGRP_MASK_MASK_ELEMENT_BIT_SIZE

/-- Modelled from the spec: the helper `BIT` of the bit-operation header; the
single-bit mask `1 << n`.  Every use in this file has `n < 32`. -/
def BIT (n : Nat) : Nat := 2 ^ n

/-- Modelled from the spec: the error number `EINVAL` behind the result
`InvalidArgument`. -/
def EINVAL : Nat := 22

/-- The value of `return -EINVAL;` in a function whose return type is `u32`. -/
def NEG_EINVAL_U32 : Nat := 2 ^ 32 - EINVAL

/-- The value of `return -EINVAL;` in a function whose return type is `int`. -/
def NEG_EINVAL_INT : Int := -(EINVAL : Int)

/-- The operator `~` on a 32-bit word (the result as it is stored in a `u32`). -/
def not32 (x : Nat) : Nat := x ^^^ 0xFFFFFFFF

/-- Modelled from the spec: the helper `NUMSETBITS_32` of the PMU interface
header; the standard bit-counting routine on one 32-bit word (its population
count). -/
def NUMSETBITS_32 (n32 : Nat) : Nat :=
  (List.range 32).countP (fun i => n32.testBit i)

/-- First index at or above `i`, among `fuel` candidates, whose bit is set in
`n32`; `i + fuel` when there is none. -/
def scanUp (n32 : Nat) : Nat → Nat → Nat
  | 0, i => i
  | fuel + 1, i => if n32.testBit i then i else scanUp n32 fuel (i + 1)

/-- Greatest index below `n` whose bit is set in `n32`; 0 when there is none. -/
def scanDown (n32 : Nat) : Nat → Nat
  | 0 => 0
  | n + 1 => if n32.testBit n then n else scanDown n32 n

/-- Modelled from the spec: the helper `LOWESTBITIDX_32` of the PMU interface
header; the index of the lowest set bit within a 32-bit word. -/
def LOWESTBITIDX_32 (n32 : Nat) : Nat := scanUp n32 32 0

/-- Modelled from the spec: the helper `HIGHESTBITIDX_32` of the PMU interface
header; the index of the highest set bit within a 32-bit word. -/
def HIGHESTBITIDX_32 (n32 : Nat) : Nat := scanDown n32 32

/-! ## Data model -/

/-- Modelled from the spec: `struct boardobjgrpmask` of `boardobjgrp.h`, the
GroupMask: `bitcount` is `capacity_bits` (a `u8`), `maskdatacount` is
`word_count` (a `u8`), `lastmaskfilter` is `tail_mask` (a `u32`) and `data`
is the storage of 32-bit words. -/
structure boardobjgrpmask where
  bitcount : Nat
  maskdatacount : Nat
  lastmaskfilter : Nat
  data : List Nat
deriving DecidableEq

/-- Modelled from the spec: `struct ctrl_boardobjgrp_mask` of
`ctrl/ctrlboardobj.h`, the external wire buffer: an ordered sequence of
32-bit words with the bit layout of the mask's own storage. -/
structure ctrl_boardobjgrp_mask where
  data : List Nat
deriving DecidableEq

/-- The loop `for (index = start; index < start + count; index++) body`,
threading the state the body updates.  In the source the counter and its
bound are both `u8` values, so the counter stops at the bound before it can
wrap. -/
def forIndex {σ : Type} (body : Nat → σ → σ) : Nat → Nat → σ → σ
  | 0, _, s => s
  | count + 1, index, s => forIndex body count (index + 1) (body index s)

/-- The same loop for a body that can leave it early: the body returns the
new state and whether it executed `break` (or `return`). -/
def forIndexBreak {σ : Type} (body : Nat → σ → σ × Bool) : Nat → Nat → σ → σ
  | 0, _, s => s
  | count + 1, index, s =>
    if (body index s).2 then (body index s).1
    else forIndexBreak body count (index + 1) (body index s).1

/-- `BOARDOBJGRPMASK_NORMALIZE(_pmask)`:
`data[maskdatacount - 1] &= lastmaskfilter`.  (With `maskdatacount = 0` the C
index is `-1`, outside the storage; no mask laid out by
`boardobjgrpmask_init` has it.) -/
def BOARDOBJGRPMASK_NORMALIZE (pmask : boardobjgrpmask) : boardobjgrpmask :=
  { pmask with
    data := pmask.data.set (pmask.maskdatacount - 1)
      (pmask.data.getD (pmask.maskdatacount - 1) 0 &&& pmask.lastmaskfilter) }

/-! ## Operations -/

/-- `boardobjgrpmask_clr`. -/
def boardobjgrpmask_clr (mask : Option boardobjgrpmask) :
    Nat × Option boardobjgrpmask :=
  match mask with
  | none => (NEG_EINVAL_U32, none)
  | some m =>
    (0, some { m with
      data := forIndex (fun index d => d.set index 0) m.maskdatacount 0 m.data })

/-- `boardobjgrpmask_import`. -/
def boardobjgrpmask_import (mask : Option boardobjgrpmask) (bitsize : Nat)
    (extmask : Option ctrl_boardobjgrp_mask) :
    Nat × Option boardobjgrpmask × Option ctrl_boardobjgrp_mask :=
  match mask, extmask with
  | none, _ => (NEG_EINVAL_U32, mask, extmask)
  | some _, none => (NEG_EINVAL_U32, mask, extmask)
  | some m, some e =>
    if m.bitcount ≠ bitsize then (NEG_EINVAL_U32, mask, extmask)
    else
      (0,
       some (BOARDOBJGRPMASK_NORMALIZE { m with
         data := forIndex (fun index d => d.set index (e.data.getD index 0))
           m.maskdatacount 0 m.data }),
       extmask)

/-- `boardobjgrpmask_export`. -/
def boardobjgrpmask_export (mask : Option boardobjgrpmask) (bitsize : Nat)
    (extmask : Option ctrl_boardobjgrp_mask) :
    Nat × Option boardobjgrpmask × Option ctrl_boardobjgrp_mask :=
  match mask, extmask with
  | none, _ => (NEG_EINVAL_U32, mask, extmask)
  | some _, none => (NEG_EINVAL_U32, mask, extmask)
  | some m, some e =>
    if m.bitcount ≠ bitsize then (NEG_EINVAL_U32, mask, extmask)
    else
      (0, mask,
       some { e with
         data := forIndex (fun index d => d.set index (m.data.getD index 0))
           m.maskdatacount 0 e.data })

/-- `boardobjgrpmask_init`. -/
def boardobjgrpmask_init (mask : Option boardobjgrpmask) (bitsize : Nat)
    (extmask : Option ctrl_boardobjgrp_mask) :
    Nat × Option boardobjgrpmask × Option ctrl_boardobjgrp_mask :=
  match mask with
  | none => (NEG_EINVAL_U32, mask, extmask)
  | some m =>
    if bitsize ≠ CTRL_BOARDOBJGRP_E32_MAX_OBJECTS ∧
        bitsize ≠ CTRL_BOARDOBJGRP_E255_MAX_OBJECTS then
      (NEG_EINVAL_U32, mask, extmask)
    else
      let m1 := { m with bitcount := bitsize }
      let m2 := { m1 with maskdatacount := CTRL_BOARDOBJGRP_MASK_DATA_SIZE bitsize }
      let m3 := { m2 with
        lastmaskfilter := bitsize % CTRL_BOARDOBJGRP_MASK_MASK_ELEMENT_BIT_SIZE }
      let m4 := { m3 with
        lastmaskfilter :=
          if m3.lastmaskfilter = 0 then 0xFFFFFFFF
          else (BIT m3.lastmaskfilter - 1) % 2 ^ 32 }
      match extmask with
      | none =>
        ((boardobjgrpmask_clr (some m4)).1, (boardobjgrpmask_clr (some m4)).2, extmask)
      | some _ => boardobjgrpmask_import (some m4) bitsize extmask

/-- `boardobjgrpmask_set`. -/
def boardobjgrpmask_set (mask : Option boardobjgrpmask) :
    Nat × Option boardobjgrpmask :=
  match mask with
  | none => (NEG_EINVAL_U32, none)
  | some m =>
    (0, some (BOARDOBJGRPMASK_NORMALIZE { m with
      data := forIndex (fun index d => d.set index 0xFFFFFFFF)
        m.maskdatacount 0 m.data }))

/-- `boardobjgrpmask_inv`. -/
def boardobjgrpmask_inv (mask : Option boardobjgrpmask) :
    Nat × Option boardobjgrpmask :=
  match mask with
  | none => (NEG_EINVAL_U32, none)
  | some m =>
    (0, some (BOARDOBJGRPMASK_NORMALIZE { m with
      data := forIndex (fun index d => d.set index (not32 (d.getD index 0)))
        m.maskdatacount 0 m.data }))

/-- `boardobjgrpmask_iszero`. -/
def boardobjgrpmask_iszero (mask : Option boardobjgrpmask) : Bool :=
  match mask with
  | none => true
  | some m =>
    forIndexBreak
      (fun index r => if m.data.getD index 0 ≠ 0 then (false, true) else (r, false))
      m.maskdatacount 0 true

/-- `boardobjgrpmask_bitsetcount`; the accumulator `result` is a `u8`. -/
def boardobjgrpmask_bitsetcount (mask : Option boardobjgrpmask) : Nat :=
  match mask with
  | none => 0
  | some m =>
    forIndex
      (fun index result =>
        (result + NUMSETBITS_32 (m.data.getD index 0) % 2 ^ 8) % 2 ^ 8)
      m.maskdatacount 0 0

/-- `boardobjgrpmask_bitidxlowest`; `result` is a `u8`. -/
def boardobjgrpmask_bitidxlowest (mask : Option boardobjgrpmask) : Nat :=
  match mask with
  | none => CTRL_BOARDOBJ_IDX_INVALID
  | some m =>
    forIndexBreak
      (fun index result =>
        if m.data.getD index 0 ≠ 0 then
          ((LOWESTBITIDX_32 (m.data.getD index 0) % 2 ^ 8 +
              index * CTRL_BOARDOBJGRP_MASK_MASK_ELEMENT_BIT_SIZE) % 2 ^ 8, true)
        else (result, false))
      m.maskdatacount 0 CTRL_BOARDOBJ_IDX_INVALID

/-- `boardobjgrpmask_bitidxhighest`; `result` is a `u8`. -/
def boardobjgrpmask_bitidxhighest (mask : Option boardobjgrpmask) : Nat :=
  match mask with
  | none => CTRL_BOARDOBJ_IDX_INVALID
  | some m =>
    forIndexBreak
      (fun index result =>
        if m.data.getD index 0 ≠ 0 then
          ((HIGHESTBITIDX_32 (m.data.getD index 0) % 2 ^ 8 +
              index * CTRL_BOARDOBJGRP_MASK_MASK_ELEMENT_BIT_SIZE) % 2 ^ 8, true)
        else (result, false))
      m.maskdatacount 0 CTRL_BOARDOBJ_IDX_INVALID

/-- `boardobjgrpmask_bitclr`. -/
def boardobjgrpmask_bitclr (mask : Option boardobjgrpmask) (bitidx : Nat) :
    Int × Option boardobjgrpmask :=
  match mask with
  | none => (NEG_EINVAL_INT, none)
  | some m =>
    if bitidx ≥ m.bitcount then (NEG_EINVAL_INT, mask)
    else
      let index := CTRL_BOARDOBJGRP_MASK_MASK_ELEMENT_INDEX bitidx
      let offset := CTRL_BOARDOBJGRP_MASK_MASK_ELEMENT_OFFSET bitidx
      (0, some { m with
        data := m.data.set index (m.data.getD index 0 &&& not32 (BIT offset)) })

/-- `boardobjgrpmask_bitset`. -/
def boardobjgrpmask_bitset (mask : Option boardobjgrpmask) (bitidx : Nat) :
    Int × Option boardobjgrpmask :=
  match mask with
  | none => (NEG_EINVAL_INT, none)
  | some m =>
    if bitidx ≥ m.bitcount then (NEG_EINVAL_INT, mask)
    else
      let index := CTRL_BOARDOBJGRP_MASK_MASK_ELEMENT_INDEX bitidx
      let offset := CTRL_BOARDOBJGRP_MASK_MASK_ELEMENT_OFFSET bitidx
      (0, some { m with
        data := m.data.set index (m.data.getD index 0 ||| BIT offset) })

/-- `boardobjgrpmask_bitinv`. -/
def boardobjgrpmask_bitinv (mask : Option boardobjgrpmask) (bitidx : Nat) :
    Nat × Option boardobjgrpmask :=
  match mask with
  | none => (NEG_EINVAL_U32, none)
  | some m =>
    if bitidx ≥ m.bitcount then (NEG_EINVAL_U32, mask)
    else
      let index := CTRL_BOARDOBJGRP_MASK_MASK_ELEMENT_INDEX bitidx
      let offset := CTRL_BOARDOBJGRP_MASK_MASK_ELEMENT_OFFSET bitidx
      (0, some { m with
        data := m.data.set index (m.data.getD index 0 ^^^ not32 (BIT offset)) })

/-- `boardobjgrpmask_bitget`. -/
def boardobjgrpmask_bitget (mask : Option boardobjgrpmask) (bitidx : Nat) : Bool :=
  match mask with
  | none => false
  | some m =>
    if bitidx ≥ m.bitcount then false
    else
      let index := CTRL_BOARDOBJGRP_MASK_MASK_ELEMENT_INDEX bitidx
      let offset := CTRL_BOARDOBJGRP_MASK_MASK_ELEMENT_OFFSET bitidx
      (m.data.getD index 0 &&& BIT offset) != 0

/-- `boardobjgrpmask_sizeeq`. -/
def boardobjgrpmask_sizeeq (op1 op2 : Option boardobjgrpmask) : Bool :=
  match op1, op2 with
  | none, _ => false
  | some _, none => false
  | some a, some b => a.bitcount == b.bitcount

/-- `boardobjgrpmask_and`: the two size checks, then the word-wise loop
`dst->data[index] = op1->data[index] & op2->data[index]`.  Returns the
return value and the contents of `*dst`, `*op1` and `*op2` after the call;
the function never writes through `op1` or `op2`.  Each iteration reads word
`index` of the operands before it writes word `index` of `dst`, so an
in-place call (`dst == op1`) computes the same `*dst` from the same contents. -/
def boardobjgrpmask_and (dst op1 op2 : Option boardobjgrpmask) :
    Nat × Option boardobjgrpmask × Option boardobjgrpmask × Option boardobjgrpmask :=
  if !boardobjgrpmask_sizeeq dst op1 then (NEG_EINVAL_U32, dst, op1, op2)
  else if !boardobjgrpmask_sizeeq dst op2 then (NEG_EINVAL_U32, dst, op1, op2)
  else
    match dst, op1, op2 with
    | some d, some a, some b =>
      (0, some { d with
        data := forIndex
          (fun index dd => dd.set index (a.data.getD index 0 &&& b.data.getD index 0))
          d.maskdatacount 0 d.data }, op1, op2)
    | _, _, _ => (NEG_EINVAL_U32, dst, op1, op2)

/-- `boardobjgrpmask_or`: the two size checks, then the word-wise loop
`dst->data[index] = op1->data[index] | op2->data[index]`.  Returns the
return value and the contents of `*dst`, `*op1` and `*op2` after the call;
the function never writes through `op1` or `op2`.  Each iteration reads word
`index` of the operands before it writes word `index` of `dst`, so an
in-place call (`dst == op1`) computes the same `*dst` from the same contents. -/
def boardobjgrpmask_or (dst op1 op2 : Option boardobjgrpmask) :
    Nat × Option boardobjgrpmask × Option boardobjgrpmask × Option boardobjgrpmask :=
  if !boardobjgrpmask_sizeeq dst op1 then (NEG_EINVAL_U32, dst, op1, op2)
  else if !boardobjgrpmask_sizeeq dst op2 then (NEG_EINVAL_U32, dst, op1, op2)
  else
    match dst, op1, op2 with
    | some d, some a, some b =>
      (0, some { d with
        data := forIndex
          (fun index dd => dd.set index (a.data.getD index 0 ||| b.data.getD index 0))
          d.maskdatacount 0 d.data }, op1, op2)
    | _, _, _ => (NEG_EINVAL_U32, dst, op1, op2)

/-- `boardobjgrpmask_xor`: the two size checks, then the word-wise loop
`dst->data[index] = op1->data[index] ^ op2->data[index]`.  Returns the
return value and the contents of `*dst`, `*op1` and `*op2` after the call;
the function never writes through `op1` or `op2`.  Each iteration reads word
`index` of the operands before it writes word `index` of `dst`, so an
in-place call (`dst == op1`) computes the same `*dst` from the same contents. -/
def boardobjgrpmask_xor (dst op1 op2 : Option boardobjgrpmask) :
    Nat × Option boardobjgrpmask × Option boardobjgrpmask × Option boardobjgrpmask :=
  if !boardobjgrpmask_sizeeq dst op1 then (NEG_EINVAL_U32, dst, op1, op2)
  else if !boardobjgrpmask_sizeeq dst op2 then (NEG_EINVAL_U32, dst, op1, op2)
  else
    match dst, op1, op2 with
    | some d, some a, some b =>
      (0, some { d with
        data := forIndex
          (fun index dd => dd.set index (a.data.getD index 0 ^^^ b.data.getD index 0))
          d.maskdatacount 0 d.data }, op1, op2)
    | _, _, _ => (NEG_EINVAL_U32, dst, op1, op2)

/-- `boardobjgrpmask_copy`.  Returns the return value and the contents of
`*dst` and `*src` after the call; the function never writes through `src`. -/
def boardobjgrpmask_copy (dst src : Option boardobjgrpmask) :
    Nat × Option boardobjgrpmask × Option boardobjgrpmask :=
  if !boardobjgrpmask_sizeeq dst src then (NEG_EINVAL_U32, dst, src)
  else
    match dst, src with
    | some d, some s =>
      (0, some { d with
        data := forIndex (fun index dd => dd.set index (s.data.getD index 0))
          d.maskdatacount 0 d.data }, src)
    | _, _ => (NEG_EINVAL_U32, dst, src)

/-- `boardobjgrpmask_issubset`. -/
def boardobjgrpmask_issubset (op1 op2 : Option boardobjgrpmask) : Bool :=
  if !boardobjgrpmask_sizeeq op2 op1 then false
  else
    match op1, op2 with
    | some a, some b =>
      forIndexBreak
        (fun index r =>
          if (a.data.getD index 0 &&& b.data.getD index 0) ≠ a.data.getD index 0 then
            (false, true)
          else (r, false))
        a.maskdatacount 0 true
    | _, _ => false

/-! ## Predicates and sample values used by the statements -/

/-- The `tail_mask` of a capacity as the spec words it: the low
`bits mod 32` bits set, or all 32 bits when `bits mod 32 = 0`. -/
def tailMaskOf (bits : Nat) : Nat :=
  if bits % 32 = 0 then 0xFFFFFFFF else 2 ^ (bits % 32) - 1

/-- A mask laid out for one of the two supported capacities, the way a
successful `boardobjgrpmask_init` leaves it, in a storage that holds at least
`maskdatacount` words. -/
def WellFormed (m : boardobjgrpmask) : Prop :=
  (m.bitcount = 32 ∨ m.bitcount = 255) ∧
  m.maskdatacount = (m.bitcount + 31) / 32 ∧
  m.lastmaskfilter = tailMaskOf m.bitcount ∧
  m.maskdatacount ≤ m.data.length

instance (m : boardobjgrpmask) : Decidable (WellFormed m) := by
  unfold WellFormed; infer_instance

/-- Every stored word fits in 32 bits. -/
def WordsU32 (l : List Nat) : Prop := ∀ w ∈ l, w < 2 ^ 32

instance (l : List Nat) : Decidable (WordsU32 l) := by
  unfold WordsU32; infer_instance

/-- The normalization invariant: `words[word_count-1] & ~tail_mask == 0`. -/
def Normalized (m : boardobjgrpmask) : Prop :=
  m.data.getD (m.maskdatacount - 1) 0 &&& not32 m.lastmaskfilter = 0

instance (m : boardobjgrpmask) : Decidable (Normalized m) := by
  unfold Normalized; infer_instance

/-- Number of indices `idx < capacity_bits` for which `get_bit(idx)` is true. -/
def setBitCount (m : boardobjgrpmask) : Nat :=
  (List.range m.bitcount).countP (fun idx => boardobjgrpmask_bitget (some m) idx)

/-- An uninitialised storage of eight words, as found behind a 255-bit mask
before `boardobjgrpmask_init` runs. -/
def rawStorage255 : boardobjgrpmask := ⟨0, 0, 0, [0, 0, 0, 0, 0, 0, 0, 0]⟩

/-- An uninitialised storage of one word holding stale contents. -/
def rawStorage32 : boardobjgrpmask := ⟨9, 9, 9, [0xDEADBEEF]⟩

/-- A normalized 255-bit mask with bits 0, 32 and 254 set. -/
def sampleMask255 : boardobjgrpmask :=
  ⟨255, 8, 0x7FFFFFFF, [1, 1, 0, 0, 0, 0, 0, 0x40000000]⟩

/-- A normalized 255-bit mask whose only set bit is bit 70. -/
def sampleMaskBit70 : boardobjgrpmask :=
  ⟨255, 8, 0x7FFFFFFF, [0, 0, 64, 0, 0, 0, 0, 0]⟩

/-- An external buffer of eight words whose last word has its padding bit set. -/
def sampleBuffer255 : ctrl_boardobjgrp_mask :=
  ⟨[0xFFFFFFFF, 1, 2, 3, 4, 5, 6, 0xFFFFFFFF]⟩

/-- An external buffer of eight words with stale contents, the target of an
export. -/
def staleBuffer255 : ctrl_boardobjgrp_mask := ⟨[7, 7, 7, 7, 7, 7, 7, 7]⟩

/-- A 32-bit mask with bits 0 and 31 set. -/
def sampleMask32 : boardobjgrpmask := ⟨32, 1, 0xFFFFFFFF, [0x80000001]⟩

/-- A 32-bit mask with bits 4 to 7 set. -/
def sampleMask32b : boardobjgrpmask := ⟨32, 1, 0xFFFFFFFF, [0xF0]⟩

/-- An external buffer of one word with stale contents. -/
def staleBuffer32 : ctrl_boardobjgrp_mask := ⟨[0x55555555]⟩

/-! # Theorems -/

/-! ## Storage and loop lemmas -/

theorem getD_set_self (l : List Nat) (i v : Nat) (h : i < l.length) :
    (l.set i v).getD i 0 = v := by
  simp [List.getD_eq_getElem?_getD, List.getElem?_set, h]

theorem getD_set_other (l : List Nat) (i j v : Nat) (h : i ≠ j) :
    (l.set i v).getD j 0 = l.getD j 0 := by
  simp [List.getD_eq_getElem?_getD, List.getElem?_set, h]

theorem getD_beyond (l : List Nat) (i : Nat) (h : l.length ≤ i) : l.getD i 0 = 0 := by
  simp [List.getD_eq_getElem?_getD, List.getElem?_eq_none h]

theorem forIndex_set_length (g : Nat → List Nat → Nat) :
    ∀ (n s : Nat) (d : List Nat),
      (forIndex (fun index dd => dd.set index (g index dd)) n s d).length = d.length := by
  intro n
  induction n with
  | zero => intro s d; rfl
  | succ k ih => intro s d; simp [forIndex, ih]

theorem forIndex_set_getD (g : Nat → Nat → Nat) :
    ∀ (n s : Nat) (d : List Nat) (j : Nat),
      (forIndex (fun index dd => dd.set index (g index (dd.getD index 0))) n s d).getD j 0 =
        if s ≤ j ∧ j < s + n ∧ j < d.length then g j (d.getD j 0) else d.getD j 0 := by
  intro n
  induction n with
  | zero =>
    intro s d j
    have h0 : ¬ (s ≤ j ∧ j < s + 0 ∧ j < d.length) := by omega
    rw [if_neg h0]
    rfl
  | succ k ih =>
    intro s d j
    simp only [forIndex]
    rw [ih]
    simp only [List.length_set]
    by_cases hj : j = s
    · subst hj
      have h1 : ¬ (j + 1 ≤ j ∧ j < j + 1 + k ∧ j < d.length) := by omega
      rw [if_neg h1]
      by_cases hl : j < d.length
      · rw [getD_set_self _ _ _ hl, if_pos ⟨le_refl _, by omega, hl⟩]
      · rw [if_neg (by omega)]
        rw [getD_beyond _ _ (by simp; omega), getD_beyond _ _ (by omega)]
    · rw [getD_set_other _ _ _ _ (Ne.symm hj)]
      by_cases hc : s + 1 ≤ j ∧ j < s + 1 + k ∧ j < d.length
      · rw [if_pos hc, if_pos (by omega)]
      · rw [if_neg hc, if_neg (by omega)]

theorem list_eq_of_getD (l1 l2 : List Nat) (hl : l1.length = l2.length)
    (h : ∀ j, j < l1.length → l1.getD j 0 = l2.getD j 0) : l1 = l2 := by
  apply List.ext_getElem hl
  intro n h1 h2
  have := h n h1
  simpa [List.getD_eq_getElem?_getD, List.getElem?_eq_getElem h1, List.getElem?_eq_getElem h2] using this

theorem and_eq_self_of_and_not32 (x t : Nat) (hx : x < 2 ^ 32)
    (h : x &&& not32 t = 0) : x &&& t = x := by
  apply Nat.eq_of_testBit_eq
  intro i
  have hi := congrArg (fun y => y.testBit i) h
  simp only [not32, Nat.testBit_and, Nat.testBit_xor, Nat.zero_testBit] at hi
  rw [Nat.testBit_and]
  by_cases h32 : i < 32
  · have : (0xFFFFFFFF : Nat).testBit i = true := by
      have := Nat.testBit_two_pow_sub_one 32 i
      simpa [h32] using this
    rw [this] at hi
    cases hxi : x.testBit i <;> cases hti : t.testBit i <;> simp_all
  · have : x.testBit i = false := by
      apply Nat.testBit_lt_two_pow
      calc x < 2 ^ 32 := hx
        _ ≤ 2 ^ i := Nat.pow_le_pow_right (by decide) (by omega)
    simp [this]

/-! ## Import, export and the round trip -/

theorem import_data_getD (m : boardobjgrpmask) (e : ctrl_boardobjgrp_mask) (j : Nat) :
    (forIndex (fun index d => d.set index (e.data.getD index 0)) m.maskdatacount 0 m.data).getD j 0
      = if j < m.maskdatacount ∧ j < m.data.length then e.data.getD j 0 else m.data.getD j 0 := by
  have h := forIndex_set_getD (fun i _ => e.data.getD i 0) m.maskdatacount 0 m.data j
  rw [h]
  by_cases hc : j < m.maskdatacount ∧ j < m.data.length
  · rw [if_pos hc, if_pos (by omega)]
  · rw [if_neg hc, if_neg (by omega)]

/-- C2, round trip: for a mask laid out for capacity 32 or 255 and external
buffers `B` and `B'` of `word_count` words, importing `B` and then exporting
into `B'` both succeed, and the exported buffer is `B` with the last word
ANDed with `tail_mask` (every other word as in `B`); when the padding bits of
`B` are already 0 the exported buffer is `B` itself. -/
theorem import_export_round_trip (m : boardobjgrpmask) (B B' : ctrl_boardobjgrp_mask)
    (hm : WellFormed m) (hB : B.data.length = m.maskdatacount)
    (hB' : B'.data.length = m.maskdatacount) :
    (boardobjgrpmask_import (some m) m.bitcount (some B)).1 = 0 ∧
    (boardobjgrpmask_export (boardobjgrpmask_import (some m) m.bitcount (some B)).2.1
        m.bitcount (some B')).1 = 0 ∧
    (boardobjgrpmask_export (boardobjgrpmask_import (some m) m.bitcount (some B)).2.1
        m.bitcount (some B')).2.2 =
      some ⟨B.data.set (m.maskdatacount - 1)
        (B.data.getD (m.maskdatacount - 1) 0 &&& m.lastmaskfilter)⟩ ∧
    (WordsU32 B.data →
      B.data.getD (m.maskdatacount - 1) 0 &&& not32 m.lastmaskfilter = 0 →
      (boardobjgrpmask_export (boardobjgrpmask_import (some m) m.bitcount (some B)).2.1
        m.bitcount (some B')).2.2 = some B) := by
  obtain ⟨hcap, hcnt, htail, hlen⟩ := hm
  have hpos : 1 ≤ m.maskdatacount := by
    rcases hcap with h | h
    · rw [hcnt, h]
    · rw [hcnt, h]; decide
  have key : (boardobjgrpmask_export (boardobjgrpmask_import (some m) m.bitcount (some B)).2.1
        m.bitcount (some B')).2.2 =
      some ⟨B.data.set (m.maskdatacount - 1)
        (B.data.getD (m.maskdatacount - 1) 0 &&& m.lastmaskfilter)⟩ := by
    simp only [boardobjgrpmask_import, boardobjgrpmask_export, ne_eq, not_true_eq_false,
      if_false, BOARDOBJGRPMASK_NORMALIZE]
    congr 2
    apply list_eq_of_getD
    · rw [forIndex_set_length (fun index _ => _)]
      simp [hB, hB']
    · intro j hj
      rw [forIndex_set_length (fun index _ => _)] at hj
      have h := forIndex_set_getD (fun i _ =>
        ((forIndex (fun index d => d.set index (B.data.getD index 0)) m.maskdatacount 0 m.data).set
          (m.maskdatacount - 1)
          ((forIndex (fun index d => d.set index (B.data.getD index 0)) m.maskdatacount 0
            m.data).getD (m.maskdatacount - 1) 0 &&& m.lastmaskfilter)).getD i 0)
        m.maskdatacount 0 B'.data j
      rw [h, if_pos (by omega)]
      by_cases hjl : j = m.maskdatacount - 1
      · subst hjl
        rw [getD_set_self, getD_set_self, import_data_getD, if_pos (by omega)]
        · omega
        · rw [forIndex_set_length (fun index _ => _)]; omega
      · rw [getD_set_other _ _ _ _ (Ne.symm hjl), getD_set_other _ _ _ _ (Ne.symm hjl),
          import_data_getD, if_pos (by omega)]
  refine ⟨by simp [boardobjgrpmask_import], by simp [boardobjgrpmask_import, boardobjgrpmask_export, BOARDOBJGRPMASK_NORMALIZE],
    key, ?_⟩
  intro hw hn
  rw [key]
  congr 1
  have hx : B.data.getD (m.maskdatacount - 1) 0 < 2 ^ 32 := by
    apply hw
    rw [List.getD_eq_getElem _ _ (by omega)]
    exact List.getElem_mem _
  rw [and_eq_self_of_and_not32 _ _ hx hn]
  cases B with
  | mk d =>
    congr 1
    apply list_eq_of_getD
    · simp
    · intro j hj
      by_cases hjl : m.maskdatacount - 1 = j
      · subst hjl
        rw [getD_set_self]
        simpa using hj
      · rw [getD_set_other _ _ _ _ hjl]

/-! ## Population count -/

theorem and_two_pow_ne_zero (x k : Nat) : ((x &&& 2 ^ k) != 0) = x.testBit k := by
  cases hb : x.testBit k
  · have : x &&& 2 ^ k = 0 := by
      apply Nat.eq_of_testBit_eq
      intro i
      rw [Nat.testBit_and, Nat.testBit_two_pow, Nat.zero_testBit]
      by_cases hki : k = i
      · subst hki; simp [hb]
      · simp [hki]
    simp [this]
  · have : x &&& 2 ^ k ≠ 0 := by
      intro h0
      have h1 := congrArg (fun y => y.testBit k) h0
      simp [Nat.testBit_and, Nat.testBit_two_pow, hb] at h1
    simpa using this

theorem bitget_some (m : boardobjgrpmask) (idx : Nat) :
    boardobjgrpmask_bitget (some m) idx =
      (decide (idx < m.bitcount) && (m.data.getD (idx / 32) 0).testBit (idx % 32)) := by
  unfold boardobjgrpmask_bitget
  by_cases h : idx < m.bitcount
  · have h2 : ¬ (idx ≥ m.bitcount) := by omega
    simp only [h2, if_false, h, decide_True, Bool.true_and]
    exact and_two_pow_ne_zero _ _
  · have h2 : idx ≥ m.bitcount := by omega
    simp [h2, h]

/-- Bit `idx` of the storage `d`, read as one long bit string. -/
theorem countP_word (d : List Nat) (s : Nat) :
    (List.range' (32 * s) 32).countP (fun idx => (d.getD (idx / 32) 0).testBit (idx % 32)) =
      NUMSETBITS_32 (d.getD s 0) := by
  rw [List.range'_eq_map_range, List.countP_map]
  unfold NUMSETBITS_32
  apply List.countP_congr
  intro i hi
  have hi' : i < 32 := List.mem_range.mp hi
  have h1 : (32 * s + i) / 32 = s := by omega
  have h2 : (32 * s + i) % 32 = i := by omega
  simp [h1, h2]

theorem bitsetcount_loop (d : List Nat) :
    ∀ (n s r0 : Nat), r0 < 2 ^ 8 →
      forIndex (fun index result => (result + NUMSETBITS_32 (d.getD index 0) % 2 ^ 8) % 2 ^ 8)
          n s r0 =
        (r0 + (List.range' (32 * s) (32 * n)).countP
          (fun idx => (d.getD (idx / 32) 0).testBit (idx % 32))) % 2 ^ 8 := by
  intro n
  induction n with
  | zero =>
    intro s r0 h0
    simp only [forIndex, Nat.mul_zero, List.range'_zero, List.countP_nil, Nat.add_zero]
    exact (Nat.mod_eq_of_lt h0).symm
  | succ k ih =>
    intro s r0 h0
    simp only [forIndex]
    rw [ih _ _ (Nat.mod_lt _ (by decide))]
    have hsplit : List.range' (32 * s) (32 * (k + 1)) =
        List.range' (32 * s) 32 ++ List.range' (32 * (s + 1)) (32 * k) := by
      rw [show 32 * (s + 1) = 32 * s + 32 by ring, List.range'_append_1,
        show 32 * (k + 1) = 32 * k + 32 by ring]
    rw [hsplit, List.countP_append, countP_word]
    omega

theorem normalized_top_bit (m : boardobjgrpmask) (hn : Normalized m)
    (hc : m.maskdatacount = 8) (ht : m.lastmaskfilter = 0x7FFFFFFF) :
    (m.data.getD 7 0).testBit 31 = false := by
  unfold Normalized at hn
  rw [hc, ht] at hn
  have h2 : not32 0x7FFFFFFF = 2 ^ 31 := by decide
  rw [h2] at hn
  rw [← and_two_pow_ne_zero]
  simp at hn
  simp [hn]

theorem setBitCount_eq_storage (m : boardobjgrpmask) (hm : WellFormed m) (hn : Normalized m) :
    (List.range' (32 * 0) (32 * m.maskdatacount)).countP
        (fun idx => (m.data.getD (idx / 32) 0).testBit (idx % 32)) = setBitCount m := by
  obtain ⟨hcap, hcnt, htail, _⟩ := hm
  unfold setBitCount
  rcases hcap with h | h
  · have hc : m.maskdatacount = 1 := by rw [hcnt, h]
    rw [hc, h, Nat.mul_zero, Nat.mul_one, ← List.range_eq_range']
    apply List.countP_congr
    intro i hi
    have hi' : i < 32 := List.mem_range.mp hi
    rw [bitget_some, h]
    simp [hi']
  · have hc : m.maskdatacount = 8 := by rw [hcnt, h]
    have ht : m.lastmaskfilter = 0x7FFFFFFF := by rw [htail, h]; decide
    rw [hc, h, Nat.mul_zero, ← List.range_eq_range', show 32 * 8 = 255 + 1 by decide,
      List.range_succ, List.countP_append]
    have h255 : List.countP (fun idx => (m.data.getD (idx / 32) 0).testBit (idx % 32)) [255] = 0 := by
      have h31 := normalized_top_bit m hn hc ht
      rw [List.countP_cons, List.countP_nil, show 255 / 32 = 7 by decide,
        show 255 % 32 = 31 by decide, h31]
      rfl
    rw [h255, Nat.add_zero]
    apply List.countP_congr
    intro i hi
    have hi' : i < 255 := List.mem_range.mp hi
    rw [bitget_some, h]
    simp [hi']

/-- C6, the population count: for a normalized mask of capacity 32 or 255,
`boardobjgrpmask_bitsetcount` equals the number of indices below
`capacity_bits` whose bit is set (a natural number, so the 8-bit accumulator
did not wrap), hence it is at most `capacity_bits`: at most 255 for capacity
255 and at most 32 for capacity 32. -/
theorem bitsetcount_is_population_count (m : boardobjgrpmask)
    (hm : WellFormed m) (hn : Normalized m) :
    boardobjgrpmask_bitsetcount (some m) = setBitCount m ∧
    boardobjgrpmask_bitsetcount (some m) ≤ m.bitcount ∧
    (m.bitcount = 255 → boardobjgrpmask_bitsetcount (some m) ≤ 255) ∧
    (m.bitcount = 32 → boardobjgrpmask_bitsetcount (some m) ≤ 32) := by
  have hle : setBitCount m ≤ m.bitcount := by
    unfold setBitCount
    have h1 := List.countP_le_length (fun idx => boardobjgrpmask_bitget (some m) idx)
      (l := List.range m.bitcount)
    rwa [List.length_range] at h1
  have hcap : m.bitcount < 2 ^ 8 := by
    rcases hm.1 with h | h <;> rw [h] <;> decide
  have heq : boardobjgrpmask_bitsetcount (some m) = setBitCount m := by
    unfold boardobjgrpmask_bitsetcount
    simp only
    rw [bitsetcount_loop m.data m.maskdatacount 0 0 (by decide), setBitCount_eq_storage m hm hn,
      Nat.zero_add]
    exact Nat.mod_eq_of_lt (lt_of_le_of_lt hle hcap)
  refine ⟨heq, heq ▸ hle, ?_, ?_⟩
  · intro h; rw [heq]; omega
  · intro h; rw [heq]; omega

/-! ## Lowest set bit -/

theorem scanUp_spec (n : Nat) :
    ∀ (fuel i : Nat), (∃ j, i ≤ j ∧ j < i + fuel ∧ n.testBit j = true) →
      i ≤ scanUp n fuel i ∧ scanUp n fuel i < i + fuel ∧
      n.testBit (scanUp n fuel i) = true ∧
      ∀ j, i ≤ j → j < scanUp n fuel i → n.testBit j = false := by
  intro fuel
  induction fuel with
  | zero =>
    intro i h
    obtain ⟨j, h1, h2, _⟩ := h
    omega
  | succ f ih =>
    intro i h
    by_cases hb : n.testBit i = true
    · have e1 : scanUp n (f + 1) i = i := by simp [scanUp, hb]
      rw [e1]
      refine ⟨le_refl _, by omega, hb, ?_⟩
      intro j h1 h2
      omega
    · have e1 : scanUp n (f + 1) i = scanUp n f (i + 1) := by simp [scanUp, hb]
      rw [e1]
      obtain ⟨j, h1, h2, h3⟩ := h
      have hji : j ≠ i := by
        intro e
        rw [e] at h3
        exact hb h3
      obtain ⟨a, b, c, d⟩ := ih (i + 1) ⟨j, by omega, by omega, h3⟩
      refine ⟨by omega, by omega, c, ?_⟩
      intro j2 hj1 hj2
      by_cases e : j2 = i
      · rw [e]; simpa using hb
      · exact d j2 (by omega) hj2

theorem exists_bit_of_ne_zero (w : Nat) (h0 : w ≠ 0) (hw : w < 2 ^ 32) :
    ∃ j, j < 32 ∧ w.testBit j = true := by
  obtain ⟨i, hi⟩ := Nat.ne_zero_implies_bit_true h0
  refine ⟨i, ?_, hi⟩
  by_contra hge
  have h1 : w < 2 ^ i := lt_of_lt_of_le hw (Nat.pow_le_pow_right (by decide) (by omega))
  rw [Nat.testBit_lt_two_pow h1] at hi
  exact Bool.noConfusion hi

theorem lowestbitidx_spec (w : Nat) (h0 : w ≠ 0) (hw : w < 2 ^ 32) :
    LOWESTBITIDX_32 w < 32 ∧ w.testBit (LOWESTBITIDX_32 w) = true ∧
      ∀ j, j < LOWESTBITIDX_32 w → w.testBit j = false := by
  obtain ⟨j, hj, hb⟩ := exists_bit_of_ne_zero w h0 hw
  obtain ⟨_, b, c, d⟩ := scanUp_spec w 32 0 ⟨j, Nat.zero_le _, by omega, hb⟩
  exact ⟨by simpa [LOWESTBITIDX_32] using b, c, fun j hj => d j (Nat.zero_le _) hj⟩

theorem forIndexBreak_all_skip {σ : Type} (body : Nat → σ → σ × Bool) :
    ∀ (n s : Nat) (r0 : σ), (∀ j, s ≤ j → j < s + n → ∀ r, body j r = (r, false)) →
      forIndexBreak body n s r0 = r0 := by
  intro n
  induction n with
  | zero => intro s r0 _; rfl
  | succ k ih =>
    intro s r0 h
    simp only [forIndexBreak, h s (le_refl _) (by omega) r0]
    simp only [Bool.false_eq_true, if_false]
    exact ih (s + 1) r0 (fun j h1 h2 => h j (by omega) (by omega))

theorem forIndexBreak_first_hit {σ : Type} (body : Nat → σ → σ × Bool) :
    ∀ (n s : Nat) (r0 : σ) (k : Nat), s ≤ k → k < s + n →
      (∀ j, s ≤ j → j < k → ∀ r, body j r = (r, false)) →
      (body k r0).2 = true →
      forIndexBreak body n s r0 = (body k r0).1 := by
  intro n
  induction n with
  | zero => intro s r0 k h1 h2; omega
  | succ m ih =>
    intro s r0 k h1 h2 hskip hhit
    by_cases e : k = s
    · subst e
      simp only [forIndexBreak, hhit, if_true]
    · simp only [forIndexBreak, hskip s (le_refl _) (by omega) r0]
      simp only [Bool.false_eq_true, if_false]
      exact ih (s + 1) r0 k (by omega) (by omega)
        (fun j h3 h4 => hskip j (by omega) h4) hhit

theorem bitidxlowest_all_zero (m : boardobjgrpmask)
    (hz : ∀ j, j < m.maskdatacount → m.data.getD j 0 = 0) :
    boardobjgrpmask_bitidxlowest (some m) = CTRL_BOARDOBJ_IDX_INVALID := by
  unfold boardobjgrpmask_bitidxlowest
  apply forIndexBreak_all_skip
  intro j _ h2 r
  have h0 := hz j (by omega)
  simp only [h0, ne_eq, not_true_eq_false, if_false]

theorem bitidxlowest_first_word (m : boardobjgrpmask) (k : Nat) (hk : k < m.maskdatacount)
    (hne : m.data.getD k 0 ≠ 0) (hz : ∀ j, j < k → m.data.getD j 0 = 0) :
    boardobjgrpmask_bitidxlowest (some m) =
      (LOWESTBITIDX_32 (m.data.getD k 0) % 2 ^ 8 +
        k * CTRL_BOARDOBJGRP_MASK_MASK_ELEMENT_BIT_SIZE) % 2 ^ 8 := by
  unfold boardobjgrpmask_bitidxlowest
  simp only
  rw [forIndexBreak_first_hit _ m.maskdatacount 0 CTRL_BOARDOBJ_IDX_INVALID k (Nat.zero_le _)
    (by omega)]
  · simp only [hne, ne_eq, not_false_eq_true, if_true]
  · intro j _ h2 r
    have h0 := hz j h2
    simp only [h0, ne_eq, not_true_eq_false, if_false]
  · simp only [hne, ne_eq, not_false_eq_true, if_true]

theorem getD_lt_of_wordsU32 (l : List Nat) (hu : WordsU32 l) (i : Nat) :
    l.getD i 0 < 2 ^ 32 := by
  by_cases h : i < l.length
  · rw [List.getD_eq_getElem _ _ h]
    exact hu _ (List.getElem_mem _)
  · rw [getD_beyond _ _ (by omega)]
    decide

/-- What the scan returns at the first non-zero word of a well-formed,
normalized mask. -/
theorem bitidxlowest_at_first_word (m : boardobjgrpmask)
    (hm : WellFormed m) (hu : WordsU32 m.data) (hn : Normalized m)
    (k : Nat) (hk : k < m.maskdatacount)
    (hne : m.data.getD k 0 ≠ 0) (hz : ∀ j, j < k → m.data.getD j 0 = 0) :
    boardobjgrpmask_bitidxlowest (some m) = LOWESTBITIDX_32 (m.data.getD k 0) + 32 * k ∧
    LOWESTBITIDX_32 (m.data.getD k 0) + 32 * k < m.bitcount ∧
    boardobjgrpmask_bitget (some m) (boardobjgrpmask_bitidxlowest (some m)) = true ∧
    ∀ j, j < boardobjgrpmask_bitidxlowest (some m) →
      boardobjgrpmask_bitget (some m) j = false := by
  obtain ⟨ho, hbit, hlow⟩ :=
    lowestbitidx_spec (m.data.getD k 0) hne (getD_lt_of_wordsU32 _ hu k)
  obtain ⟨hcap, hcnt, htail, _⟩ := hm
  have hk8 : k < 8 := by
    rcases hcap with h | h <;> rw [hcnt, h] at hk <;> omega
  have hr : boardobjgrpmask_bitidxlowest (some m) =
      LOWESTBITIDX_32 (m.data.getD k 0) + 32 * k := by
    rw [bitidxlowest_first_word m k hk hne hz, CTRL_BOARDOBJGRP_MASK_MASK_ELEMENT_BIT_SIZE]
    omega
  have hlt : LOWESTBITIDX_32 (m.data.getD k 0) + 32 * k < m.bitcount := by
    rcases hcap with h | h
    · have hc : m.maskdatacount = 1 := by rw [hcnt, h]
      rw [h]; omega
    · have hc : m.maskdatacount = 8 := by rw [hcnt, h]
      have ht : m.lastmaskfilter = 0x7FFFFFFF := by rw [htail, h]; decide
      have h31 := normalized_top_bit m hn hc ht
      rw [h]
      by_cases hk7 : k = 7
      · subst hk7
        have : LOWESTBITIDX_32 (m.data.getD 7 0) ≠ 31 := by
          intro e
          rw [e, h31] at hbit
          exact Bool.noConfusion hbit
        omega
      · omega
  refine ⟨hr, hlt, ?_, ?_⟩
  · rw [hr, bitget_some]
    have h1 : (LOWESTBITIDX_32 (m.data.getD k 0) + 32 * k) / 32 = k := by omega
    have h2 : (LOWESTBITIDX_32 (m.data.getD k 0) + 32 * k) % 32 =
        LOWESTBITIDX_32 (m.data.getD k 0) := by omega
    rw [h1, h2, hbit, decide_eq_true hlt]
    rfl
  · intro j hj
    rw [hr] at hj
    rw [bitget_some]
    by_cases hjk : j / 32 < k
    · rw [hz _ hjk]
      simp
    · have h1 : j / 32 = k := by omega
      rw [h1, hlow (j % 32) (by omega)]
      simp

/-- C4, the lowest set bit index: for a normalized mask of capacity 32 or
255, `boardobjgrpmask_bitidxlowest` returns the sentinel 255 exactly when no
bit is set; when some bit is set it returns a valid index whose bit is set
and below which no bit is set; the value is the lowest set bit of the first
non-zero word plus 32 times that word's index, a sum that stays below
`2 ^ 8`; and the sentinel is not a valid index. -/
theorem bitidxlowest_correct (m : boardobjgrpmask)
    (hm : WellFormed m) (hu : WordsU32 m.data) (hn : Normalized m) :
    (boardobjgrpmask_bitidxlowest (some m) = CTRL_BOARDOBJ_IDX_INVALID ↔
      ∀ idx, idx < m.bitcount → boardobjgrpmask_bitget (some m) idx = false) ∧
    ((∃ idx, idx < m.bitcount ∧ boardobjgrpmask_bitget (some m) idx = true) →
      boardobjgrpmask_bitidxlowest (some m) < m.bitcount ∧
      boardobjgrpmask_bitget (some m) (boardobjgrpmask_bitidxlowest (some m)) = true ∧
      ∀ j, j < boardobjgrpmask_bitidxlowest (some m) →
        boardobjgrpmask_bitget (some m) j = false) ∧
    (∀ k, k < m.maskdatacount → m.data.getD k 0 ≠ 0 →
      (∀ j, j < k → m.data.getD j 0 = 0) →
      boardobjgrpmask_bitidxlowest (some m) = LOWESTBITIDX_32 (m.data.getD k 0) + 32 * k ∧
      LOWESTBITIDX_32 (m.data.getD k 0) + 32 * k < 2 ^ 8) ∧
    ¬ (CTRL_BOARDOBJ_IDX_INVALID < m.bitcount) := by
  have hcap := hm.1
  have hcnt := hm.2.1
  have hbc : m.bitcount ≤ 255 := by rcases hcap with h | h <;> omega
  have hwc : m.bitcount ≤ 32 * m.maskdatacount := by
    rcases hcap with h | h
    · rw [hcnt, h]
    · rw [hcnt, h]; decide
  -- a set bit lies in a non-zero word, and the first non-zero word exists then
  have hfirst : (∃ idx, idx < m.bitcount ∧ boardobjgrpmask_bitget (some m) idx = true) →
      ∃ k, k < m.maskdatacount ∧ m.data.getD k 0 ≠ 0 ∧ ∀ j, j < k → m.data.getD j 0 = 0 := by
    rintro ⟨idx, hlt, hb⟩
    have hex : ∃ k, k < m.maskdatacount ∧ m.data.getD k 0 ≠ 0 := by
      refine ⟨idx / 32, by omega, ?_⟩
      intro h0
      rw [bitget_some, h0] at hb
      simp at hb
    refine ⟨Nat.find hex, (Nat.find_spec hex).1, (Nat.find_spec hex).2, ?_⟩
    intro j hj
    by_contra hne
    exact Nat.find_min hex hj ⟨lt_trans hj (Nat.find_spec hex).1, hne⟩
  have hsome : (∃ idx, idx < m.bitcount ∧ boardobjgrpmask_bitget (some m) idx = true) →
      boardobjgrpmask_bitidxlowest (some m) < m.bitcount ∧
      boardobjgrpmask_bitget (some m) (boardobjgrpmask_bitidxlowest (some m)) = true ∧
      ∀ j, j < boardobjgrpmask_bitidxlowest (some m) →
        boardobjgrpmask_bitget (some m) j = false := by
    intro h
    obtain ⟨k, hk, hne, hz⟩ := hfirst h
    obtain ⟨a, b, c, d⟩ := bitidxlowest_at_first_word m hm hu hn k hk hne hz
    exact ⟨a ▸ b, c, d⟩
  refine ⟨⟨?_, ?_⟩, hsome, ?_, ?_⟩
  · intro hret idx hidx
    by_contra hb
    have hb' : boardobjgrpmask_bitget (some m) idx = true := by simpa using hb
    have := (hsome ⟨idx, hidx, hb'⟩).1
    rw [hret, CTRL_BOARDOBJ_IDX_INVALID] at this
    omega
  · intro hnone
    apply bitidxlowest_all_zero
    intro j hj
    by_contra hne
    have hex : ∃ k, k < m.maskdatacount ∧ m.data.getD k 0 ≠ 0 := ⟨j, hj, hne⟩
    have hz : ∀ i, i < Nat.find hex → m.data.getD i 0 = 0 := by
      intro i hi
      by_contra hne2
      exact Nat.find_min hex hi ⟨lt_trans hi (Nat.find_spec hex).1, hne2⟩
    obtain ⟨a, b, c, _⟩ := bitidxlowest_at_first_word m hm hu hn (Nat.find hex)
      (Nat.find_spec hex).1 (Nat.find_spec hex).2 hz
    rw [hnone _ (a ▸ b)] at c
    exact Bool.noConfusion c
  · intro k hk hne hz
    obtain ⟨a, b, _, _⟩ := bitidxlowest_at_first_word m hm hu hn k hk hne hz
    exact ⟨a, by omega⟩
  · rw [CTRL_BOARDOBJ_IDX_INVALID]; omega

/-! ## Initialisation -/

/-- C7, failure of init: `boardobjgrpmask_init` returns `-EINVAL` if and only
if the mask is absent or the capacity is neither 32 nor 255; when it fails
the mask is left as it was; and with a present mask and capacity 32 or 255 it
returns 0, with or without an initial buffer. -/
theorem init_fails_iff_absent_or_unsupported (mask : Option boardobjgrpmask) (bitsize : Nat)
    (extmask : Option ctrl_boardobjgrp_mask) :
    ((boardobjgrpmask_init mask bitsize extmask).1 = NEG_EINVAL_U32 ↔
      (mask = none ∨ (bitsize ≠ 32 ∧ bitsize ≠ 255))) ∧
    ((boardobjgrpmask_init mask bitsize extmask).1 = NEG_EINVAL_U32 →
      (boardobjgrpmask_init mask bitsize extmask).2.1 = mask) ∧
    (mask ≠ none → (bitsize = 32 ∨ bitsize = 255) →
      (boardobjgrpmask_init mask bitsize extmask).1 = 0) := by
  have hne : NEG_EINVAL_U32 ≠ 0 := by decide
  cases mask with
  | none => simp [boardobjgrpmask_init]
  | some m =>
    by_cases hb : bitsize ≠ 32 ∧ bitsize ≠ 255
    · simp [boardobjgrpmask_init, CTRL_BOARDOBJGRP_E32_MAX_OBJECTS,
        CTRL_BOARDOBJGRP_E255_MAX_OBJECTS, hb]
    · have hs : (boardobjgrpmask_init (some m) bitsize extmask).1 = 0 := by
        cases extmask with
        | none =>
          simp [boardobjgrpmask_init, CTRL_BOARDOBJGRP_E32_MAX_OBJECTS,
            CTRL_BOARDOBJGRP_E255_MAX_OBJECTS, hb, boardobjgrpmask_clr]
        | some e =>
          simp [boardobjgrpmask_init, CTRL_BOARDOBJGRP_E32_MAX_OBJECTS,
            CTRL_BOARDOBJGRP_E255_MAX_OBJECTS, hb, boardobjgrpmask_import]
      refine ⟨⟨?_, ?_⟩, ?_, ?_⟩
      · intro h; rw [hs] at h; exact absurd h.symm hne
      · intro h
        rcases h with h | h
        · exact Option.noConfusion h
        · exact absurd h hb
      · intro h; rw [hs] at h; exact absurd h.symm hne
      · intro _ _; exact hs

/-- The mask `boardobjgrpmask_init` hands to `boardobjgrpmask_clr` or
`boardobjgrpmask_import` for a supported capacity: the three layout fields
are set, the storage is still untouched. -/
theorem init_supported (m : boardobjgrpmask) (bitsize : Nat)
    (extmask : Option ctrl_boardobjgrp_mask) (hb : bitsize = 32 ∨ bitsize = 255) :
    boardobjgrpmask_init (some m) bitsize extmask =
      match extmask with
      | none =>
        (0, some ⟨bitsize, (bitsize + 31) / 32, tailMaskOf bitsize,
          forIndex (fun index d => d.set index 0) ((bitsize + 31) / 32) 0 m.data⟩, none)
      | some e =>
        boardobjgrpmask_import
          (some ⟨bitsize, (bitsize + 31) / 32, tailMaskOf bitsize, m.data⟩) bitsize (some e) := by
  have hb' : ¬ (bitsize ≠ 32 ∧ bitsize ≠ 255) := by omega
  have ht : (if bitsize % 32 = 0 then 0xFFFFFFFF else (2 ^ (bitsize % 32) - 1) % 2 ^ 32) =
      tailMaskOf bitsize := by
    rcases hb with h | h <;> rw [h] <;> decide
  cases extmask with
  | none =>
    simp only [boardobjgrpmask_init, CTRL_BOARDOBJGRP_E32_MAX_OBJECTS,
      CTRL_BOARDOBJGRP_E255_MAX_OBJECTS, hb', if_false, boardobjgrpmask_clr,
      CTRL_BOARDOBJGRP_MASK_DATA_SIZE, CTRL_BOARDOBJGRP_MASK_MASK_ELEMENT_BIT_SIZE, BIT, ht]
  | some e =>
    simp only [boardobjgrpmask_init, CTRL_BOARDOBJGRP_E32_MAX_OBJECTS,
      CTRL_BOARDOBJGRP_E255_MAX_OBJECTS, hb', if_false,
      CTRL_BOARDOBJGRP_MASK_DATA_SIZE, CTRL_BOARDOBJGRP_MASK_MASK_ELEMENT_BIT_SIZE, BIT, ht]

theorem testBit_tailMaskOf (bits i : Nat) :
    (tailMaskOf bits).testBit i =
      decide (i < (if bits % 32 = 0 then 32 else bits % 32)) := by
  unfold tailMaskOf
  by_cases h : bits % 32 = 0
  · rw [if_pos h, if_pos h]
    exact Nat.testBit_two_pow_sub_one 32 i
  · rw [if_neg h, if_neg h]
    exact Nat.testBit_two_pow_sub_one _ i

/-- C8, the layout fields: after a successful `boardobjgrpmask_init` the mask
has `bitcount` equal to the capacity, `maskdatacount` equal to
`ceil(capacity / 32)` (the least count of 32-bit words that holds the
capacity), and a `lastmaskfilter` whose set bits are exactly the low
`capacity mod 32` bits, or all 32 bits when `capacity mod 32 = 0`; capacity
32 gives 1 word and `0xFFFFFFFF`, capacity 255 gives 8 words and
`0x7FFFFFFF`. -/
theorem init_derives_layout (mask : Option boardobjgrpmask) (bitsize : Nat)
    (extmask : Option ctrl_boardobjgrp_mask)
    (hok : (boardobjgrpmask_init mask bitsize extmask).1 = 0) :
    ∃ m', (boardobjgrpmask_init mask bitsize extmask).2.1 = some m' ∧
      m'.bitcount = bitsize ∧
      32 * (m'.maskdatacount - 1) < bitsize ∧ bitsize ≤ 32 * m'.maskdatacount ∧
      (∀ i, m'.lastmaskfilter.testBit i =
        decide (i < (if bitsize % 32 = 0 then 32 else bitsize % 32))) ∧
      (bitsize = 32 → m'.maskdatacount = 1 ∧ m'.lastmaskfilter = 0xFFFFFFFF) ∧
      (bitsize = 255 → m'.maskdatacount = 8 ∧ m'.lastmaskfilter = 0x7FFFFFFF) := by
  have hne : NEG_EINVAL_U32 ≠ 0 := by decide
  cases mask with
  | none =>
    simp only [boardobjgrpmask_init] at hok
    exact absurd hok hne
  | some m =>
    by_cases hb : bitsize = 32 ∨ bitsize = 255
    · have hfields : ∃ d, (boardobjgrpmask_init (some m) bitsize extmask).2.1 =
          some ⟨bitsize, (bitsize + 31) / 32, tailMaskOf bitsize, d⟩ := by
        rw [init_supported m bitsize extmask hb]
        cases extmask with
        | none => exact ⟨_, rfl⟩
        | some e =>
          simp only [boardobjgrpmask_import, ne_eq, not_true_eq_false, if_false,
            BOARDOBJGRPMASK_NORMALIZE]
          exact ⟨_, rfl⟩
      obtain ⟨d, hd⟩ := hfields
      refine ⟨_, hd, rfl, ?_, ?_, fun i => testBit_tailMaskOf bitsize i, ?_, ?_⟩
      · show 32 * ((bitsize + 31) / 32 - 1) < bitsize
        omega
      · show bitsize ≤ 32 * ((bitsize + 31) / 32)
        omega
      · intro h
        show (bitsize + 31) / 32 = 1 ∧ tailMaskOf bitsize = 0xFFFFFFFF
        rw [h]
        exact ⟨by decide, by decide⟩
      · intro h
        show (bitsize + 31) / 32 = 8 ∧ tailMaskOf bitsize = 0x7FFFFFFF
        rw [h]
        exact ⟨by decide, by decide⟩
    · have hb' : bitsize ≠ 32 ∧ bitsize ≠ 255 := by omega
      simp only [boardobjgrpmask_init, CTRL_BOARDOBJGRP_E32_MAX_OBJECTS,
        CTRL_BOARDOBJGRP_E255_MAX_OBJECTS] at hok
      rw [if_pos hb'] at hok
      exact absurd hok hne

theorem import_some_eq (m : boardobjgrpmask) (e : ctrl_boardobjgrp_mask) :
    boardobjgrpmask_import (some m) m.bitcount (some e) =
      (0, some ⟨m.bitcount, m.maskdatacount, m.lastmaskfilter,
        (forIndex (fun index d => d.set index (e.data.getD index 0)) m.maskdatacount 0 m.data).set
          (m.maskdatacount - 1)
          ((forIndex (fun index d => d.set index (e.data.getD index 0))
            m.maskdatacount 0 m.data).getD (m.maskdatacount - 1) 0 &&& m.lastmaskfilter)⟩,
       some e) := by
  simp only [boardobjgrpmask_import, ne_eq, not_true_eq_false, if_false,
    BOARDOBJGRPMASK_NORMALIZE]

/-- The words of a mask after a successful import. -/
theorem import_words (m : boardobjgrpmask) (e : ctrl_boardobjgrp_mask)
    (hlen : m.maskdatacount ≤ m.data.length) (i : Nat) (hi : i < m.maskdatacount) :
    ((forIndex (fun index d => d.set index (e.data.getD index 0)) m.maskdatacount 0 m.data).set
          (m.maskdatacount - 1)
          ((forIndex (fun index d => d.set index (e.data.getD index 0))
            m.maskdatacount 0 m.data).getD (m.maskdatacount - 1) 0 &&& m.lastmaskfilter)).getD i 0 =
      if i = m.maskdatacount - 1 then e.data.getD i 0 &&& m.lastmaskfilter
      else e.data.getD i 0 := by
  by_cases h : i = m.maskdatacount - 1
  · rw [if_pos h, ← h, getD_set_self, import_data_getD, if_pos ⟨hi, by omega⟩]
    rw [forIndex_set_length (fun index _ => e.data.getD index 0)]
    omega
  · rw [if_neg h, getD_set_other _ _ _ _ (Ne.symm h), import_data_getD, if_pos ⟨hi, by omega⟩]

theorem clr_words (wc : Nat) (d : List Nat) (i : Nat) :
    (forIndex (fun index d => d.set index 0) wc 0 d).getD i 0 =
      if i < wc then 0 else d.getD i 0 := by
  rw [forIndex_set_getD (fun _ _ => 0) wc 0 d i]
  by_cases h : i < wc
  · rw [if_pos h]
    by_cases h2 : i < d.length
    · rw [if_pos (by omega)]
    · rw [if_neg (by omega), getD_beyond _ _ (by omega)]
  · rw [if_neg h, if_neg (by omega)]

theorem iszero_of_words_zero (m : boardobjgrpmask)
    (hz : ∀ i, i < m.maskdatacount → m.data.getD i 0 = 0) :
    boardobjgrpmask_iszero (some m) = true := by
  unfold boardobjgrpmask_iszero
  apply forIndexBreak_all_skip
  intro j _ h2 r
  have h0 := hz j (by omega)
  simp only [h0, ne_eq, not_true_eq_false, if_false]

/-- C9, the initial contents: for capacity 32 or 255 and a storage of at
least `word_count` words with arbitrary previous contents, init without a
buffer yields a mask whose `word_count` words are all 0, for which `is_zero`
holds and whose words are those `clear` gives on any mask of that word count;
init with a buffer yields, word for word, what `import` of that buffer yields
on any mask laid out for that capacity. -/
theorem init_initial_contents (m : boardobjgrpmask) (bitsize : Nat)
    (hb : bitsize = 32 ∨ bitsize = 255)
    (hlen : CTRL_BOARDOBJGRP_MASK_DATA_SIZE bitsize ≤ m.data.length) :
    (∃ m', (boardobjgrpmask_init (some m) bitsize none).2.1 = some m' ∧
      (∀ i, i < m'.maskdatacount → m'.data.getD i 0 = 0) ∧
      boardobjgrpmask_iszero (some m') = true ∧
      ∀ c, ∃ c', (boardobjgrpmask_clr (some c)).2 = some c' ∧
        (c.maskdatacount = m'.maskdatacount →
          ∀ i, i < m'.maskdatacount → m'.data.getD i 0 = c'.data.getD i 0)) ∧
    (∀ B m2, WellFormed m2 → m2.bitcount = bitsize →
      ∃ m' m2',
        (boardobjgrpmask_init (some m) bitsize (some B)).2.1 = some m' ∧
        (boardobjgrpmask_import (some m2) bitsize (some B)).2.1 = some m2' ∧
        m'.maskdatacount = m2'.maskdatacount ∧
        ∀ i, i < m'.maskdatacount → m'.data.getD i 0 = m2'.data.getD i 0) := by
  have hlen' : (bitsize + 31) / 32 ≤ m.data.length := hlen
  constructor
  · rw [init_supported m bitsize none hb]
    refine ⟨_, rfl, ?_, ?_, ?_⟩
    · intro i hi
      rw [clr_words, if_pos hi]
    · apply iszero_of_words_zero
      intro i hi
      rw [clr_words, if_pos hi]
    · intro c
      refine ⟨_, rfl, ?_⟩
      intro hc i hi
      rw [clr_words, if_pos hi, clr_words, if_pos (by rw [hc]; exact hi)]
  · intro B m2 hm2 hbc
    obtain ⟨_, hcnt, htail, hl2⟩ := hm2
    rw [init_supported m bitsize (some B) hb]
    dsimp only
    have e1 := import_some_eq ⟨bitsize, (bitsize + 31) / 32, tailMaskOf bitsize, m.data⟩ B
    have e2 := import_some_eq m2 B
    rw [hbc] at e2
    simp only at e1
    rw [e1, e2]
    refine ⟨_, _, rfl, rfl, ?_, ?_⟩
    · show (bitsize + 31) / 32 = m2.maskdatacount
      rw [hcnt, hbc]
    · intro i hi
      have hi1 : i < (bitsize + 31) / 32 := hi
      have hi2 : i < m2.maskdatacount := by rw [hcnt, hbc]; exact hi1
      have w1 := import_words ⟨bitsize, (bitsize + 31) / 32, tailMaskOf bitsize, m.data⟩ B
        hlen' i hi1
      have w2 := import_words m2 B hl2 i hi2
      simp only at w1
      show List.getD _ i 0 = List.getD _ i 0
      rw [w1, w2, hcnt, htail, hbc]

/-! ## Argument validation, and evaluations of the single-bit inversion and the highest-bit scan -/

/-- C10, validation before any write: when the mask or the buffer is absent,
or the capacity argument differs from the mask's `bitcount`, both
`boardobjgrpmask_import` and `boardobjgrpmask_export` return `-EINVAL` and
leave the mask and the external buffer exactly as they were; when both are
present and the capacity matches, both return 0. -/
theorem import_export_validate_capacity (mask : Option boardobjgrpmask) (bitsize : Nat)
    (extmask : Option ctrl_boardobjgrp_mask) :
    ((mask = none ∨ extmask = none ∨ ∃ m, mask = some m ∧ m.bitcount ≠ bitsize) →
      boardobjgrpmask_import mask bitsize extmask = (NEG_EINVAL_U32, mask, extmask) ∧
      boardobjgrpmask_export mask bitsize extmask = (NEG_EINVAL_U32, mask, extmask)) ∧
    (∀ m e, mask = some m → extmask = some e → m.bitcount = bitsize →
      (boardobjgrpmask_import mask bitsize extmask).1 = 0 ∧
      (boardobjgrpmask_export mask bitsize extmask).1 = 0) := by
  constructor
  · intro h
    cases mask with
    | none => exact ⟨by simp [boardobjgrpmask_import], by simp [boardobjgrpmask_export]⟩
    | some m =>
      cases extmask with
      | none => exact ⟨by simp [boardobjgrpmask_import], by simp [boardobjgrpmask_export]⟩
      | some e =>
        rcases h with h | h | ⟨m1, h1, h2⟩
        · exact Option.noConfusion h
        · exact Option.noConfusion h
        · have hm : m1 = m := (Option.some.inj h1).symm
          subst hm
          exact ⟨by simp [boardobjgrpmask_import, h2], by simp [boardobjgrpmask_export, h2]⟩
  · intro m e hm he hbc
    subst hm he
    exact ⟨by simp [boardobjgrpmask_import, hbc], by simp [boardobjgrpmask_export, hbc]⟩

/-- C1, the normalization invariant, evaluated where the code breaks it: a
255-bit mask is initialised without a buffer (which succeeds and gives a
normalized mask), then `boardobjgrpmask_bitinv` is applied at index 224.  The
call succeeds and leaves the last word `0xFFFFFFFE`: its bit 31, position 255
of the mask and beyond the capacity, is 1, so
`words[word_count-1] & ~tail_mask` is `0x80000000` instead of 0. -/
theorem bitinv_breaks_normalization :
    (boardobjgrpmask_init (some rawStorage255) 255 none).1 = 0 ∧
    (∃ m0, (boardobjgrpmask_init (some rawStorage255) 255 none).2.1 = some m0 ∧
      Normalized m0) ∧
    boardobjgrpmask_bitinv (boardobjgrpmask_init (some rawStorage255) 255 none).2.1 224 =
      (0, some ⟨255, 8, 0x7FFFFFFF, [0, 0, 0, 0, 0, 0, 0, 0xFFFFFFFE]⟩) ∧
    ¬ Normalized ⟨255, 8, 0x7FFFFFFF, [0, 0, 0, 0, 0, 0, 0, 0xFFFFFFFE]⟩ ∧
    (0xFFFFFFFE : Nat) &&& not32 0x7FFFFFFF = 0x80000000 := by
  refine ⟨by decide, ⟨⟨255, 8, 0x7FFFFFFF, [0, 0, 0, 0, 0, 0, 0, 0]⟩, by decide, by decide⟩,
    by decide, by decide, by decide⟩

/-- C3, the highest set bit index, evaluated where the code misses it: on the
normalized 255-bit mask obtained from a fresh mask by `set_bit(0)` and
`set_bit(32)`, bit 32 is set, yet `boardobjgrpmask_bitidxhighest` returns 0:
its scan runs upward from word 0 and stops at the first non-zero word. -/
theorem bitidxhighest_stops_at_first_nonzero_word :
    (boardobjgrpmask_bitset
      (boardobjgrpmask_bitset (boardobjgrpmask_init (some rawStorage255) 255 none).2.1 0).2
      32) = (0, some ⟨255, 8, 0x7FFFFFFF, [1, 1, 0, 0, 0, 0, 0, 0]⟩) ∧
    Normalized ⟨255, 8, 0x7FFFFFFF, [1, 1, 0, 0, 0, 0, 0, 0]⟩ ∧
    boardobjgrpmask_bitget (some ⟨255, 8, 0x7FFFFFFF, [1, 1, 0, 0, 0, 0, 0, 0]⟩) 32 = true ∧
    boardobjgrpmask_bitidxhighest (some ⟨255, 8, 0x7FFFFFFF, [1, 1, 0, 0, 0, 0, 0, 0]⟩) = 0 := by
  decide

/-- C5, the single-bit toggle, evaluated where the code misses it: on the
zero mask of capacity 32, `get_bit(0)` is false; `boardobjgrpmask_bitinv` at
index 0 succeeds and turns the word into `0xFFFFFFFE`; afterwards `get_bit(0)`
is still false (the target bit kept its value) while bit 1, which was not the
target, has become true. -/
theorem bitinv_leaves_target_bit :
    (boardobjgrpmask_init (some rawStorage32) 32 none).2.1 =
      some ⟨32, 1, 0xFFFFFFFF, [0]⟩ ∧
    boardobjgrpmask_bitget (some ⟨32, 1, 0xFFFFFFFF, [0]⟩) 0 = false ∧
    boardobjgrpmask_bitinv (some ⟨32, 1, 0xFFFFFFFF, [0]⟩) 0 =
      (0, some ⟨32, 1, 0xFFFFFFFF, [0xFFFFFFFE]⟩) ∧
    boardobjgrpmask_bitget (some ⟨32, 1, 0xFFFFFFFF, [0xFFFFFFFE]⟩) 0 = false ∧
    boardobjgrpmask_bitget (some ⟨32, 1, 0xFFFFFFFF, [0xFFFFFFFE]⟩) 1 = true := by
  decide

/-! ## Instances at concrete masks -/

/-- Witness of C2: a 255-bit import whose buffer has its padding bit set,
exported into a stale buffer, returns the buffer with only that bit cleared. -/
theorem import_export_round_trip_witness :
    (boardobjgrpmask_export
        (boardobjgrpmask_import (some sampleMask255) 255 (some sampleBuffer255)).2.1
        255 (some staleBuffer255)).2.2 =
      some ⟨[0xFFFFFFFF, 1, 2, 3, 4, 5, 6, 0x7FFFFFFF]⟩ :=
  (import_export_round_trip sampleMask255 sampleBuffer255 staleBuffer255
    (by decide) (by decide) (by decide)).2.2.1

/-- Witness of C4: on the mask whose only set bit is bit 70 the scan answers
from word 2. -/
theorem bitidxlowest_correct_witness :
    boardobjgrpmask_bitidxlowest (some sampleMaskBit70) = LOWESTBITIDX_32 64 + 32 * 2 ∧
    LOWESTBITIDX_32 64 + 32 * 2 < 2 ^ 8 :=
  (bitidxlowest_correct sampleMaskBit70 (by decide) (by decide) (by decide)).2.2.1
    2 (by decide) (by decide) (by decide)

/-- Witness of C6: the count of the sample 255-bit mask. -/
theorem bitsetcount_is_population_count_witness :
    boardobjgrpmask_bitsetcount (some sampleMask255) = setBitCount sampleMask255 ∧
    boardobjgrpmask_bitsetcount (some sampleMask255) ≤ 255 :=
  ⟨(bitsetcount_is_population_count sampleMask255 (by decide) (by decide)).1,
   (bitsetcount_is_population_count sampleMask255 (by decide) (by decide)).2.1⟩

/-- Witness of C8: the layout after initialising a 255-bit mask. -/
theorem init_derives_layout_witness :
    ∃ m', (boardobjgrpmask_init (some rawStorage255) 255 none).2.1 = some m' ∧
      m'.bitcount = 255 ∧
      32 * (m'.maskdatacount - 1) < 255 ∧ 255 ≤ 32 * m'.maskdatacount ∧
      (∀ i, m'.lastmaskfilter.testBit i =
        decide (i < (if 255 % 32 = 0 then 32 else 255 % 32))) ∧
      (255 = 32 → m'.maskdatacount = 1 ∧ m'.lastmaskfilter = 0xFFFFFFFF) ∧
      (255 = 255 → m'.maskdatacount = 8 ∧ m'.lastmaskfilter = 0x7FFFFFFF) :=
  init_derives_layout (some rawStorage255) 255 none (by decide)

/-- Witness of C9: initialising the one-word storage with stale contents and
no buffer leaves a zero mask. -/
theorem init_initial_contents_witness :
    ∃ m', (boardobjgrpmask_init (some rawStorage32) 32 none).2.1 = some m' ∧
      (∀ i, i < m'.maskdatacount → m'.data.getD i 0 = 0) ∧
      boardobjgrpmask_iszero (some m') = true ∧
      ∀ c, ∃ c', (boardobjgrpmask_clr (some c)).2 = some c' ∧
        (c.maskdatacount = m'.maskdatacount →
          ∀ i, i < m'.maskdatacount → m'.data.getD i 0 = c'.data.getD i 0) :=
  (init_initial_contents rawStorage32 32 (Or.inl rfl) (by decide)).1

/-! ## Export as a pure read -/

/-- The words an export leaves in the external buffer. -/
theorem export_data_getD (m : boardobjgrpmask) (e : ctrl_boardobjgrp_mask) (j : Nat) :
    (forIndex (fun index d => d.set index (m.data.getD index 0)) m.maskdatacount 0 e.data).getD j 0
      = if j < m.maskdatacount ∧ j < e.data.length then m.data.getD j 0 else e.data.getD j 0 := by
  have h := forIndex_set_getD (fun i _ => m.data.getD i 0) m.maskdatacount 0 e.data j
  rw [h]
  by_cases hc : j < m.maskdatacount ∧ j < e.data.length
  · rw [if_pos hc, if_pos (by omega)]
  · rw [if_neg hc, if_neg (by omega)]

/-- C11, export is a pure read: for every mask, with the capacity argument
equal to the mask's `bitcount` and an external buffer that holds at least
`word_count` words, `boardobjgrpmask_export` returns 0, hands the mask back
exactly as it was (capacity, word count, tail mask and every word; the source
is not renormalized), and leaves a buffer of the same length whose first
`word_count` words are the mask's words and whose further words are
untouched. -/
theorem export_is_pure_read (m : boardobjgrpmask) (e : ctrl_boardobjgrp_mask)
    (hlen : m.maskdatacount ≤ e.data.length) :
    (boardobjgrpmask_export (some m) m.bitcount (some e)).1 = 0 ∧
    (boardobjgrpmask_export (some m) m.bitcount (some e)).2.1 = some m ∧
    ∃ e', (boardobjgrpmask_export (some m) m.bitcount (some e)).2.2 = some e' ∧
      e'.data.length = e.data.length ∧
      (∀ i, i < m.maskdatacount → e'.data.getD i 0 = m.data.getD i 0) ∧
      (∀ i, m.maskdatacount ≤ i → e'.data.getD i 0 = e.data.getD i 0) := by
  have hx : boardobjgrpmask_export (some m) m.bitcount (some e) =
      (0, some m, some ⟨forIndex (fun index d => d.set index (m.data.getD index 0))
        m.maskdatacount 0 e.data⟩) := by
    simp only [boardobjgrpmask_export, ne_eq, not_true_eq_false, if_false]
  rw [hx]
  refine ⟨rfl, rfl, _, rfl, ?_, ?_, ?_⟩
  · exact forIndex_set_length (fun index _ => m.data.getD index 0) _ _ _
  · intro i hi
    show List.getD _ i 0 = _
    rw [export_data_getD, if_pos ⟨hi, by omega⟩]
  · intro i hi
    show List.getD _ i 0 = _
    rw [export_data_getD, if_neg (by omega)]

/-- Witness of C11: exporting the sample 255-bit mask into a stale buffer of
eight words. -/
theorem export_is_pure_read_witness :
    (boardobjgrpmask_export (some sampleMask255) 255 (some staleBuffer255)).1 = 0 ∧
    (boardobjgrpmask_export (some sampleMask255) 255 (some staleBuffer255)).2.1 =
      some sampleMask255 :=
  ⟨(export_is_pure_read sampleMask255 staleBuffer255 (by decide)).1,
   (export_is_pure_read sampleMask255 staleBuffer255 (by decide)).2.1⟩

/-! ## Bulk setters: set_all and invert -/

/-- Word `i` of the storage after a loop that rewrites every word from its own
previous value, followed by `BOARDOBJGRPMASK_NORMALIZE`. -/
theorem loop_normalize_words (g : Nat → Nat → Nat) (wc t : Nat) (d : List Nat)
    (hlen : wc ≤ d.length) (i : Nat) (hi : i < wc) :
    ((forIndex (fun index dd => dd.set index (g index (dd.getD index 0))) wc 0 d).set (wc - 1)
        ((forIndex (fun index dd => dd.set index (g index (dd.getD index 0))) wc 0 d).getD
          (wc - 1) 0 &&& t)).getD i 0 =
      if i = wc - 1 then g i (d.getD i 0) &&& t else g i (d.getD i 0) := by
  by_cases h : i = wc - 1
  · rw [if_pos h, ← h, getD_set_self, forIndex_set_getD, if_pos ⟨Nat.zero_le _, by omega, by omega⟩]
    rw [forIndex_set_length (fun index dd => g index (dd.getD index 0))]
    omega
  · rw [if_neg h, getD_set_other _ _ _ _ (Ne.symm h), forIndex_set_getD,
      if_pos ⟨Nat.zero_le _, by omega, by omega⟩]

theorem loop_normalize_length (g : Nat → Nat → Nat) (wc t : Nat) (d : List Nat) :
    ((forIndex (fun index dd => dd.set index (g index (dd.getD index 0))) wc 0 d).set (wc - 1)
        ((forIndex (fun index dd => dd.set index (g index (dd.getD index 0))) wc 0 d).getD
          (wc - 1) 0 &&& t)).length = d.length := by
  rw [List.length_set, forIndex_set_length (fun index dd => g index (dd.getD index 0))]

/-- The count returned by `boardobjgrpmask_bitsetcount` on a well-formed,
normalized mask is the number of set indices. -/
theorem bitsetcount_eq_setBitCount (m : boardobjgrpmask)
    (hm : WellFormed m) (hn : Normalized m) :
    boardobjgrpmask_bitsetcount (some m) = setBitCount m := by
  have hle : setBitCount m ≤ m.bitcount := by
    unfold setBitCount
    have h1 := @List.countP_le_length _ (fun idx => boardobjgrpmask_bitget (some m) idx)
      (List.range m.bitcount)
    rwa [List.length_range] at h1
  have hcap : m.bitcount < 2 ^ 8 := by
    rcases hm.1 with h | h
    · rw [h]; decide
    · rw [h]; decide
  unfold boardobjgrpmask_bitsetcount
  simp only
  rw [bitsetcount_loop m.data m.maskdatacount 0 0 (by decide), setBitCount_eq_storage m hm hn,
    Nat.zero_add]
  exact Nat.mod_eq_of_lt (lt_of_le_of_lt hle hcap)

/-- A word ANDed with the tail mask has no bit outside the tail mask. -/
theorem and_tail_normalized (x bits : Nat) :
    (x &&& tailMaskOf bits) &&& not32 (tailMaskOf bits) = 0 := by
  apply Nat.eq_of_testBit_eq
  intro i
  simp only [not32, Nat.testBit_and, Nat.testBit_xor, Nat.zero_testBit, testBit_tailMaskOf]
  have hF : (0xFFFFFFFF : Nat).testBit i = decide (i < 32) := Nat.testBit_two_pow_sub_one 32 i
  rw [hF]
  by_cases h0 : bits % 32 = 0
  · simp only [h0, if_true]
    by_cases h : i < 32 <;> simp [h]
  · simp only [h0, if_false]
    have hb : bits % 32 < 32 := Nat.mod_lt _ (by decide)
    by_cases h : i < bits % 32
    · have h2 : i < 32 := by omega
      simp [h, h2]
    · simp [h]

theorem set_some_eq (m : boardobjgrpmask) :
    boardobjgrpmask_set (some m) =
      (0, some ⟨m.bitcount, m.maskdatacount, m.lastmaskfilter,
        (forIndex (fun index d => d.set index 0xFFFFFFFF) m.maskdatacount 0 m.data).set
          (m.maskdatacount - 1)
          ((forIndex (fun index d => d.set index 0xFFFFFFFF) m.maskdatacount 0 m.data).getD
            (m.maskdatacount - 1) 0 &&& m.lastmaskfilter)⟩) := by
  simp only [boardobjgrpmask_set, BOARDOBJGRPMASK_NORMALIZE]

/-- The words of a well-formed mask after `boardobjgrpmask_set`. -/
theorem set_words (m : boardobjgrpmask) (hm : WellFormed m) (m' : boardobjgrpmask)
    (h' : (boardobjgrpmask_set (some m)).2 = some m') :
    m'.bitcount = m.bitcount ∧ m'.maskdatacount = m.maskdatacount ∧
    m'.lastmaskfilter = m.lastmaskfilter ∧ m'.data.length = m.data.length ∧
    ∀ i, i < m.maskdatacount → m'.data.getD i 0 =
      if i = m.maskdatacount - 1 then 0xFFFFFFFF &&& m.lastmaskfilter else 0xFFFFFFFF := by
  rw [set_some_eq] at h'
  have e := Option.some.inj h'
  subst e
  refine ⟨rfl, rfl, rfl, ?_, ?_⟩
  · exact loop_normalize_length (fun _ _ => 0xFFFFFFFF) _ _ _
  · intro i hi
    exact loop_normalize_words (fun _ _ => 0xFFFFFFFF) _ _ _ hm.2.2.2 i hi

/-- C12, set_all: for a mask laid out for capacity 32 or 255, whatever its
words were, `boardobjgrpmask_set` returns 0 and afterwards `get_bit(idx)` is
true for every `idx < capacity_bits`, the mask is normalized, every storage
bit at a position from `capacity_bits` up to the end of the last word is 0,
and `boardobjgrpmask_bitsetcount` returns `capacity_bits`. -/
theorem set_all_sets_capacity_bits (m : boardobjgrpmask) (hm : WellFormed m) :
    (boardobjgrpmask_set (some m)).1 = 0 ∧
    ∃ m', (boardobjgrpmask_set (some m)).2 = some m' ∧
      m'.bitcount = m.bitcount ∧
      (∀ idx, idx < m.bitcount → boardobjgrpmask_bitget (some m') idx = true) ∧
      Normalized m' ∧
      (∀ p, m.bitcount ≤ p → p < 32 * m.maskdatacount →
        (m'.data.getD (p / 32) 0).testBit (p % 32) = false) ∧
      boardobjgrpmask_bitsetcount (some m') = m.bitcount := by
  refine ⟨by rw [set_some_eq], ?_⟩
  have hex : ∃ m', (boardobjgrpmask_set (some m)).2 = some m' := by
    rw [set_some_eq]; exact ⟨_, rfl⟩
  obtain ⟨m', h'⟩ := hex
  obtain ⟨hbc, hwc, htl, hln, hwords⟩ := set_words m hm m' h'
  obtain ⟨hcap, hcnt, htail, hlen⟩ := hm
  have hm' : WellFormed m' := by
    refine ⟨by rw [hbc]; exact hcap, by rw [hwc, hbc]; exact hcnt,
      by rw [htl, hbc]; exact htail, by rw [hwc, hln]; exact hlen⟩
  have hpos : 1 ≤ m.maskdatacount := by
    rcases hcap with h | h
    · rw [hcnt, h]
    · rw [hcnt, h]; decide
  have hnorm : Normalized m' := by
    unfold Normalized
    rw [hwc, hwords _ (by omega), if_pos rfl, htl, htail]
    exact and_tail_normalized _ _
  have hget : ∀ idx, idx < m.bitcount → boardobjgrpmask_bitget (some m') idx = true := by
    intro idx hidx
    have hiw : idx / 32 < m.maskdatacount := by
      rcases hcap with h | h
      · rw [hcnt, h]; rw [h] at hidx; omega
      · rw [hcnt, h]; rw [h] at hidx; omega
    rw [bitget_some, hbc, decide_eq_true hidx, Bool.true_and, hwords _ hiw]
    have hF : (0xFFFFFFFF : Nat).testBit (idx % 32) = true := by
      have := Nat.testBit_two_pow_sub_one 32 (idx % 32)
      rw [this]
      exact decide_eq_true (Nat.mod_lt _ (by decide))
    by_cases hl : idx / 32 = m.maskdatacount - 1
    · rw [if_pos hl, Nat.testBit_and, hF, Bool.true_and, htail, testBit_tailMaskOf]
      apply decide_eq_true
      rcases hcap with h | h
      · rw [h]; exact Nat.mod_lt _ (by decide)
      · rw [hcnt, h] at hl
        rw [h] at hidx ⊢
        have : (255 : Nat) % 32 = 31 := by decide
        rw [if_neg (by omega)]
        omega
    · rw [if_neg hl, hF]
  refine ⟨m', h', hbc, hget, hnorm, ?_, ?_⟩
  · intro p hp1 hp2
    rcases hcap with h | h
    · rw [hcnt, h] at hp2; rw [h] at hp1; omega
    · have hc8 : m'.maskdatacount = 8 := by rw [hwc, hcnt, h]
      have ht8 : m'.lastmaskfilter = 0x7FFFFFFF := by rw [htl, htail, h]; decide
      rw [hcnt, h] at hp2
      rw [h] at hp1
      have hp : p = 255 := by omega
      subst hp
      exact normalized_top_bit m' hnorm hc8 ht8
  · rw [bitsetcount_eq_setBitCount m' hm' hnorm]
    unfold setBitCount
    rw [hbc]
    have hall : List.countP (fun idx => boardobjgrpmask_bitget (some m') idx)
        (List.range m.bitcount) = (List.range m.bitcount).length := by
      rw [List.countP_eq_length]
      intro a ha
      exact hget a (List.mem_range.mp ha)
    rw [hall, List.length_range]

theorem testBit_not32 (x o : Nat) (ho : o < 32) : (not32 x).testBit o = !x.testBit o := by
  unfold not32
  rw [Nat.testBit_xor]
  have hF : (0xFFFFFFFF : Nat).testBit o = true := by
    have := Nat.testBit_two_pow_sub_one 32 o
    rw [this]
    exact decide_eq_true ho
  rw [hF]
  cases x.testBit o <;> rfl

theorem inv_some_eq (m : boardobjgrpmask) :
    boardobjgrpmask_inv (some m) =
      (0, some ⟨m.bitcount, m.maskdatacount, m.lastmaskfilter,
        (forIndex (fun index d => d.set index (not32 (d.getD index 0)))
            m.maskdatacount 0 m.data).set
          (m.maskdatacount - 1)
          ((forIndex (fun index d => d.set index (not32 (d.getD index 0)))
            m.maskdatacount 0 m.data).getD
            (m.maskdatacount - 1) 0 &&& m.lastmaskfilter)⟩) := by
  simp only [boardobjgrpmask_inv, BOARDOBJGRPMASK_NORMALIZE]

/-- The words of a mask after `boardobjgrpmask_inv`. -/
theorem inv_words (m : boardobjgrpmask) (hlen : m.maskdatacount ≤ m.data.length)
    (m' : boardobjgrpmask) (h' : (boardobjgrpmask_inv (some m)).2 = some m') :
    m'.bitcount = m.bitcount ∧ m'.maskdatacount = m.maskdatacount ∧
    m'.lastmaskfilter = m.lastmaskfilter ∧ m'.data.length = m.data.length ∧
    ∀ i, i < m.maskdatacount → m'.data.getD i 0 =
      if i = m.maskdatacount - 1 then not32 (m.data.getD i 0) &&& m.lastmaskfilter
      else not32 (m.data.getD i 0) := by
  rw [inv_some_eq] at h'
  have e := Option.some.inj h'
  subst e
  refine ⟨rfl, rfl, rfl, ?_, ?_⟩
  · exact loop_normalize_length (fun _ x => not32 x) _ _ _
  · intro i hi
    exact loop_normalize_words (fun _ x => not32 x) _ _ _ hlen i hi

/-- C13, invert: for a mask laid out for capacity 32 or 255, whatever its
words were, `boardobjgrpmask_inv` returns 0; every word below the last is the
32-bit complement of the previous word, the last word is the complement of
the previous last word ANDed with `tail_mask`; so `get_bit(idx)` is negated
for every `idx < capacity_bits`, and the result is normalized. -/
theorem invert_complements_logical_bits (m : boardobjgrpmask) (hm : WellFormed m) :
    (boardobjgrpmask_inv (some m)).1 = 0 ∧
    ∃ m', (boardobjgrpmask_inv (some m)).2 = some m' ∧
      m'.bitcount = m.bitcount ∧ m'.maskdatacount = m.maskdatacount ∧
      m'.lastmaskfilter = m.lastmaskfilter ∧
      (∀ i, i < m.maskdatacount - 1 → m'.data.getD i 0 = not32 (m.data.getD i 0)) ∧
      m'.data.getD (m.maskdatacount - 1) 0 =
        not32 (m.data.getD (m.maskdatacount - 1) 0) &&& m.lastmaskfilter ∧
      (∀ idx, idx < m.bitcount →
        boardobjgrpmask_bitget (some m') idx = !boardobjgrpmask_bitget (some m) idx) ∧
      Normalized m' := by
  refine ⟨by rw [inv_some_eq], ?_⟩
  have hex : ∃ m', (boardobjgrpmask_inv (some m)).2 = some m' := by
    rw [inv_some_eq]; exact ⟨_, rfl⟩
  obtain ⟨m', h'⟩ := hex
  obtain ⟨hcap, hcnt, htail, hlen⟩ := hm
  obtain ⟨hbc, hwc, htl, hln, hwords⟩ := inv_words m hlen m' h'
  have hpos : 1 ≤ m.maskdatacount := by
    rcases hcap with h | h
    · rw [hcnt, h]
    · rw [hcnt, h]; decide
  refine ⟨m', h', hbc, hwc, htl, ?_, ?_, ?_, ?_⟩
  · intro i hi
    rw [hwords i (by omega), if_neg (by omega)]
  · rw [hwords _ (by omega), if_pos rfl]
  · intro idx hidx
    have hiw : idx / 32 < m.maskdatacount := by
      rcases hcap with h | h
      · rw [hcnt, h]; rw [h] at hidx; omega
      · rw [hcnt, h]; rw [h] at hidx; omega
    have ho : idx % 32 < 32 := Nat.mod_lt _ (by decide)
    rw [bitget_some, bitget_some, hbc, decide_eq_true hidx, Bool.true_and, Bool.true_and,
      hwords _ hiw]
    by_cases hl : idx / 32 = m.maskdatacount - 1
    · rw [if_pos hl, Nat.testBit_and, testBit_not32 _ _ ho, htail, testBit_tailMaskOf]
      have ht : decide (idx % 32 < if m.bitcount % 32 = 0 then 32 else m.bitcount % 32) = true := by
        apply decide_eq_true
        rcases hcap with h | h
        · rw [h]; exact ho
        · rw [hcnt, h] at hl
          rw [h] at hidx ⊢
          rw [if_neg (by omega)]
          omega
      rw [ht, Bool.and_true]
    · rw [if_neg hl, testBit_not32 _ _ ho]
  · unfold Normalized
    rw [hwc, hwords _ (by omega), if_pos rfl, htl, htail]
    exact and_tail_normalized _ _

/-- Witness of C13: inverting the sample 255-bit mask. -/
theorem invert_complements_logical_bits_witness :
    (boardobjgrpmask_inv (some sampleMask255)).1 = 0 ∧
    ∃ m', (boardobjgrpmask_inv (some sampleMask255)).2 = some m' ∧
      m'.bitcount = sampleMask255.bitcount ∧
      m'.maskdatacount = sampleMask255.maskdatacount ∧
      m'.lastmaskfilter = sampleMask255.lastmaskfilter ∧
      (∀ i, i < sampleMask255.maskdatacount - 1 →
        m'.data.getD i 0 = not32 (sampleMask255.data.getD i 0)) ∧
      m'.data.getD (sampleMask255.maskdatacount - 1) 0 =
        not32 (sampleMask255.data.getD (sampleMask255.maskdatacount - 1) 0) &&&
          sampleMask255.lastmaskfilter ∧
      (∀ idx, idx < sampleMask255.bitcount →
        boardobjgrpmask_bitget (some m') idx =
          !boardobjgrpmask_bitget (some sampleMask255) idx) ∧
      Normalized m' :=
  invert_complements_logical_bits sampleMask255 (by decide)

/-! ## Copy and the boolean combinations -/

theorem sizeeq_some (a b : boardobjgrpmask) :
    boardobjgrpmask_sizeeq (some a) (some b) = decide (a.bitcount = b.bitcount) := by
  unfold boardobjgrpmask_sizeeq
  by_cases h : a.bitcount = b.bitcount
  · simp [h]
  · simp [h]

/-- Word `j` of the destination after a loop that stores `g index` in every
word of the destination. -/
theorem store_loop_getD (g : Nat → Nat) (wc : Nat) (d : List Nat) (j : Nat) :
    (forIndex (fun index dd => dd.set index (g index)) wc 0 d).getD j 0 =
      if j < wc ∧ j < d.length then g j else d.getD j 0 := by
  have h := forIndex_set_getD (fun i _ => g i) wc 0 d j
  rw [h]
  by_cases hc : j < wc ∧ j < d.length
  · rw [if_pos hc, if_pos (by omega)]
  · rw [if_neg hc, if_neg (by omega)]

theorem copy_some_eq (d s : boardobjgrpmask) (hbc : d.bitcount = s.bitcount) :
    boardobjgrpmask_copy (some d) (some s) =
      (0, some ⟨d.bitcount, d.maskdatacount, d.lastmaskfilter,
        forIndex (fun index dd => dd.set index (s.data.getD index 0))
          d.maskdatacount 0 d.data⟩, some s) := by
  simp only [boardobjgrpmask_copy, sizeeq_some, hbc, decide_True, Bool.not_true,
    Bool.false_eq_true, if_false]

/-- C14, copy: `boardobjgrpmask_copy` returns `-EINVAL` exactly when `dst` or
`src` is absent or their `bitcount`s differ, and then leaves `dst` (and
`src`) as they were; otherwise it returns 0, leaves `src` as it was, keeps
the capacity fields and storage length of `dst`, makes every word of `dst`
(in a storage of at least `word_count` words) equal to the corresponding
word of `src`, and `dst` is normalized whenever `src` is, both being laid out
for the capacity. -/
theorem copy_correct (dst src : Option boardobjgrpmask) :
    ((boardobjgrpmask_copy dst src).1 = NEG_EINVAL_U32 ↔
      (dst = none ∨ src = none ∨
        ∃ d s, dst = some d ∧ src = some s ∧ d.bitcount ≠ s.bitcount)) ∧
    ((boardobjgrpmask_copy dst src).1 = NEG_EINVAL_U32 →
      (boardobjgrpmask_copy dst src).2.1 = dst ∧ (boardobjgrpmask_copy dst src).2.2 = src) ∧
    (∀ d s, dst = some d → src = some s → d.bitcount = s.bitcount →
      (boardobjgrpmask_copy dst src).1 = 0 ∧
      (boardobjgrpmask_copy dst src).2.2 = src ∧
      ∃ d', (boardobjgrpmask_copy dst src).2.1 = some d' ∧
        d'.bitcount = d.bitcount ∧ d'.maskdatacount = d.maskdatacount ∧
        d'.lastmaskfilter = d.lastmaskfilter ∧ d'.data.length = d.data.length ∧
        (d.maskdatacount ≤ d.data.length →
          ∀ i, i < d.maskdatacount → d'.data.getD i 0 = s.data.getD i 0) ∧
        (WellFormed d → WellFormed s → Normalized s → Normalized d')) := by
  have hne : NEG_EINVAL_U32 ≠ 0 := by decide
  cases dst with
  | none => simp [boardobjgrpmask_copy, boardobjgrpmask_sizeeq]
  | some d =>
    cases src with
    | none => simp [boardobjgrpmask_copy, boardobjgrpmask_sizeeq]
    | some s =>
      by_cases hbc : d.bitcount = s.bitcount
      · rw [copy_some_eq d s hbc]
        refine ⟨⟨fun h => absurd h.symm hne, ?_⟩, fun h => absurd h.symm hne, ?_⟩
        · rintro (h | h | ⟨d1, s1, h1, h2, h3⟩)
          · exact Option.noConfusion h
          · exact Option.noConfusion h
          · rw [← Option.some.inj h1, ← Option.some.inj h2] at h3
            exact absurd hbc h3
        · intro d1 s1 h1 h2 _
          have e1 := Option.some.inj h1
          have e2 := Option.some.inj h2
          subst e1 e2
          refine ⟨rfl, rfl, _, rfl, rfl, rfl, rfl, ?_, ?_, ?_⟩
          · exact forIndex_set_length (fun index _ => s.data.getD index 0) _ _ _
          · intro hlen i hi
            show List.getD _ i 0 = _
            rw [store_loop_getD (fun index => s.data.getD index 0), if_pos ⟨hi, by omega⟩]
          · intro hd hs hn
            obtain ⟨hcap, hcnt, htail, hlen⟩ := hd
            obtain ⟨_, hcnt2, htail2, _⟩ := hs
            have hpos : 1 ≤ d.maskdatacount := by
              rcases hcap with h | h
              · rw [hcnt, h]
              · rw [hcnt, h]; decide
            unfold Normalized at hn ⊢
            show List.getD _ (d.maskdatacount - 1) 0 &&& not32 d.lastmaskfilter = 0
            rw [store_loop_getD (fun index => s.data.getD index 0),
              if_pos ⟨by omega, by omega⟩, hcnt, htail, hbc, ← hcnt2, ← htail2]
            exact hn
      · have hfail : boardobjgrpmask_copy (some d) (some s) =
            (NEG_EINVAL_U32, some d, some s) := by
          simp [boardobjgrpmask_copy, sizeeq_some, hbc]
        rw [hfail]
        refine ⟨⟨fun _ => Or.inr (Or.inr ⟨d, s, rfl, rfl, hbc⟩), fun _ => rfl⟩,
          fun _ => ⟨rfl, rfl⟩, ?_⟩
        intro d1 s1 h1 h2 h3
        rw [← Option.some.inj h1, ← Option.some.inj h2] at h3
        exact absurd h3 hbc

theorem and_some_eq (d a b : boardobjgrpmask)
    (hab : d.bitcount = a.bitcount) (hdb : d.bitcount = b.bitcount) :
    boardobjgrpmask_and (some d) (some a) (some b) =
      (0, some ⟨d.bitcount, d.maskdatacount, d.lastmaskfilter,
        forIndex (fun index dd => dd.set index (a.data.getD index 0 &&& b.data.getD index 0))
          d.maskdatacount 0 d.data⟩, some a, some b) := by
  simp only [boardobjgrpmask_and, sizeeq_some, hab, hdb, hab.symm.trans hdb, decide_True,
    Bool.not_true, Bool.false_eq_true, if_false]

theorem or_some_eq (d a b : boardobjgrpmask)
    (hab : d.bitcount = a.bitcount) (hdb : d.bitcount = b.bitcount) :
    boardobjgrpmask_or (some d) (some a) (some b) =
      (0, some ⟨d.bitcount, d.maskdatacount, d.lastmaskfilter,
        forIndex (fun index dd => dd.set index (a.data.getD index 0 ||| b.data.getD index 0))
          d.maskdatacount 0 d.data⟩, some a, some b) := by
  simp only [boardobjgrpmask_or, sizeeq_some, hab, hdb, hab.symm.trans hdb, decide_True,
    Bool.not_true, Bool.false_eq_true, if_false]

theorem xor_some_eq (d a b : boardobjgrpmask)
    (hab : d.bitcount = a.bitcount) (hdb : d.bitcount = b.bitcount) :
    boardobjgrpmask_xor (some d) (some a) (some b) =
      (0, some ⟨d.bitcount, d.maskdatacount, d.lastmaskfilter,
        forIndex (fun index dd => dd.set index (a.data.getD index 0 ^^^ b.data.getD index 0))
          d.maskdatacount 0 d.data⟩, some a, some b) := by
  simp only [boardobjgrpmask_xor, sizeeq_some, hab, hdb, hab.symm.trans hdb, decide_True,
    Bool.not_true, Bool.false_eq_true, if_false]

/-- What the word-wise loop of a boolean combination leaves in the
destination, for a word operation `f` that acts on every bit as `fb`. -/
theorem binop_loop_facts (f : Nat → Nat → Nat) (fb : Bool → Bool → Bool)
    (hf : ∀ x y o, (f x y).testBit o = fb (x.testBit o) (y.testBit o))
    (hff : fb false false = false)
    (d a b : boardobjgrpmask)
    (hd : WellFormed d) (ha : WellFormed a) (hb : WellFormed b)
    (hab : d.bitcount = a.bitcount) (hdb : d.bitcount = b.bitcount)
    (d' : boardobjgrpmask)
    (hd' : d' = ⟨d.bitcount, d.maskdatacount, d.lastmaskfilter,
        forIndex (fun index dd => dd.set index (f (a.data.getD index 0) (b.data.getD index 0)))
          d.maskdatacount 0 d.data⟩) :
    d'.bitcount = d.bitcount ∧ d'.maskdatacount = d.maskdatacount ∧
    d'.lastmaskfilter = d.lastmaskfilter ∧
    (∀ i, i < d.maskdatacount →
      d'.data.getD i 0 = f (a.data.getD i 0) (b.data.getD i 0)) ∧
    (∀ idx, idx < d.bitcount →
      boardobjgrpmask_bitget (some d') idx =
        fb (boardobjgrpmask_bitget (some a) idx) (boardobjgrpmask_bitget (some b) idx)) ∧
    (Normalized a → Normalized b → Normalized d') := by
  obtain ⟨hcap, hcnt, htail, hlen⟩ := hd
  obtain ⟨_, hcnta, htaila, _⟩ := ha
  obtain ⟨_, hcntb, htailb, _⟩ := hb
  have hwords : ∀ i, i < d.maskdatacount →
      d'.data.getD i 0 = f (a.data.getD i 0) (b.data.getD i 0) := by
    intro i hi
    rw [hd']
    show List.getD _ i 0 = _
    rw [store_loop_getD (fun index => f (a.data.getD index 0) (b.data.getD index 0)),
      if_pos ⟨hi, by omega⟩]
  have hpos : 1 ≤ d.maskdatacount := by
    rcases hcap with h | h
    · rw [hcnt, h]
    · rw [hcnt, h]; decide
  refine ⟨by rw [hd'], by rw [hd'], by rw [hd'], hwords, ?_, ?_⟩
  · intro idx hidx
    have hiw : idx / 32 < d.maskdatacount := by
      rcases hcap with h | h
      · rw [hcnt, h]; rw [h] at hidx; omega
      · rw [hcnt, h]; rw [h] at hidx; omega
    have hbc' : d'.bitcount = d.bitcount := by rw [hd']
    rw [bitget_some, bitget_some, bitget_some, hbc', ← hab, ← hdb, decide_eq_true hidx,
      Bool.true_and, Bool.true_and, Bool.true_and, hwords _ hiw, hf]
  · intro hna hnb
    unfold Normalized at hna hnb ⊢
    have hmc : d'.maskdatacount = d.maskdatacount := by rw [hd']
    have hlf : d'.lastmaskfilter = d.lastmaskfilter := by rw [hd']
    rw [hcnta, htaila, ← hab, ← hcnt, ← htail] at hna
    rw [hcntb, htailb, ← hdb, ← hcnt, ← htail] at hnb
    rw [hmc, hlf, hwords _ (by omega)]
    apply Nat.eq_of_testBit_eq
    intro o
    have h1 := congrArg (fun y => y.testBit o) hna
    have h2 := congrArg (fun y => y.testBit o) hnb
    simp only [Nat.testBit_and, Nat.zero_testBit] at h1 h2
    rw [Nat.testBit_and, hf, Nat.zero_testBit]
    cases hn : (not32 d.lastmaskfilter).testBit o
    · exact Bool.and_false _
    · rw [hn, Bool.and_true] at h1 h2
      rw [h1, h2, hff]
      rfl

/-- C15, and / or / xor: for masks `dst`, `op1`, `op2` laid out for the same
capacity, each of `boardobjgrpmask_and`, `boardobjgrpmask_or` and
`boardobjgrpmask_xor` returns 0, keeps the capacity fields of `dst`, sets
every word `i < word_count` of `dst` to the AND / OR / XOR of the operands'
words, so that `get_bit(dst, idx)` is the AND / OR / XOR of the operands'
`get_bit` for every `idx < capacity_bits`; and when both operands are
normalized so is the result, with no renormalization pass. -/
theorem and_or_xor_correct (d a b : boardobjgrpmask)
    (hd : WellFormed d) (ha : WellFormed a) (hb : WellFormed b)
    (hab : d.bitcount = a.bitcount) (hdb : d.bitcount = b.bitcount) :
    ((boardobjgrpmask_and (some d) (some a) (some b)).1 = 0 ∧
      ∃ d', (boardobjgrpmask_and (some d) (some a) (some b)).2.1 = some d' ∧
        d'.bitcount = d.bitcount ∧ d'.maskdatacount = d.maskdatacount ∧
        d'.lastmaskfilter = d.lastmaskfilter ∧
        (∀ i, i < d.maskdatacount →
          d'.data.getD i 0 = a.data.getD i 0 &&& b.data.getD i 0) ∧
        (∀ idx, idx < d.bitcount →
          boardobjgrpmask_bitget (some d') idx =
            (boardobjgrpmask_bitget (some a) idx && boardobjgrpmask_bitget (some b) idx)) ∧
        (Normalized a → Normalized b → Normalized d')) ∧
    ((boardobjgrpmask_or (some d) (some a) (some b)).1 = 0 ∧
      ∃ d', (boardobjgrpmask_or (some d) (some a) (some b)).2.1 = some d' ∧
        d'.bitcount = d.bitcount ∧ d'.maskdatacount = d.maskdatacount ∧
        d'.lastmaskfilter = d.lastmaskfilter ∧
        (∀ i, i < d.maskdatacount →
          d'.data.getD i 0 = a.data.getD i 0 ||| b.data.getD i 0) ∧
        (∀ idx, idx < d.bitcount →
          boardobjgrpmask_bitget (some d') idx =
            (boardobjgrpmask_bitget (some a) idx || boardobjgrpmask_bitget (some b) idx)) ∧
        (Normalized a → Normalized b → Normalized d')) ∧
    ((boardobjgrpmask_xor (some d) (some a) (some b)).1 = 0 ∧
      ∃ d', (boardobjgrpmask_xor (some d) (some a) (some b)).2.1 = some d' ∧
        d'.bitcount = d.bitcount ∧ d'.maskdatacount = d.maskdatacount ∧
        d'.lastmaskfilter = d.lastmaskfilter ∧
        (∀ i, i < d.maskdatacount →
          d'.data.getD i 0 = a.data.getD i 0 ^^^ b.data.getD i 0) ∧
        (∀ idx, idx < d.bitcount →
          boardobjgrpmask_bitget (some d') idx =
            (boardobjgrpmask_bitget (some a) idx ^^ boardobjgrpmask_bitget (some b) idx)) ∧
        (Normalized a → Normalized b → Normalized d')) := by
  refine ⟨?_, ?_, ?_⟩
  · rw [and_some_eq d a b hab hdb]
    exact ⟨rfl, _, rfl, binop_loop_facts (fun x y => x &&& y) (fun p q => p && q)
      (fun x y o => Nat.testBit_and x y o) rfl d a b hd ha hb hab hdb _ rfl⟩
  · rw [or_some_eq d a b hab hdb]
    exact ⟨rfl, _, rfl, binop_loop_facts (fun x y => x ||| y) (fun p q => p || q)
      (fun x y o => Nat.testBit_or x y o) rfl d a b hd ha hb hab hdb _ rfl⟩
  · rw [xor_some_eq d a b hab hdb]
    exact ⟨rfl, _, rfl, binop_loop_facts (fun x y => x ^^^ y) (fun p q => p ^^ q)
      (fun x y o => Nat.testBit_xor x y o) rfl d a b hd ha hb hab hdb _ rfl⟩

/-- C16, capacity mismatch is rejected atomically: unless `dst`, `op1` and
`op2` are all present with equal `bitcount`s, each of `boardobjgrpmask_and`,
`boardobjgrpmask_or` and `boardobjgrpmask_xor` returns `-EINVAL` and leaves
`dst` and both operands exactly as they were. -/
theorem binop_mismatch_rejected (dst op1 op2 : Option boardobjgrpmask)
    (h : ¬ ∃ d a b, dst = some d ∧ op1 = some a ∧ op2 = some b ∧
      d.bitcount = a.bitcount ∧ d.bitcount = b.bitcount) :
    boardobjgrpmask_and dst op1 op2 = (NEG_EINVAL_U32, dst, op1, op2) ∧
    boardobjgrpmask_or dst op1 op2 = (NEG_EINVAL_U32, dst, op1, op2) ∧
    boardobjgrpmask_xor dst op1 op2 = (NEG_EINVAL_U32, dst, op1, op2) := by
  cases dst with
  | none =>
    simp [boardobjgrpmask_and, boardobjgrpmask_or, boardobjgrpmask_xor, boardobjgrpmask_sizeeq]
  | some d =>
    cases op1 with
    | none =>
      simp [boardobjgrpmask_and, boardobjgrpmask_or, boardobjgrpmask_xor,
        boardobjgrpmask_sizeeq]
    | some a =>
      cases op2 with
      | none =>
        simp [boardobjgrpmask_and, boardobjgrpmask_or, boardobjgrpmask_xor,
          boardobjgrpmask_sizeeq]
      | some b =>
        by_cases hab : d.bitcount = a.bitcount
        · have hdb : d.bitcount ≠ b.bitcount := fun e => h ⟨d, a, b, rfl, rfl, rfl, hab, e⟩
          simp [boardobjgrpmask_and, boardobjgrpmask_or, boardobjgrpmask_xor, sizeeq_some,
            hab, hdb, hab ▸ hdb]
        · simp [boardobjgrpmask_and, boardobjgrpmask_or, boardobjgrpmask_xor, sizeeq_some, hab]

/-- Witness of C16: `and(dst32, op1_32, op2_255)` fails and leaves all three
masks as they were. -/
theorem binop_mismatch_rejected_witness :
    boardobjgrpmask_and (some sampleMask32) (some sampleMask32b) (some sampleMask255) =
      (NEG_EINVAL_U32, some sampleMask32, some sampleMask32b, some sampleMask255) :=
  (binop_mismatch_rejected (some sampleMask32) (some sampleMask32b) (some sampleMask255)
    (by
      rintro ⟨d, a, b, h1, h2, h3, _, h5⟩
      have e1 := Option.some.inj h1
      have e3 := Option.some.inj h3
      subst e1 e3
      exact absurd h5 (by decide))).1

/-- Witness of C15: combining two 255-bit sample masks into a third. -/
theorem and_or_xor_correct_witness :
    (boardobjgrpmask_and (some sampleMask255) (some sampleMask255) (some sampleMaskBit70)).1 = 0 ∧
    (boardobjgrpmask_or (some sampleMask255) (some sampleMask255) (some sampleMaskBit70)).1 = 0 ∧
    (boardobjgrpmask_xor (some sampleMask255) (some sampleMask255) (some sampleMaskBit70)).1 = 0 :=
  ⟨(and_or_xor_correct sampleMask255 sampleMask255 sampleMaskBit70
      (by decide) (by decide) (by decide) (by decide) (by decide)).1.1,
   (and_or_xor_correct sampleMask255 sampleMask255 sampleMaskBit70
      (by decide) (by decide) (by decide) (by decide) (by decide)).2.1.1,
   (and_or_xor_correct sampleMask255 sampleMask255 sampleMaskBit70
      (by decide) (by decide) (by decide) (by decide) (by decide)).2.2.1⟩

/-! ## Single-bit operations -/

theorem bitset_some_eq (m : boardobjgrpmask) (idx : Nat) (hidx : idx < m.bitcount) :
    boardobjgrpmask_bitset (some m) idx =
      (0, some ⟨m.bitcount, m.maskdatacount, m.lastmaskfilter,
        m.data.set (idx / 32) (m.data.getD (idx / 32) 0 ||| 2 ^ (idx % 32))⟩) := by
  have h : ¬ (idx ≥ m.bitcount) := by omega
  simp only [boardobjgrpmask_bitset, h, if_false, CTRL_BOARDOBJGRP_MASK_MASK_ELEMENT_INDEX,
    CTRL_BOARDOBJGRP_MASK_MASK_ELEMENT_OFFSET, CTRL_BOARDOBJGRP_MASK_MASK_ELEMENT_BIT_SIZE, BIT]

theorem bitclr_some_eq (m : boardobjgrpmask) (idx : Nat) (hidx : idx < m.bitcount) :
    boardobjgrpmask_bitclr (some m) idx =
      (0, some ⟨m.bitcount, m.maskdatacount, m.lastmaskfilter,
        m.data.set (idx / 32) (m.data.getD (idx / 32) 0 &&& not32 (2 ^ (idx % 32)))⟩) := by
  have h : ¬ (idx ≥ m.bitcount) := by omega
  simp only [boardobjgrpmask_bitclr, h, if_false, CTRL_BOARDOBJGRP_MASK_MASK_ELEMENT_INDEX,
    CTRL_BOARDOBJGRP_MASK_MASK_ELEMENT_OFFSET, CTRL_BOARDOBJGRP_MASK_MASK_ELEMENT_BIT_SIZE, BIT]

theorem bitinv_some_eq (m : boardobjgrpmask) (idx : Nat) (hidx : idx < m.bitcount) :
    boardobjgrpmask_bitinv (some m) idx =
      (0, some ⟨m.bitcount, m.maskdatacount, m.lastmaskfilter,
        m.data.set (idx / 32) (m.data.getD (idx / 32) 0 ^^^ not32 (2 ^ (idx % 32)))⟩) := by
  have h : ¬ (idx ≥ m.bitcount) := by omega
  simp only [boardobjgrpmask_bitinv, h, if_false, CTRL_BOARDOBJGRP_MASK_MASK_ELEMENT_INDEX,
    CTRL_BOARDOBJGRP_MASK_MASK_ELEMENT_OFFSET, CTRL_BOARDOBJGRP_MASK_MASK_ELEMENT_BIT_SIZE, BIT]

/-- The word index of a valid bit index lies inside the storage of a
well-formed mask. -/
theorem word_index_lt (m : boardobjgrpmask) (hm : WellFormed m) (idx : Nat)
    (hidx : idx < m.bitcount) : idx / 32 < m.maskdatacount ∧ idx / 32 < m.data.length := by
  obtain ⟨hcap, hcnt, _, hlen⟩ := hm
  have h1 : idx / 32 < m.maskdatacount := by
    rcases hcap with h | h
    · rw [hcnt, h]; rw [h] at hidx; omega
    · rw [hcnt, h]; rw [h] at hidx; omega
  exact ⟨h1, by omega⟩

/-- The effect, on words and on `boardobjgrpmask_bitget`, of replacing the
word that holds bit `idx` by `v`. -/
theorem word_update_facts (m : boardobjgrpmask) (hm : WellFormed m) (idx : Nat)
    (hidx : idx < m.bitcount) (v : Nat) (m' : boardobjgrpmask)
    (hm' : m' = ⟨m.bitcount, m.maskdatacount, m.lastmaskfilter, m.data.set (idx / 32) v⟩) :
    m'.data.getD (idx / 32) 0 = v ∧
    (∀ i, i ≠ idx / 32 → m'.data.getD i 0 = m.data.getD i 0) ∧
    (∀ j, j < m.bitcount →
      boardobjgrpmask_bitget (some m') j =
        if j / 32 = idx / 32 then v.testBit (j % 32)
        else boardobjgrpmask_bitget (some m) j) := by
  obtain ⟨_, hlt⟩ := word_index_lt m hm idx hidx
  have h1 : m'.data.getD (idx / 32) 0 = v := by
    rw [hm']; exact getD_set_self _ _ _ hlt
  have h2 : ∀ i, i ≠ idx / 32 → m'.data.getD i 0 = m.data.getD i 0 := by
    intro i hi
    rw [hm']; exact getD_set_other _ _ _ _ (Ne.symm hi)
  refine ⟨h1, h2, ?_⟩
  intro j hj
  have hbc : m'.bitcount = m.bitcount := by rw [hm']
  rw [bitget_some, hbc, decide_eq_true hj, Bool.true_and]
  by_cases hw : j / 32 = idx / 32
  · rw [if_pos hw, hw, h1]
  · rw [if_neg hw, h2 _ hw, bitget_some, decide_eq_true hj, Bool.true_and]

/-- Two bit indices in the same word with the same offset are equal. -/
theorem index_eq_of_word_offset (i j : Nat) (h1 : i / 32 = j / 32) (h2 : i % 32 = j % 32) :
    i = j := by
  omega

/-- C17, set_bit: for a mask laid out for capacity 32 or 255 and
`idx < capacity_bits`, `boardobjgrpmask_bitset` returns 0, keeps the capacity
fields, afterwards `get_bit(idx)` is true, `get_bit(j)` is unchanged for every
other `j < capacity_bits`, every other word is unchanged and so is every
other bit of the target word. -/
theorem set_bit_sets_one_bit (m : boardobjgrpmask) (hm : WellFormed m) (idx : Nat)
    (hidx : idx < m.bitcount) :
    (boardobjgrpmask_bitset (some m) idx).1 = 0 ∧
    ∃ m', (boardobjgrpmask_bitset (some m) idx).2 = some m' ∧
      m'.bitcount = m.bitcount ∧ m'.maskdatacount = m.maskdatacount ∧
      m'.lastmaskfilter = m.lastmaskfilter ∧
      boardobjgrpmask_bitget (some m') idx = true ∧
      (∀ j, j < m.bitcount → j ≠ idx →
        boardobjgrpmask_bitget (some m') j = boardobjgrpmask_bitget (some m) j) ∧
      (∀ i, i ≠ idx / 32 → m'.data.getD i 0 = m.data.getD i 0) ∧
      (∀ o, o ≠ idx % 32 →
        (m'.data.getD (idx / 32) 0).testBit o = (m.data.getD (idx / 32) 0).testBit o) := by
  rw [bitset_some_eq m idx hidx]
  obtain ⟨hv, hother, hget⟩ := word_update_facts m hm idx hidx
    (m.data.getD (idx / 32) 0 ||| 2 ^ (idx % 32)) _ rfl
  refine ⟨rfl, _, rfl, rfl, rfl, rfl, ?_, ?_, hother, ?_⟩
  · rw [hget idx hidx, if_pos rfl, Nat.testBit_or, Nat.testBit_two_pow_self, Bool.or_true]
  · intro j hj hne
    rw [hget j hj]
    by_cases hw : j / 32 = idx / 32
    · have ho : idx % 32 ≠ j % 32 := fun e => hne (index_eq_of_word_offset j idx hw e.symm)
      rw [if_pos hw, Nat.testBit_or, Nat.testBit_two_pow, decide_eq_false ho, Bool.or_false,
        bitget_some, decide_eq_true hj, Bool.true_and, hw]
    · rw [if_neg hw]
  · intro o ho
    rw [hv, Nat.testBit_or, Nat.testBit_two_pow, decide_eq_false (Ne.symm ho), Bool.or_false]

theorem testBit_not32_two_pow (off o : Nat) (hoff : off < 32) :
    (not32 (2 ^ off)).testBit o = (decide (o < 32) && !decide (o = off)) := by
  unfold not32
  rw [Nat.testBit_xor, Nat.testBit_two_pow]
  have hF : (0xFFFFFFFF : Nat).testBit o = decide (o < 32) := Nat.testBit_two_pow_sub_one 32 o
  rw [hF]
  by_cases h1 : o = off
  · subst h1
    simp [hoff]
  · have h2 : ¬ off = o := fun e => h1 e.symm
    simp [h1, h2]

/-- C18, clear_bit: for a mask laid out for capacity 32 or 255 and
`idx < capacity_bits`, `boardobjgrpmask_bitclr` returns 0, keeps the capacity
fields, afterwards `get_bit(idx)` is false, `get_bit(j)` is unchanged for
every other `j < capacity_bits`, every other word is unchanged and so is
every other bit of the 32-bit target word. -/
theorem clear_bit_clears_one_bit (m : boardobjgrpmask) (hm : WellFormed m) (idx : Nat)
    (hidx : idx < m.bitcount) :
    (boardobjgrpmask_bitclr (some m) idx).1 = 0 ∧
    ∃ m', (boardobjgrpmask_bitclr (some m) idx).2 = some m' ∧
      m'.bitcount = m.bitcount ∧ m'.maskdatacount = m.maskdatacount ∧
      m'.lastmaskfilter = m.lastmaskfilter ∧
      boardobjgrpmask_bitget (some m') idx = false ∧
      (∀ j, j < m.bitcount → j ≠ idx →
        boardobjgrpmask_bitget (some m') j = boardobjgrpmask_bitget (some m) j) ∧
      (∀ i, i ≠ idx / 32 → m'.data.getD i 0 = m.data.getD i 0) ∧
      (∀ o, o < 32 → o ≠ idx % 32 →
        (m'.data.getD (idx / 32) 0).testBit o = (m.data.getD (idx / 32) 0).testBit o) := by
  rw [bitclr_some_eq m idx hidx]
  obtain ⟨hv, hother, hget⟩ := word_update_facts m hm idx hidx
    (m.data.getD (idx / 32) 0 &&& not32 (2 ^ (idx % 32))) _ rfl
  have hoff : idx % 32 < 32 := Nat.mod_lt _ (by decide)
  refine ⟨rfl, _, rfl, rfl, rfl, rfl, ?_, ?_, hother, ?_⟩
  · rw [hget idx hidx, if_pos rfl, Nat.testBit_and, testBit_not32_two_pow _ _ hoff]
    simp
  · intro j hj hne
    rw [hget j hj]
    by_cases hw : j / 32 = idx / 32
    · have ho : j % 32 ≠ idx % 32 := fun e => hne (index_eq_of_word_offset j idx hw e)
      have hj32 : j % 32 < 32 := Nat.mod_lt _ (by decide)
      rw [if_pos hw, Nat.testBit_and, testBit_not32_two_pow _ _ hoff, decide_eq_true hj32,
        decide_eq_false ho, bitget_some, decide_eq_true hj, Bool.true_and, hw]
      simp
    · rw [if_neg hw]
  · intro o ho32 ho
    rw [hv, Nat.testBit_and, testBit_not32_two_pow _ _ hoff, decide_eq_true ho32,
      decide_eq_false ho]
    simp

/-- C19, out-of-range single-bit access: for every mask and every index
`idx >= capacity_bits`, `boardobjgrpmask_bitset` and `boardobjgrpmask_bitclr`
return `-EINVAL` (-22 as an `int`), `boardobjgrpmask_bitinv` returns
`-EINVAL` (as a `u32`), each leaving the mask exactly as it was, and
`boardobjgrpmask_bitget` returns false; for every `idx < capacity_bits` the
three mutators return 0. -/
theorem out_of_range_bit_rejected (m : boardobjgrpmask) (idx : Nat) :
    (m.bitcount ≤ idx →
      boardobjgrpmask_bitset (some m) idx = (NEG_EINVAL_INT, some m) ∧
      boardobjgrpmask_bitclr (some m) idx = (NEG_EINVAL_INT, some m) ∧
      boardobjgrpmask_bitinv (some m) idx = (NEG_EINVAL_U32, some m) ∧
      boardobjgrpmask_bitget (some m) idx = false) ∧
    (idx < m.bitcount →
      (boardobjgrpmask_bitset (some m) idx).1 = 0 ∧
      (boardobjgrpmask_bitclr (some m) idx).1 = 0 ∧
      (boardobjgrpmask_bitinv (some m) idx).1 = 0) ∧
    NEG_EINVAL_INT = -22 ∧ NEG_EINVAL_U32 = 2 ^ 32 - 22 := by
  refine ⟨?_, ?_, by decide, by decide⟩
  · intro h
    have h' : idx ≥ m.bitcount := h
    refine ⟨?_, ?_, ?_, ?_⟩
    · simp only [boardobjgrpmask_bitset, h', if_true]
    · simp only [boardobjgrpmask_bitclr, h', if_true]
    · simp only [boardobjgrpmask_bitinv, h', if_true]
    · simp only [boardobjgrpmask_bitget, h', if_true]
  · intro h
    exact ⟨by rw [bitset_some_eq m idx h], by rw [bitclr_some_eq m idx h],
      by rw [bitinv_some_eq m idx h]⟩

/-! ## Subset test -/

/-- A loop that returns `false` at the first index satisfying `c` and `true`
otherwise answers `true` exactly when no index of its range satisfies `c`. -/
theorem forIndexBreak_flag (c : Nat → Prop) [DecidablePred c] :
    ∀ (n s : Nat),
      forIndexBreak (fun index r => if c index then (false, true) else (r, false)) n s true = true ↔
        ∀ j, s ≤ j → j < s + n → ¬ c j := by
  intro n
  induction n with
  | zero =>
    intro s
    constructor
    · intro _ j h1 h2; omega
    · intro _; rfl
  | succ k ih =>
    intro s
    by_cases hc : c s
    · have e : forIndexBreak (fun index r => if c index then (false, true) else (r, false))
          (k + 1) s true = false := by
        simp only [forIndexBreak, hc, if_true]
      rw [e]
      constructor
      · intro h; exact Bool.noConfusion h
      · intro h; exact absurd hc (h s (le_refl _) (by omega))
    · have e : forIndexBreak (fun index r => if c index then (false, true) else (r, false))
          (k + 1) s true =
          forIndexBreak (fun index r => if c index then (false, true) else (r, false))
            k (s + 1) true := by
        simp only [forIndexBreak, hc, if_false, Bool.false_eq_true]
      rw [e, ih (s + 1)]
      constructor
      · intro h j h1 h2
        by_cases hj : j = s
        · rw [hj]; exact hc
        · exact h j (by omega) (by omega)
      · intro h j h1 h2
        exact h j (by omega) (by omega)

theorem and_eq_self_iff (x y : Nat) :
    x &&& y = x ↔ ∀ o, x.testBit o = true → y.testBit o = true := by
  constructor
  · intro h o hx
    have h1 := congrArg (fun z => z.testBit o) h
    simp only [Nat.testBit_and, hx, Bool.true_and] at h1
    exact h1
  · intro h
    apply Nat.eq_of_testBit_eq
    intro o
    rw [Nat.testBit_and]
    cases hx : x.testBit o
    · rfl
    · rw [h o hx]; rfl

theorem issubset_some (a b : boardobjgrpmask) :
    boardobjgrpmask_issubset (some a) (some b) = true ↔
      a.bitcount = b.bitcount ∧
      ∀ i, i < a.maskdatacount → a.data.getD i 0 &&& b.data.getD i 0 = a.data.getD i 0 := by
  unfold boardobjgrpmask_issubset
  rw [sizeeq_some]
  by_cases hbc : a.bitcount = b.bitcount
  · have hbc' : b.bitcount = a.bitcount := hbc.symm
    simp only [hbc', decide_True, Bool.not_true, Bool.false_eq_true, if_false]
    rw [forIndexBreak_flag
      (fun index => (a.data.getD index 0 &&& b.data.getD index 0) ≠ a.data.getD index 0)]
    constructor
    · intro h
      refine ⟨trivial, ?_⟩
      intro i hi
      exact Classical.not_not.mp (h i (Nat.zero_le _) (by omega))
    · intro h j _ h2
      exact fun hne => hne (h.2 j (by omega))
  · have hbc' : ¬ b.bitcount = a.bitcount := fun e => hbc e.symm
    simp only [hbc', decide_False, Bool.not_false, if_true]
    constructor
    · intro h; exact Bool.noConfusion h
    · intro h; exact absurd h.1 hbc

/-- C20, is_subset is set inclusion: for a normalized mask `op1` laid out
for capacity 32 or 255 with 32-bit words and any mask `op2`,
`boardobjgrpmask_issubset(op1, op2)` is true if and only if the capacities are
equal and every `idx < capacity_bits` with `get_bit(op1, idx)` has
`get_bit(op2, idx)`; equivalently, if and only if the capacities are equal
and every word satisfies `(op1.word & op2.word) == op1.word`; on a capacity
mismatch it is false. -/
theorem issubset_is_inclusion (a b : boardobjgrpmask)
    (ha : WellFormed a) (hu : WordsU32 a.data) (hn : Normalized a) :
    (boardobjgrpmask_issubset (some a) (some b) = true ↔
      a.bitcount = b.bitcount ∧
      ∀ idx, idx < a.bitcount → boardobjgrpmask_bitget (some a) idx = true →
        boardobjgrpmask_bitget (some b) idx = true) ∧
    (boardobjgrpmask_issubset (some a) (some b) = true ↔
      a.bitcount = b.bitcount ∧
      ∀ i, i < a.maskdatacount →
        a.data.getD i 0 &&& b.data.getD i 0 = a.data.getD i 0) ∧
    (a.bitcount ≠ b.bitcount → boardobjgrpmask_issubset (some a) (some b) = false) := by
  have hwordlevel := issubset_some a b
  refine ⟨?_, hwordlevel, ?_⟩
  · rw [hwordlevel]
    constructor
    · rintro ⟨hbc, hw⟩
      refine ⟨hbc, ?_⟩
      intro idx hidx hget
      obtain ⟨hiw, _⟩ := word_index_lt a ha idx hidx
      rw [bitget_some, decide_eq_true hidx, Bool.true_and] at hget
      rw [bitget_some, ← hbc, decide_eq_true hidx, Bool.true_and]
      exact (and_eq_self_iff _ _).mp (hw _ hiw) _ hget
    · rintro ⟨hbc, hbits⟩
      refine ⟨hbc, ?_⟩
      intro i hi
      rw [and_eq_self_iff]
      intro o ho
      have ho32 : o < 32 := by
        by_contra hge
        have h1 : a.data.getD i 0 < 2 ^ o :=
          lt_of_lt_of_le (getD_lt_of_wordsU32 _ hu i)
            (Nat.pow_le_pow_right (by decide) (by omega))
        rw [Nat.testBit_lt_two_pow h1] at ho
        exact Bool.noConfusion ho
      have hdiv : (32 * i + o) / 32 = i := by omega
      have hmod : (32 * i + o) % 32 = o := by omega
      have hlt : 32 * i + o < a.bitcount := by
        obtain ⟨hcap, hcnt, htail, _⟩ := ha
        rcases hcap with h | h
        · rw [hcnt, h] at hi
          rw [h]; omega
        · have hc8 : a.maskdatacount = 8 := by rw [hcnt, h]
          have ht8 : a.lastmaskfilter = 0x7FFFFFFF := by rw [htail, h]; decide
          have h31 := normalized_top_bit a hn hc8 ht8
          rw [hc8] at hi
          rw [h]
          by_contra hge
          have hi7 : i = 7 := by omega
          have ho31 : o = 31 := by omega
          rw [hi7, ho31, h31] at ho
          exact Bool.noConfusion ho
      have hga : boardobjgrpmask_bitget (some a) (32 * i + o) = true := by
        rw [bitget_some, decide_eq_true hlt, Bool.true_and, hdiv, hmod]
        exact ho
      have hgb := hbits _ hlt hga
      rw [bitget_some, hdiv, hmod] at hgb
      exact (Bool.and_eq_true _ _ ▸ hgb).2
  · intro hne
    cases hs : boardobjgrpmask_issubset (some a) (some b)
    · rfl
    · exact absurd (hwordlevel.mp hs).1 hne

/-- Witness of C20: the mask whose only set bit is bit 70 is a subset of
itself, and a 32-bit mask is not a subset of a 255-bit mask. -/
theorem issubset_is_inclusion_witness :
    boardobjgrpmask_issubset (some sampleMaskBit70) (some sampleMaskBit70) = true ∧
    boardobjgrpmask_issubset (some sampleMask32) (some sampleMask255) = false :=
  ⟨(issubset_is_inclusion sampleMaskBit70 sampleMaskBit70
      (by decide) (by decide) (by decide)).2.1.mpr ⟨rfl, by decide⟩,
   (issubset_is_inclusion sampleMask32 sampleMask255
      (by decide) (by decide) (by decide)).2.2 (by decide)⟩

/-! ## Instances at concrete masks: single-bit updates and set_all -/

/-- Witness of C12: after `set_all` on the sample 255-bit mask, bit 254 is
set, the mask is normalized and the count is 255. -/
theorem set_all_sets_capacity_bits_witness :
    (boardobjgrpmask_set (some sampleMask255)).1 = 0 ∧
    ∃ m', (boardobjgrpmask_set (some sampleMask255)).2 = some m' ∧
      boardobjgrpmask_bitget (some m') 254 = true ∧ Normalized m' ∧
      boardobjgrpmask_bitsetcount (some m') = 255 :=
  match set_all_sets_capacity_bits sampleMask255 (by decide) with
  | ⟨h1, m', h2, _, h3, h4, _, h5⟩ => ⟨h1, m', h2, h3 254 (by decide), h4, h5⟩

/-- Witness of C17: setting bit 100 of the sample 255-bit mask. -/
theorem set_bit_sets_one_bit_witness :
    (boardobjgrpmask_bitset (some sampleMask255) 100).1 = 0 ∧
    ∃ m', (boardobjgrpmask_bitset (some sampleMask255) 100).2 = some m' ∧
      boardobjgrpmask_bitget (some m') 100 = true ∧
      boardobjgrpmask_bitget (some m') 254 = boardobjgrpmask_bitget (some sampleMask255) 254 :=
  match set_bit_sets_one_bit sampleMask255 (by decide) 100 (by decide) with
  | ⟨h1, m', h2, _, _, _, h3, h4, _, _⟩ =>
    ⟨h1, m', h2, h3, h4 254 (by decide) (by decide)⟩

/-- Witness of C18: clearing bit 254 of the sample 255-bit mask. -/
theorem clear_bit_clears_one_bit_witness :
    (boardobjgrpmask_bitclr (some sampleMask255) 254).1 = 0 ∧
    ∃ m', (boardobjgrpmask_bitclr (some sampleMask255) 254).2 = some m' ∧
      boardobjgrpmask_bitget (some m') 254 = false ∧
      boardobjgrpmask_bitget (some m') 32 = boardobjgrpmask_bitget (some sampleMask255) 32 :=
  match clear_bit_clears_one_bit sampleMask255 (by decide) 254 (by decide) with
  | ⟨h1, m', h2, _, _, _, h3, h4, _, _⟩ =>
    ⟨h1, m', h2, h3, h4 32 (by decide) (by decide)⟩

/-! ## Subset reflexivity, the zero test and the defensive defaults -/

/-- C21, subset reflexivity: `boardobjgrpmask_issubset(m, m)` is true for every
mask `m`; in particular for every normalized mask of capacity 32 or 255. -/
theorem issubset_reflexive (m : boardobjgrpmask) :
    boardobjgrpmask_issubset (some m) (some m) = true := by
  rw [issubset_some]
  exact ⟨rfl, fun i _ => Nat.and_self _⟩

theorem iszero_some (m : boardobjgrpmask) :
    boardobjgrpmask_iszero (some m) = true ↔
      ∀ i, i < m.maskdatacount → m.data.getD i 0 = 0 := by
  unfold boardobjgrpmask_iszero
  simp only
  rw [forIndexBreak_flag (fun index => m.data.getD index 0 ≠ 0)]
  constructor
  · intro h i hi
    exact Classical.not_not.mp (h i (Nat.zero_le _) (by omega))
  · intro h j _ h2
    exact fun hne => hne (h j (by omega))

/-- On a well-formed, normalized mask with 32-bit words, every word is 0
exactly when no bit below the capacity is set. -/
theorem words_zero_iff_bits_clear (m : boardobjgrpmask)
    (hm : WellFormed m) (hu : WordsU32 m.data) (hn : Normalized m) :
    (∀ i, i < m.maskdatacount → m.data.getD i 0 = 0) ↔
      ∀ idx, idx < m.bitcount → boardobjgrpmask_bitget (some m) idx = false := by
  constructor
  · intro h idx hidx
    obtain ⟨hiw, _⟩ := word_index_lt m hm idx hidx
    rw [bitget_some, h _ hiw, Nat.zero_testBit, Bool.and_false]
  · intro h i hi
    apply Nat.eq_of_testBit_eq
    intro o
    rw [Nat.zero_testBit]
    by_cases ho32 : o < 32
    · have hdiv : (32 * i + o) / 32 = i := by omega
      have hmod : (32 * i + o) % 32 = o := by omega
      by_cases hlt : 32 * i + o < m.bitcount
      · have hg := h _ hlt
        rw [bitget_some, decide_eq_true hlt, Bool.true_and, hdiv, hmod] at hg
        exact hg
      · obtain ⟨hcap, hcnt, htail, _⟩ := hm
        rcases hcap with hc | hc
        · rw [hcnt, hc] at hi
          rw [hc] at hlt
          omega
        · have hc8 : m.maskdatacount = 8 := by rw [hcnt, hc]
          have ht8 : m.lastmaskfilter = 0x7FFFFFFF := by rw [htail, hc]; decide
          have h31 := normalized_top_bit m hn hc8 ht8
          rw [hc8] at hi
          rw [hc] at hlt
          have hi7 : i = 7 := by omega
          have ho31 : o = 31 := by omega
          rw [hi7, ho31]
          exact h31
    · apply Nat.testBit_lt_two_pow
      exact lt_of_lt_of_le (getD_lt_of_wordsU32 _ hu i)
        (Nat.pow_le_pow_right (by decide) (by omega))

theorem setBitCount_eq_zero_iff (m : boardobjgrpmask) :
    setBitCount m = 0 ↔
      ∀ idx, idx < m.bitcount → boardobjgrpmask_bitget (some m) idx = false := by
  unfold setBitCount
  rw [List.countP_eq_zero]
  constructor
  · intro h idx hidx
    have := h idx (List.mem_range.mpr hidx)
    simpa using this
  · intro h a ha
    rw [h a (List.mem_range.mp ha)]
    exact Bool.false_ne_true

/-- C22, is_zero is exact: for every present mask `boardobjgrpmask_iszero` is
true if and only if each of its `word_count` words is 0; for a normalized
mask laid out for capacity 32 or 255 with 32-bit words that is so if and only
if `get_bit(idx)` is false for every `idx < capacity_bits`, and if and only
if `boardobjgrpmask_bitsetcount` is 0; an absent mask is reported as zero;
and `boardobjgrpmask_clr` returns 0 and leaves a mask for which is_zero is
true. -/
theorem iszero_exact (m : boardobjgrpmask) :
    (boardobjgrpmask_iszero (some m) = true ↔
      ∀ i, i < m.maskdatacount → m.data.getD i 0 = 0) ∧
    (WellFormed m → WordsU32 m.data → Normalized m →
      (boardobjgrpmask_iszero (some m) = true ↔
        ∀ idx, idx < m.bitcount → boardobjgrpmask_bitget (some m) idx = false) ∧
      (boardobjgrpmask_iszero (some m) = true ↔
        boardobjgrpmask_bitsetcount (some m) = 0)) ∧
    boardobjgrpmask_iszero none = true ∧
    ((boardobjgrpmask_clr (some m)).1 = 0 ∧
      boardobjgrpmask_iszero (boardobjgrpmask_clr (some m)).2 = true) := by
  refine ⟨iszero_some m, ?_, rfl, rfl, ?_⟩
  · intro hm hu hn
    have h1 : boardobjgrpmask_iszero (some m) = true ↔
        ∀ idx, idx < m.bitcount → boardobjgrpmask_bitget (some m) idx = false :=
      (iszero_some m).trans (words_zero_iff_bits_clear m hm hu hn)
    refine ⟨h1, ?_⟩
    rw [bitsetcount_eq_setBitCount m hm hn, setBitCount_eq_zero_iff]
    exact h1
  · show boardobjgrpmask_iszero (some _) = true
    rw [iszero_some]
    intro i hi
    show List.getD _ i 0 = 0
    rw [clr_words, if_pos hi]

/-- C23, the defensive defaults of the predicates: `boardobjgrpmask_sizeeq(a, b)`
is true if and only if both are present with equal `bitcount`; when either
operand is absent `boardobjgrpmask_sizeeq` and `boardobjgrpmask_issubset`
return false; and `boardobjgrpmask_iszero` of an absent mask is true.  (The
three functions are total functions into `Bool`: they have no error result
and write to no mask.) -/
theorem predicates_defensive_defaults (a b : Option boardobjgrpmask) :
    (boardobjgrpmask_sizeeq a b = true ↔
      ∃ x y, a = some x ∧ b = some y ∧ x.bitcount = y.bitcount) ∧
    ((a = none ∨ b = none) →
      boardobjgrpmask_sizeeq a b = false ∧ boardobjgrpmask_issubset a b = false) ∧
    boardobjgrpmask_iszero none = true := by
  refine ⟨?_, ?_, rfl⟩
  · cases a with
    | none => simp [boardobjgrpmask_sizeeq]
    | some x =>
      cases b with
      | none => simp [boardobjgrpmask_sizeeq]
      | some y => simp [boardobjgrpmask_sizeeq]
  · intro h
    cases a with
    | none =>
      exact ⟨by simp [boardobjgrpmask_sizeeq],
        by cases b <;> simp [boardobjgrpmask_issubset, boardobjgrpmask_sizeeq]⟩
    | some x =>
      cases b with
      | none =>
        exact ⟨by simp [boardobjgrpmask_sizeeq],
          by simp [boardobjgrpmask_issubset, boardobjgrpmask_sizeeq]⟩
      | some y =>
        rcases h with h | h
        · exact Option.noConfusion h
        · exact Option.noConfusion h

/-! ## Double inversion and idempotence of the bulk setters -/

/-- Every word of the storage after a loop that rewrites the first `wc` words
from their own previous values, followed by `BOARDOBJGRPMASK_NORMALIZE`. -/
theorem loop_normalize_getD (g : Nat → Nat → Nat) (wc t : Nat) (d : List Nat)
    (hpos : 1 ≤ wc) (hlen : wc ≤ d.length) (j : Nat) :
    ((forIndex (fun index dd => dd.set index (g index (dd.getD index 0))) wc 0 d).set (wc - 1)
        ((forIndex (fun index dd => dd.set index (g index (dd.getD index 0))) wc 0 d).getD
          (wc - 1) 0 &&& t)).getD j 0 =
      if j < wc then (if j = wc - 1 then g j (d.getD j 0) &&& t else g j (d.getD j 0))
      else d.getD j 0 := by
  by_cases hj : j < wc
  · rw [if_pos hj]
    exact loop_normalize_words g wc t d hlen j hj
  · rw [if_neg hj, getD_set_other _ _ _ _ (by omega), forIndex_set_getD, if_neg (by omega)]

theorem not32_not32 (x : Nat) : not32 (not32 x) = x := by
  unfold not32
  rw [Nat.xor_assoc, Nat.xor_self, Nat.xor_zero]

theorem testBit_tailMaskOf_lt (bits o : Nat) (h : (tailMaskOf bits).testBit o = true) :
    o < 32 := by
  rw [testBit_tailMaskOf] at h
  have h1 := of_decide_eq_true h
  have hb : bits % 32 < 32 := Nat.mod_lt _ (by decide)
  by_cases h0 : bits % 32 = 0
  · rw [if_pos h0] at h1; exact h1
  · rw [if_neg h0] at h1; omega

/-- Complementing twice with a tail-mask normalization after each complement
keeps exactly the bits of the word that lie inside the tail mask. -/
theorem not32_and_tail_twice (w bits : Nat) :
    not32 (not32 w &&& tailMaskOf bits) &&& tailMaskOf bits = w &&& tailMaskOf bits := by
  apply Nat.eq_of_testBit_eq
  intro o
  rw [Nat.testBit_and, Nat.testBit_and]
  cases ht : (tailMaskOf bits).testBit o
  · rw [Bool.and_false, Bool.and_false]
  · have ho := testBit_tailMaskOf_lt bits o ht
    rw [testBit_not32 _ _ ho, Nat.testBit_and, testBit_not32 _ _ ho, ht]
    cases w.testBit o <;> rfl

theorem inv_inv_some_eq (m : boardobjgrpmask) (hm : WellFormed m) :
    (boardobjgrpmask_inv (boardobjgrpmask_inv (some m)).2).2 =
      some ⟨m.bitcount, m.maskdatacount, m.lastmaskfilter,
        m.data.set (m.maskdatacount - 1)
          (m.data.getD (m.maskdatacount - 1) 0 &&& m.lastmaskfilter)⟩ := by
  obtain ⟨hcap, hcnt, htail, hlen⟩ := hm
  have hpos : 1 ≤ m.maskdatacount := by
    rcases hcap with h | h
    · rw [hcnt, h]
    · rw [hcnt, h]; decide
  rw [inv_some_eq m]
  dsimp only
  rw [inv_some_eq]
  dsimp only
  congr 2
  have hl1 := loop_normalize_length (fun _ x => not32 x) m.maskdatacount m.lastmaskfilter m.data
  apply list_eq_of_getD
  · rw [loop_normalize_length (fun _ x => not32 x), hl1, List.length_set]
  · intro j _
    rw [loop_normalize_getD (fun _ x => not32 x) _ _ _ hpos (by rw [hl1]; exact hlen),
      loop_normalize_getD (fun _ x => not32 x) _ _ _ hpos hlen]
    by_cases hj : j < m.maskdatacount
    · rw [if_pos hj, if_pos hj]
      by_cases hl : j = m.maskdatacount - 1
      · rw [if_pos hl, if_pos hl, ← hl, getD_set_self _ _ _ (by omega), htail]
        exact not32_and_tail_twice _ _
      · rw [if_neg hl, if_neg hl, getD_set_other _ _ _ _ (Ne.symm hl)]
        exact not32_not32 _
    · rw [if_neg hj, if_neg hj, getD_set_other _ _ _ _ (by omega)]

/-- Storing back a word that is already there leaves the storage as it is. -/
theorem set_getD_self (l : List Nat) (i : Nat) : l.set i (l.getD i 0) = l := by
  apply list_eq_of_getD
  · rw [List.length_set]
  · intro j _
    by_cases h : i = j
    · subst h
      by_cases hl : i < l.length
      · rw [getD_set_self _ _ _ hl]
      · rw [getD_beyond _ _ (by rw [List.length_set]; omega)]
        rw [getD_beyond _ _ (by omega)]
    · rw [getD_set_other _ _ _ _ h]

/-- C24 as amended, the double-invert law: for a mask laid out for capacity
32 or 255, two calls of `boardobjgrpmask_inv` both return 0 and leave the
original words with the last word ANDed with `tail_mask` (its padding bits
cleared); when the starting words are 32-bit values and normalized, that is
exactly the original mask. -/
theorem double_invert_restores_normalized (m : boardobjgrpmask) (hm : WellFormed m) :
    (boardobjgrpmask_inv (some m)).1 = 0 ∧
    (boardobjgrpmask_inv (boardobjgrpmask_inv (some m)).2).1 = 0 ∧
    (boardobjgrpmask_inv (boardobjgrpmask_inv (some m)).2).2 =
      some ⟨m.bitcount, m.maskdatacount, m.lastmaskfilter,
        m.data.set (m.maskdatacount - 1)
          (m.data.getD (m.maskdatacount - 1) 0 &&& m.lastmaskfilter)⟩ ∧
    (WordsU32 m.data → Normalized m →
      (boardobjgrpmask_inv (boardobjgrpmask_inv (some m)).2).2 = some m) := by
  refine ⟨by rw [inv_some_eq], ?_, inv_inv_some_eq m hm, ?_⟩
  · rw [inv_some_eq m]
    dsimp only
    rw [inv_some_eq]
  · intro hu hn
    rw [inv_inv_some_eq m hm,
      and_eq_self_of_and_not32 _ _ (getD_lt_of_wordsU32 _ hu _) hn, set_getD_self]

/-- C24 as stated fails from a starting state that is not normalized: the
255-bit mask with last word `0xFFFFFFFE`, which `boardobjgrpmask_bitinv` at
index 224 produces from a freshly initialised mask, comes back from two calls
of `boardobjgrpmask_inv` with last word `0x7FFFFFFE`, not with its original
words. -/
theorem double_invert_clears_padding_bit :
    boardobjgrpmask_bitinv (boardobjgrpmask_init (some rawStorage255) 255 none).2.1 224 =
      (0, some ⟨255, 8, 0x7FFFFFFF, [0, 0, 0, 0, 0, 0, 0, 0xFFFFFFFE]⟩) ∧
    boardobjgrpmask_inv (boardobjgrpmask_inv
        (some ⟨255, 8, 0x7FFFFFFF, [0, 0, 0, 0, 0, 0, 0, 0xFFFFFFFE]⟩)).2 =
      (0, some ⟨255, 8, 0x7FFFFFFF, [0, 0, 0, 0, 0, 0, 0, 0x7FFFFFFE]⟩) ∧
    (boardobjgrpmask_inv (boardobjgrpmask_inv
        (some ⟨255, 8, 0x7FFFFFFF, [0, 0, 0, 0, 0, 0, 0, 0xFFFFFFFE]⟩)).2).2 ≠
      some ⟨255, 8, 0x7FFFFFFF, [0, 0, 0, 0, 0, 0, 0, 0xFFFFFFFE]⟩ := by
  decide

/-- Witness of C24: two inversions of the sample 255-bit mask give it back. -/
theorem double_invert_restores_normalized_witness :
    (boardobjgrpmask_inv (boardobjgrpmask_inv (some sampleMask255)).2).2 = some sampleMask255 :=
  (double_invert_restores_normalized sampleMask255 (by decide)).2.2.2 (by decide) (by decide)

theorem clr_some_eq (m : boardobjgrpmask) :
    boardobjgrpmask_clr (some m) =
      (0, some ⟨m.bitcount, m.maskdatacount, m.lastmaskfilter,
        forIndex (fun index d => d.set index 0) m.maskdatacount 0 m.data⟩) := by
  simp only [boardobjgrpmask_clr]

/-- C25, idempotence of the bulk setters: for a mask laid out for capacity 32
or 255, whatever its words, `boardobjgrpmask_clr` applied twice gives the
result (return value and mask) of applying it once, and so does
`boardobjgrpmask_set`. -/
theorem bulk_setters_idempotent (m : boardobjgrpmask) (hm : WellFormed m) :
    boardobjgrpmask_clr (boardobjgrpmask_clr (some m)).2 = boardobjgrpmask_clr (some m) ∧
    boardobjgrpmask_set (boardobjgrpmask_set (some m)).2 = boardobjgrpmask_set (some m) := by
  obtain ⟨hcap, hcnt, htail, hlen⟩ := hm
  have hpos : 1 ≤ m.maskdatacount := by
    rcases hcap with h | h
    · rw [hcnt, h]
    · rw [hcnt, h]; decide
  constructor
  · rw [clr_some_eq m]
    dsimp only
    rw [clr_some_eq]
    dsimp only
    congr 3
    apply list_eq_of_getD
    · rw [forIndex_set_length (fun _ _ => 0), forIndex_set_length (fun _ _ => 0)]
    · intro j _
      rw [clr_words, clr_words]
      by_cases hj : j < m.maskdatacount
      · rw [if_pos hj, if_pos hj]
      · rw [if_neg hj, if_neg hj]
  · rw [set_some_eq m]
    dsimp only
    rw [set_some_eq]
    dsimp only
    congr 3
    have hl1 := loop_normalize_length (fun _ _ => 0xFFFFFFFF) m.maskdatacount
      m.lastmaskfilter m.data
    apply list_eq_of_getD
    · rw [loop_normalize_length (fun _ _ => 0xFFFFFFFF)]
    · intro j _
      rw [loop_normalize_getD (fun _ _ => 0xFFFFFFFF) _ _ _ hpos (by rw [hl1]; exact hlen),
        loop_normalize_getD (fun _ _ => 0xFFFFFFFF) _ _ _ hpos hlen]
      by_cases hj : j < m.maskdatacount
      · rw [if_pos hj, if_pos hj]
      · rw [if_neg hj, if_neg hj]

/-- Witness of C25: the setters applied twice to the sample 255-bit mask. -/
theorem bulk_setters_idempotent_witness :
    boardobjgrpmask_clr (boardobjgrpmask_clr (some sampleMask255)).2 =
      boardobjgrpmask_clr (some sampleMask255) ∧
    boardobjgrpmask_set (boardobjgrpmask_set (some sampleMask255)).2 =
      boardobjgrpmask_set (some sampleMask255) :=
  bulk_setters_idempotent sampleMask255 (by decide)

/-! ## Boolean-algebra laws -/

/-- C26, AND is commutative: for masks `a`, `b` and destinations `d1`, `d2`
laid out for the same capacity, `and(d1, a, b)` and `and(d2, b, a)` both return
0 and leave destinations with the same capacity fields and the same
`word_count` words; when both storages hold exactly `word_count` words the
two resulting masks are equal. -/
theorem and_commutative (d1 d2 a b : boardobjgrpmask)
    (h1 : WellFormed d1) (h2 : WellFormed d2)
    (hd : d1.bitcount = d2.bitcount)
    (ha : d1.bitcount = a.bitcount) (hb : d1.bitcount = b.bitcount) :
    (boardobjgrpmask_and (some d1) (some a) (some b)).1 = 0 ∧
    (boardobjgrpmask_and (some d2) (some b) (some a)).1 = 0 ∧
    ∃ r1 r2,
      (boardobjgrpmask_and (some d1) (some a) (some b)).2.1 = some r1 ∧
      (boardobjgrpmask_and (some d2) (some b) (some a)).2.1 = some r2 ∧
      r1.bitcount = r2.bitcount ∧ r1.maskdatacount = r2.maskdatacount ∧
      r1.lastmaskfilter = r2.lastmaskfilter ∧
      (∀ i, i < r1.maskdatacount → r1.data.getD i 0 = r2.data.getD i 0) ∧
      (d1.data.length = d1.maskdatacount → d2.data.length = d2.maskdatacount → r1 = r2) := by
  obtain ⟨_, hcnt1, htail1, hlen1⟩ := h1
  obtain ⟨_, hcnt2, htail2, hlen2⟩ := h2
  have hmc : d1.maskdatacount = d2.maskdatacount := by rw [hcnt1, hcnt2, hd]
  have hlf : d1.lastmaskfilter = d2.lastmaskfilter := by rw [htail1, htail2, hd]
  rw [and_some_eq d1 a b ha hb, and_some_eq d2 b a (hd.symm.trans hb) (hd.symm.trans ha)]
  have hwords : ∀ i, i < d1.maskdatacount →
      (forIndex (fun index dd => dd.set index (a.data.getD index 0 &&& b.data.getD index 0))
          d1.maskdatacount 0 d1.data).getD i 0 =
      (forIndex (fun index dd => dd.set index (b.data.getD index 0 &&& a.data.getD index 0))
          d2.maskdatacount 0 d2.data).getD i 0 := by
    intro i hi
    rw [store_loop_getD (fun index => a.data.getD index 0 &&& b.data.getD index 0),
      store_loop_getD (fun index => b.data.getD index 0 &&& a.data.getD index 0),
      if_pos ⟨hi, by omega⟩, if_pos ⟨by omega, by omega⟩, Nat.and_comm]
  refine ⟨rfl, rfl, _, _, rfl, rfl, hd, hmc, hlf, hwords, ?_⟩
  intro he1 he2
  have hdata : forIndex (fun index dd => dd.set index (a.data.getD index 0 &&& b.data.getD index 0))
      d1.maskdatacount 0 d1.data =
      forIndex (fun index dd => dd.set index (b.data.getD index 0 &&& a.data.getD index 0))
        d2.maskdatacount 0 d2.data := by
    apply list_eq_of_getD
    · rw [forIndex_set_length (fun index _ => a.data.getD index 0 &&& b.data.getD index 0),
        forIndex_set_length (fun index _ => b.data.getD index 0 &&& a.data.getD index 0),
        he1, he2, hmc]
    · intro j hj
      rw [forIndex_set_length (fun index _ => a.data.getD index 0 &&& b.data.getD index 0),
        he1] at hj
      exact hwords j hj
  rw [hdata, hd, hmc, hlf]

theorem or_and_self (x y : Nat) : x ||| (x &&& y) = x := by
  apply Nat.eq_of_testBit_eq
  intro o
  rw [Nat.testBit_or, Nat.testBit_and]
  cases x.testBit o <;> cases y.testBit o <;> rfl

/-- C27, absorption: for masks `a`, `b` and destinations `t`, `d` of the same
capacity (the destinations laid out for it), `and(t, a, b)` followed by
`or(d, a, t)` both return 0 and leave every word `i < word_count` of `d` equal
to word `i` of `a`. -/
theorem absorption_law (t d a b : boardobjgrpmask)
    (ht : WellFormed t) (hd : WellFormed d)
    (hta : t.bitcount = a.bitcount) (htb : t.bitcount = b.bitcount)
    (hdt : d.bitcount = t.bitcount) :
    (boardobjgrpmask_and (some t) (some a) (some b)).1 = 0 ∧
    (boardobjgrpmask_or (some d) (some a)
      (boardobjgrpmask_and (some t) (some a) (some b)).2.1).1 = 0 ∧
    ∃ d', (boardobjgrpmask_or (some d) (some a)
        (boardobjgrpmask_and (some t) (some a) (some b)).2.1).2.1 = some d' ∧
      d'.bitcount = d.bitcount ∧ d'.maskdatacount = d.maskdatacount ∧
      d'.lastmaskfilter = d.lastmaskfilter ∧
      ∀ i, i < d.maskdatacount → d'.data.getD i 0 = a.data.getD i 0 := by
  obtain ⟨_, hcntt, _, hlent⟩ := ht
  obtain ⟨_, hcntd, _, hlend⟩ := hd
  have hmc : d.maskdatacount = t.maskdatacount := by rw [hcntd, hcntt, hdt]
  rw [and_some_eq t a b hta htb]
  dsimp only
  rw [or_some_eq d a ⟨t.bitcount, t.maskdatacount, t.lastmaskfilter,
    forIndex (fun index dd => dd.set index (a.data.getD index 0 &&& b.data.getD index 0))
      t.maskdatacount 0 t.data⟩ (hdt.trans hta) hdt]
  refine ⟨rfl, rfl, _, rfl, rfl, rfl, rfl, ?_⟩
  intro i hi
  show List.getD _ i 0 = _
  rw [store_loop_getD (fun index => a.data.getD index 0 |||
      (forIndex (fun index dd => dd.set index (a.data.getD index 0 &&& b.data.getD index 0))
        t.maskdatacount 0 t.data).getD index 0),
    if_pos ⟨hi, by omega⟩]
  show a.data.getD i 0 ||| List.getD _ i 0 = _
  rw [store_loop_getD (fun index => a.data.getD index 0 &&& b.data.getD index 0),
    if_pos ⟨by omega, by omega⟩, or_and_self]

/-- C28, XOR self-annihilation: for a mask `a` and a destination `d` laid out
for the same capacity, `xor(d, a, a)` returns 0 and leaves `d` with every word
0, with `boardobjgrpmask_iszero` true and `boardobjgrpmask_bitsetcount` 0. -/
theorem xor_self_is_zero (d a : boardobjgrpmask) (hd : WellFormed d)
    (hda : d.bitcount = a.bitcount) :
    (boardobjgrpmask_xor (some d) (some a) (some a)).1 = 0 ∧
    ∃ d', (boardobjgrpmask_xor (some d) (some a) (some a)).2.1 = some d' ∧
      d'.bitcount = d.bitcount ∧ d'.maskdatacount = d.maskdatacount ∧
      d'.lastmaskfilter = d.lastmaskfilter ∧
      (∀ i, i < d.maskdatacount → d'.data.getD i 0 = 0) ∧
      boardobjgrpmask_iszero (some d') = true ∧
      boardobjgrpmask_bitsetcount (some d') = 0 := by
  rw [xor_some_eq d a a hda hda]
  have hwords : ∀ i, i < d.maskdatacount →
      (forIndex (fun index dd => dd.set index (a.data.getD index 0 ^^^ a.data.getD index 0))
        d.maskdatacount 0 d.data).getD i 0 = 0 := by
    intro i hi
    rw [store_loop_getD (fun index => a.data.getD index 0 ^^^ a.data.getD index 0),
      if_pos ⟨hi, by have := hd.2.2.2; omega⟩, Nat.xor_self]
  obtain ⟨hcap, hcnt, htail, hlen⟩ := hd
  have hpos : 1 ≤ d.maskdatacount := by
    rcases hcap with h | h
    · rw [hcnt, h]
    · rw [hcnt, h]; decide
  have hwf : WellFormed ⟨d.bitcount, d.maskdatacount, d.lastmaskfilter,
      forIndex (fun index dd => dd.set index (a.data.getD index 0 ^^^ a.data.getD index 0))
        d.maskdatacount 0 d.data⟩ := by
    refine ⟨hcap, hcnt, htail, ?_⟩
    show d.maskdatacount ≤ List.length _
    rw [forIndex_set_length (fun index _ => a.data.getD index 0 ^^^ a.data.getD index 0)]
    exact hlen
  have hnorm : Normalized ⟨d.bitcount, d.maskdatacount, d.lastmaskfilter,
      forIndex (fun index dd => dd.set index (a.data.getD index 0 ^^^ a.data.getD index 0))
        d.maskdatacount 0 d.data⟩ := by
    unfold Normalized
    show List.getD _ (d.maskdatacount - 1) 0 &&& not32 d.lastmaskfilter = 0
    rw [hwords _ (by omega), Nat.zero_and]
  refine ⟨rfl, _, rfl, rfl, rfl, rfl, hwords, ?_, ?_⟩
  · rw [iszero_some]
    exact hwords
  · rw [bitsetcount_eq_setBitCount _ hwf hnorm, setBitCount_eq_zero_iff]
    intro idx hidx
    obtain ⟨hiw, _⟩ := word_index_lt _ hwf idx hidx
    rw [bitget_some]
    show (_ && (List.getD _ (idx / 32) 0).testBit (idx % 32)) = false
    rw [hwords _ hiw, Nat.zero_testBit, Bool.and_false]

/-! ## The two scenarios -/

theorem forIndex_one {σ : Type} (body : Nat → σ → σ) (s : Nat) (r : σ) :
    forIndex body 1 s r = body s r := rfl

theorem getD_cons_zero_nat (a : Nat) (l : List Nat) : (a :: l).getD 0 0 = a := rfl

/-- The value `boardobjgrpmask_bitidxhighest` returns: the scan stops at the
first non-zero word `k`, counted from word 0, and answers from that word. -/
theorem bitidxhighest_first_word (m : boardobjgrpmask) (k : Nat) (hk : k < m.maskdatacount)
    (hne : m.data.getD k 0 ≠ 0) (hz : ∀ j, j < k → m.data.getD j 0 = 0) :
    boardobjgrpmask_bitidxhighest (some m) =
      (HIGHESTBITIDX_32 (m.data.getD k 0) % 2 ^ 8 +
        k * CTRL_BOARDOBJGRP_MASK_MASK_ELEMENT_BIT_SIZE) % 2 ^ 8 := by
  unfold boardobjgrpmask_bitidxhighest
  simp only
  rw [forIndexBreak_first_hit _ m.maskdatacount 0 CTRL_BOARDOBJ_IDX_INVALID k (Nat.zero_le _)
    (by omega)]
  · simp only [hne, ne_eq, not_false_eq_true, if_true]
  · intro j _ h2 r
    have h0 := hz j h2
    simp only [h0, ne_eq, not_true_eq_false, if_false]
  · simp only [hne, ne_eq, not_false_eq_true, if_true]

/-- C29, the capacity-32 scenario: from any storage of at least one word,
`init(32, no buffer)` gives a zero mask; `set_bit(0)` and `set_bit(31)` both
return 0; afterwards `boardobjgrpmask_bitsetcount` is 2,
`boardobjgrpmask_bitidxlowest` is 0, `boardobjgrpmask_bitidxhighest` is 31,
and `export(32, buf)` into a one-word buffer returns 0 and leaves the buffer
`[0x80000001]`. -/
theorem scenario_capacity_32 (m : boardobjgrpmask) (buf : ctrl_boardobjgrp_mask)
    (hlen : 1 ≤ m.data.length) (hbuf : buf.data.length = 1) :
    ∃ m0 m1 m2,
      boardobjgrpmask_init (some m) 32 none = (0, some m0, none) ∧
      boardobjgrpmask_iszero (some m0) = true ∧
      boardobjgrpmask_bitset (some m0) 0 = (0, some m1) ∧
      boardobjgrpmask_bitset (some m1) 31 = (0, some m2) ∧
      boardobjgrpmask_bitsetcount (some m2) = 2 ∧
      boardobjgrpmask_bitidxlowest (some m2) = 0 ∧
      boardobjgrpmask_bitidxhighest (some m2) = 31 ∧
      boardobjgrpmask_export (some m2) 32 (some buf) =
        (0, some m2, some ⟨[0x80000001]⟩) := by
  obtain ⟨bc, mc, lf, data⟩ := m
  obtain ⟨bdata⟩ := buf
  cases data with
  | nil => simp at hlen
  | cons x rest =>
    cases bdata with
    | nil => simp at hbuf
    | cons y brest =>
      cases brest with
      | cons z zs => simp at hbuf
      | nil =>
        have hg : (boardobjgrpmask.mk 32 1 0xFFFFFFFF (0x80000001 :: rest)).data.getD 0 0 =
            0x80000001 := getD_cons_zero_nat _ _
        have hne : (boardobjgrpmask.mk 32 1 0xFFFFFFFF (0x80000001 :: rest)).data.getD 0 0 ≠ 0 := by
          rw [hg]; decide
        refine ⟨⟨32, 1, 0xFFFFFFFF, 0 :: rest⟩, ⟨32, 1, 0xFFFFFFFF, 1 :: rest⟩,
          ⟨32, 1, 0xFFFFFFFF, 0x80000001 :: rest⟩, rfl, rfl, ?_, ?_, ?_, ?_, ?_, rfl⟩
        · rw [bitset_some_eq _ 0 (show 0 < 32 by decide)]
          have h : ((0 : Nat) ||| 2 ^ (0 % 32)) = 1 := by decide
          show (_, some (boardobjgrpmask.mk _ _ _ ((0 ||| 2 ^ (0 % 32)) :: rest))) = _
          rw [h]
        · rw [bitset_some_eq _ 31 (show 31 < 32 by decide)]
          have h : ((1 : Nat) ||| 2 ^ (31 % 32)) = 0x80000001 := by decide
          show (_, some (boardobjgrpmask.mk _ _ _ ((1 ||| 2 ^ (31 % 32)) :: rest))) = _
          rw [h]
        · have hp : (0 + NUMSETBITS_32 0x80000001 % 2 ^ 8) % 2 ^ 8 = 2 := by decide
          unfold boardobjgrpmask_bitsetcount
          simp only
          rw [forIndex_one, getD_cons_zero_nat]
          exact hp
        · have hp : (LOWESTBITIDX_32 0x80000001 % 2 ^ 8 +
              0 * CTRL_BOARDOBJGRP_MASK_MASK_ELEMENT_BIT_SIZE) % 2 ^ 8 = 0 := by decide
          rw [bitidxlowest_first_word _ 0 (show 0 < 1 by decide) hne
            (fun j hj => absurd hj (by omega)), hg]
          exact hp
        · have hp : (HIGHESTBITIDX_32 0x80000001 % 2 ^ 8 +
              0 * CTRL_BOARDOBJGRP_MASK_MASK_ELEMENT_BIT_SIZE) % 2 ^ 8 = 31 := by decide
          rw [bitidxhighest_first_word _ 0 (show 0 < 1 by decide) hne
            (fun j hj => absurd hj (by omega)), hg]
          exact hp

/-- Witness of C29: the scenario run on the one-word storage with stale
contents and a stale one-word buffer. -/
theorem scenario_capacity_32_witness :
    ∃ m0 m1 m2,
      boardobjgrpmask_init (some rawStorage32) 32 none = (0, some m0, none) ∧
      boardobjgrpmask_iszero (some m0) = true ∧
      boardobjgrpmask_bitset (some m0) 0 = (0, some m1) ∧
      boardobjgrpmask_bitset (some m1) 31 = (0, some m2) ∧
      boardobjgrpmask_bitsetcount (some m2) = 2 ∧
      boardobjgrpmask_bitidxlowest (some m2) = 0 ∧
      boardobjgrpmask_bitidxhighest (some m2) = 31 ∧
      boardobjgrpmask_export (some m2) 32 (some staleBuffer32) =
        (0, some m2, some ⟨[0x80000001]⟩) :=
  scenario_capacity_32 rawStorage32 staleBuffer32 (by decide) (by decide)

/-- A successful `boardobjgrpmask_init` leaves a well-formed mask in the same
storage. -/
theorem init_result_wellFormed (m : boardobjgrpmask) (bitsize : Nat)
    (extmask : Option ctrl_boardobjgrp_mask) (hb : bitsize = 32 ∨ bitsize = 255)
    (hlen : (bitsize + 31) / 32 ≤ m.data.length) :
    ∃ m0, boardobjgrpmask_init (some m) bitsize extmask = (0, some m0, extmask) ∧
      WellFormed m0 ∧ m0.bitcount = bitsize ∧ m0.data.length = m.data.length := by
  rw [init_supported m bitsize extmask hb]
  cases extmask with
  | none =>
    refine ⟨_, rfl, ⟨hb, rfl, rfl, ?_⟩, rfl, ?_⟩
    · show (bitsize + 31) / 32 ≤ List.length _
      rw [forIndex_set_length (fun _ _ => 0)]
      exact hlen
    · exact forIndex_set_length (fun _ _ => 0) _ _ _
  | some e =>
    dsimp only
    have e1 := import_some_eq ⟨bitsize, (bitsize + 31) / 32, tailMaskOf bitsize, m.data⟩ e
    dsimp only at e1
    rw [e1]
    have hl := loop_normalize_length (fun i _ => e.data.getD i 0) ((bitsize + 31) / 32)
      (tailMaskOf bitsize) m.data
    refine ⟨_, rfl, ⟨hb, rfl, rfl, ?_⟩, rfl, hl⟩
    show (bitsize + 31) / 32 ≤ List.length _
    rw [hl]
    exact hlen

theorem export_some_eq (m : boardobjgrpmask) (e : ctrl_boardobjgrp_mask) :
    boardobjgrpmask_export (some m) m.bitcount (some e) =
      (0, some m, some ⟨forIndex (fun index d => d.set index (m.data.getD index 0))
        m.maskdatacount 0 e.data⟩) := by
  simp only [boardobjgrpmask_export, ne_eq, not_true_eq_false, if_false]

/-- C30, the capacity-255 scenario: from any storage of at least eight words,
after `init(255)` (with or without an initial buffer) and `set_all`,
`get_bit(254)` is true, `get_bit(255)` is false (255 is out of range),
`set_bit(255)` returns `-EINVAL` and leaves the mask as it was, and
`export(255, buf)` returns 0 and writes `0xFFFFFFFF` to words 0..6 and
`0x7FFFFFFF` to word 7 of the buffer. -/
theorem scenario_capacity_255 (m : boardobjgrpmask)
    (extmask : Option ctrl_boardobjgrp_mask) (buf : ctrl_boardobjgrp_mask)
    (hlen : 8 ≤ m.data.length) (hbuf : 8 ≤ buf.data.length) :
    ∃ m0 m1 e',
      boardobjgrpmask_init (some m) 255 extmask = (0, some m0, extmask) ∧
      boardobjgrpmask_set (some m0) = (0, some m1) ∧
      boardobjgrpmask_bitget (some m1) 254 = true ∧
      boardobjgrpmask_bitget (some m1) 255 = false ∧
      boardobjgrpmask_bitset (some m1) 255 = (NEG_EINVAL_INT, some m1) ∧
      boardobjgrpmask_export (some m1) 255 (some buf) = (0, some m1, some e') ∧
      e'.data.length = buf.data.length ∧
      (∀ i, i < 7 → e'.data.getD i 0 = 0xFFFFFFFF) ∧
      e'.data.getD 7 0 = 0x7FFFFFFF := by
  obtain ⟨m0, hinit, hwf, hbc, _⟩ :=
    init_result_wellFormed m 255 extmask (Or.inr rfl) hlen
  have hex : ∃ m1, boardobjgrpmask_set (some m0) = (0, some m1) := ⟨_, set_some_eq m0⟩
  obtain ⟨m1, hset⟩ := hex
  obtain ⟨hbc1, hwc1, _, _, hwords⟩ := set_words m0 hwf m1 (by rw [hset])
  obtain ⟨_, hcnt, htail, _⟩ := hwf
  have hc8 : m0.maskdatacount = 8 := by rw [hcnt, hbc]
  have ht8 : m0.lastmaskfilter = 0x7FFFFFFF := by rw [htail, hbc]; decide
  rw [hc8, ht8] at hwords
  have hb1 : m1.bitcount = 255 := by rw [hbc1, hbc]
  have hw7 : m1.data.getD 7 0 = 0x7FFFFFFF := by
    rw [hwords 7 (by decide), if_pos (by decide)]
    decide
  have hexp := export_some_eq m1 buf
  rw [hb1] at hexp
  refine ⟨m0, m1, _, hinit, hset, ?_, ?_, ?_, hexp, ?_, ?_, ?_⟩
  · rw [bitget_some, hb1, show 254 / 32 = 7 by decide, hw7]
    decide
  · rw [bitget_some, hb1]
    rfl
  · have h' : 255 ≥ m1.bitcount := by rw [hb1]
    simp only [boardobjgrpmask_bitset, h', if_true]
  · exact forIndex_set_length (fun index _ => m1.data.getD index 0) _ _ _
  · intro i hi
    show List.getD _ i 0 = _
    rw [export_data_getD, if_pos ⟨by rw [hwc1, hc8]; omega, by omega⟩, hwords i (by omega),
      if_neg (by omega)]
  · show List.getD _ 7 0 = _
    rw [export_data_getD, if_pos ⟨by rw [hwc1, hc8]; decide, by omega⟩, hw7]

/-- Witness of C30: the scenario run on the eight-word storage, initialised
from the sample buffer, and exported into a stale buffer. -/
theorem scenario_capacity_255_witness :
    ∃ m0 m1 e',
      boardobjgrpmask_init (some rawStorage255) 255 (some sampleBuffer255) =
        (0, some m0, some sampleBuffer255) ∧
      boardobjgrpmask_set (some m0) = (0, some m1) ∧
      boardobjgrpmask_bitget (some m1) 254 = true ∧
      boardobjgrpmask_bitget (some m1) 255 = false ∧
      boardobjgrpmask_bitset (some m1) 255 = (NEG_EINVAL_INT, some m1) ∧
      boardobjgrpmask_export (some m1) 255 (some staleBuffer255) = (0, some m1, some e') ∧
      e'.data.length = staleBuffer255.data.length ∧
      (∀ i, i < 7 → e'.data.getD i 0 = 0xFFFFFFFF) ∧
      e'.data.getD 7 0 = 0x7FFFFFFF :=
  scenario_capacity_255 rawStorage255 (some sampleBuffer255) staleBuffer255
    (by decide) (by decide)

/-! ## Instances of the boolean-algebra laws at concrete masks -/

/-- Witness of C26: the two orders of `and` on the two 255-bit samples. -/
theorem and_commutative_witness :
    (boardobjgrpmask_and (some sampleMask255) (some sampleMaskBit70) (some sampleMask255)).1 = 0 ∧
    (boardobjgrpmask_and (some sampleMaskBit70) (some sampleMask255) (some sampleMaskBit70)).1 = 0 :=
  ⟨(and_commutative sampleMask255 sampleMaskBit70 sampleMaskBit70 sampleMask255
      (by decide) (by decide) (by decide) (by decide) (by decide)).1,
   (and_commutative sampleMask255 sampleMaskBit70 sampleMaskBit70 sampleMask255
      (by decide) (by decide) (by decide) (by decide) (by decide)).2.1⟩

/-- Witness of C27: absorption on the two 32-bit samples. -/
theorem absorption_law_witness :
    ∃ d', (boardobjgrpmask_or (some sampleMask32b) (some sampleMask32)
        (boardobjgrpmask_and (some sampleMask32b) (some sampleMask32)
          (some sampleMask32b)).2.1).2.1 = some d' ∧
      ∀ i, i < sampleMask32b.maskdatacount → d'.data.getD i 0 = sampleMask32.data.getD i 0 :=
  match absorption_law sampleMask32b sampleMask32b sampleMask32 sampleMask32b
      (by decide) (by decide) (by decide) (by decide) (by decide) with
  | ⟨_, _, d', h1, _, _, _, h2⟩ => ⟨d', h1, h2⟩

/-- Witness of C28: `xor` of the sample 255-bit mask with itself. -/
theorem xor_self_is_zero_witness :
    ∃ d', (boardobjgrpmask_xor (some sampleMaskBit70) (some sampleMask255)
        (some sampleMask255)).2.1 = some d' ∧
      boardobjgrpmask_iszero (some d') = true ∧
      boardobjgrpmask_bitsetcount (some d') = 0 :=
  match xor_self_is_zero sampleMaskBit70 sampleMask255 (by decide) (by decide) with
  | ⟨_, d', h1, _, _, _, _, h2, h3⟩ => ⟨d', h1, h2, h3⟩

/-! ## The single-bit inversion as the code performs it -/

/-- The negated single-bit mask, as a 32-bit value. -/
theorem not32_two_pow_eq (off : Nat) (hoff : off < 32) :
    not32 (2 ^ off) = 0xFFFFFFFF - 2 ^ off := by
  have hlt : 2 ^ off < 2 ^ 32 := Nat.pow_lt_pow_right (by decide) hoff
  have e : (0xFFFFFFFF : Nat) - 2 ^ off = 2 ^ 32 - (2 ^ off + 1) := by omega
  rw [e]
  apply Nat.eq_of_testBit_eq
  intro i
  rw [testBit_not32_two_pow _ _ hoff, Nat.testBit_two_pow_sub_succ hlt, Nat.testBit_two_pow]
  by_cases h : off = i
  · subst h; simp
  · have h' : ¬ i = off := fun e => h e.symm
    simp [h, h']

theorem testBit_xor_not32_two_pow (w off o : Nat) (hoff : off < 32) (ho : o < 32) :
    (w ^^^ not32 (2 ^ off)).testBit o = if o = off then w.testBit o else !w.testBit o := by
  rw [Nat.testBit_xor, testBit_not32_two_pow _ _ hoff, decide_eq_true ho, Bool.true_and]
  by_cases h : o = off
  · rw [if_pos h, decide_eq_true h]
    cases w.testBit o <;> rfl
  · rw [if_neg h, decide_eq_false h]
    cases w.testBit o <;> rfl

/-- C31, the literal word update of invert_bit: for a mask laid out for
capacity 32 or 255 and `idx < capacity_bits`, `boardobjgrpmask_bitinv` returns
0, keeps the capacity fields and replaces word `idx / 32` by
`word XOR NOT(1 << (idx mod 32))`, the negated single-bit mask being the
32-bit value `0xFFFFFFFF - (1 << (idx mod 32))`; so every bit of that word
other than the target bit is inverted (the target bit keeps its value), and
every other word of the mask is unchanged. -/
theorem invert_bit_literal_update (m : boardobjgrpmask) (hm : WellFormed m) (idx : Nat)
    (hidx : idx < m.bitcount) :
    (boardobjgrpmask_bitinv (some m) idx).1 = 0 ∧
    ∃ m', (boardobjgrpmask_bitinv (some m) idx).2 = some m' ∧
      m'.bitcount = m.bitcount ∧ m'.maskdatacount = m.maskdatacount ∧
      m'.lastmaskfilter = m.lastmaskfilter ∧
      m'.data.getD (idx / 32) 0 =
        m.data.getD (idx / 32) 0 ^^^ not32 (2 ^ (idx % 32)) ∧
      not32 (2 ^ (idx % 32)) = 0xFFFFFFFF - 2 ^ (idx % 32) ∧
      (∀ o, o < 32 → o ≠ idx % 32 →
        (m'.data.getD (idx / 32) 0).testBit o = !(m.data.getD (idx / 32) 0).testBit o) ∧
      (m'.data.getD (idx / 32) 0).testBit (idx % 32) =
        (m.data.getD (idx / 32) 0).testBit (idx % 32) ∧
      (∀ i, i ≠ idx / 32 → m'.data.getD i 0 = m.data.getD i 0) := by
  rw [bitinv_some_eq m idx hidx]
  obtain ⟨hv, hother, _⟩ := word_update_facts m hm idx hidx
    (m.data.getD (idx / 32) 0 ^^^ not32 (2 ^ (idx % 32))) _ rfl
  have hoff : idx % 32 < 32 := Nat.mod_lt _ (by decide)
  refine ⟨rfl, _, rfl, rfl, rfl, rfl, hv, not32_two_pow_eq _ hoff, ?_, ?_, hother⟩
  · intro o ho hne
    rw [hv, testBit_xor_not32_two_pow _ _ _ hoff ho, if_neg hne]
  · rw [hv, testBit_xor_not32_two_pow _ _ _ hoff hoff, if_pos rfl]

/-- Witness of C31: inverting at index 100 of the sample 255-bit mask. -/
theorem invert_bit_literal_update_witness :
    ∃ m', (boardobjgrpmask_bitinv (some sampleMask255) 100).2 = some m' ∧
      m'.data.getD (100 / 32) 0 =
        sampleMask255.data.getD (100 / 32) 0 ^^^ not32 (2 ^ (100 % 32)) ∧
      ∀ i, i ≠ 100 / 32 → m'.data.getD i 0 = sampleMask255.data.getD i 0 :=
  match invert_bit_literal_update sampleMask255 (by decide) 100 (by decide) with
  | ⟨_, m', h1, _, _, _, h2, _, _, _, h3⟩ => ⟨m', h1, h2, h3⟩

theorem xor_xor_cancel (w x : Nat) : (w ^^^ x) ^^^ x = w := by
  rw [Nat.xor_assoc, Nat.xor_self, Nat.xor_zero]

/-- C36, invert_bit is an involution: for every mask, normalized or not, and
every `idx < capacity_bits`, `boardobjgrpmask_bitinv` returns 0 and applying
it a second time at the same index returns 0 and gives back exactly the
original mask. -/
theorem invert_bit_involution (m : boardobjgrpmask) (idx : Nat) (hidx : idx < m.bitcount) :
    (boardobjgrpmask_bitinv (some m) idx).1 = 0 ∧
    boardobjgrpmask_bitinv (boardobjgrpmask_bitinv (some m) idx).2 idx = (0, some m) := by
  rw [bitinv_some_eq m idx hidx]
  refine ⟨rfl, ?_⟩
  dsimp only
  rw [bitinv_some_eq ⟨m.bitcount, m.maskdatacount, m.lastmaskfilter,
    m.data.set (idx / 32) (m.data.getD (idx / 32) 0 ^^^ not32 (2 ^ (idx % 32)))⟩ idx hidx]
  dsimp only
  congr 2
  cases m with
  | mk bc mc lf data =>
  congr 1
  dsimp only
  by_cases hl : idx / 32 < data.length
  · rw [getD_set_self _ _ _ hl, xor_xor_cancel, List.set_set, set_getD_self]
  · rw [List.set_eq_of_length_le (by rw [List.length_set]; omega),
      List.set_eq_of_length_le (by omega)]

/-- Witness of C36: inverting twice at index 224 of the sample 255-bit mask. -/
theorem invert_bit_involution_witness :
    boardobjgrpmask_bitinv (boardobjgrpmask_bitinv (some sampleMask255) 224).2 224 =
      (0, some sampleMask255) :=
  (invert_bit_involution sampleMask255 224 (by decide)).2

/-! ## Normalization under the mutators -/

theorem wellFormed_pos (m : boardobjgrpmask) (hm : WellFormed m) : 1 ≤ m.maskdatacount := by
  obtain ⟨hcap, hcnt, _, _⟩ := hm
  rcases hcap with h | h
  · rw [hcnt, h]
  · rw [hcnt, h]; decide

/-- A valid bit index that falls in the last word lies inside the tail mask. -/
theorem tail_bit_of_valid_index (m : boardobjgrpmask) (hm : WellFormed m) (idx : Nat)
    (hidx : idx < m.bitcount) (hl : idx / 32 = m.maskdatacount - 1) :
    (tailMaskOf m.bitcount).testBit (idx % 32) = true := by
  obtain ⟨hcap, hcnt, _, _⟩ := hm
  rw [testBit_tailMaskOf]
  apply decide_eq_true
  rcases hcap with h | h
  · rw [h]; exact Nat.mod_lt _ (by decide)
  · rw [hcnt, h] at hl
    rw [h] at hidx ⊢
    rw [if_neg (by omega)]
    omega

theorem clr_normalized (m m' : boardobjgrpmask) (hm : WellFormed m)
    (h' : (boardobjgrpmask_clr (some m)).2 = some m') : Normalized m' := by
  rw [clr_some_eq] at h'
  have e := Option.some.inj h'
  subst e
  unfold Normalized
  show List.getD _ (m.maskdatacount - 1) 0 &&& not32 m.lastmaskfilter = 0
  have hpos := wellFormed_pos m hm
  rw [clr_words, if_pos (by omega), Nat.zero_and]

theorem set_normalized (m m' : boardobjgrpmask) (hm : WellFormed m)
    (h' : (boardobjgrpmask_set (some m)).2 = some m') : Normalized m' := by
  obtain ⟨_, hwc, htl, _, hwords⟩ := set_words m hm m' h'
  have hpos := wellFormed_pos m hm
  unfold Normalized
  rw [hwc, hwords _ (by omega), if_pos rfl, htl, hm.2.2.1]
  exact and_tail_normalized _ _

theorem inv_normalized (m m' : boardobjgrpmask) (hm : WellFormed m)
    (h' : (boardobjgrpmask_inv (some m)).2 = some m') : Normalized m' := by
  obtain ⟨_, hwc, htl, _, hwords⟩ := inv_words m hm.2.2.2 m' h'
  have hpos := wellFormed_pos m hm
  unfold Normalized
  rw [hwc, hwords _ (by omega), if_pos rfl, htl, hm.2.2.1]
  exact and_tail_normalized _ _

theorem import_normalized (m m' : boardobjgrpmask) (hm : WellFormed m)
    (e : ctrl_boardobjgrp_mask)
    (h' : (boardobjgrpmask_import (some m) m.bitcount (some e)).2.1 = some m') :
    Normalized m' := by
  rw [import_some_eq] at h'
  have e1 := Option.some.inj h'
  subst e1
  have hpos := wellFormed_pos m hm
  unfold Normalized
  show List.getD _ (m.maskdatacount - 1) 0 &&& not32 m.lastmaskfilter = 0
  rw [import_words m e hm.2.2.2 _ (by omega), if_pos rfl, hm.2.2.1]
  exact and_tail_normalized _ _

theorem copy_normalized (d s d' : boardobjgrpmask) (hd : WellFormed d) (hs : WellFormed s)
    (hbc : d.bitcount = s.bitcount) (hn : Normalized s)
    (h' : (boardobjgrpmask_copy (some d) (some s)).2.1 = some d') : Normalized d' := by
  rw [copy_some_eq d s hbc] at h'
  have e1 := Option.some.inj h'
  subst e1
  have hpos := wellFormed_pos d hd
  obtain ⟨_, hcnt, htail, hlen⟩ := hd
  obtain ⟨_, hcnt2, htail2, _⟩ := hs
  unfold Normalized at hn ⊢
  show List.getD _ (d.maskdatacount - 1) 0 &&& not32 d.lastmaskfilter = 0
  rw [store_loop_getD (fun index => s.data.getD index 0),
    if_pos ⟨by omega, by omega⟩, hcnt, htail, hbc, ← hcnt2, ← htail2]
  exact hn

theorem or_and_not_zero (w b c : Nat) (h1 : w &&& c = 0) (h2 : b &&& c = 0) :
    (w ||| b) &&& c = 0 := by
  apply Nat.eq_of_testBit_eq
  intro o
  have e1 := congrArg (fun y => y.testBit o) h1
  have e2 := congrArg (fun y => y.testBit o) h2
  simp only [Nat.testBit_and, Nat.zero_testBit] at e1 e2
  rw [Nat.testBit_and, Nat.testBit_or, Nat.zero_testBit]
  cases hc : c.testBit o
  · exact Bool.and_false _
  · rw [hc, Bool.and_true] at e1 e2
    rw [e1, e2]; rfl

theorem and_and_zero (w b c : Nat) (h1 : w &&& c = 0) : (w &&& b) &&& c = 0 := by
  apply Nat.eq_of_testBit_eq
  intro o
  have e1 := congrArg (fun y => y.testBit o) h1
  simp only [Nat.testBit_and, Nat.zero_testBit] at e1
  rw [Nat.testBit_and, Nat.testBit_and, Nat.zero_testBit]
  cases hc : c.testBit o
  · exact Bool.and_false _
  · rw [hc, Bool.and_true] at e1
    rw [e1]; rfl

theorem bitset_normalized (m m' : boardobjgrpmask) (hm : WellFormed m) (hn : Normalized m)
    (idx : Nat) (hidx : idx < m.bitcount)
    (h' : (boardobjgrpmask_bitset (some m) idx).2 = some m') : Normalized m' := by
  rw [bitset_some_eq m idx hidx] at h'
  have e1 := (Option.some.inj h').symm
  obtain ⟨hv, hother, _⟩ := word_update_facts m hm idx hidx _ m' e1
  have hwc : m'.maskdatacount = m.maskdatacount := by rw [e1]
  have htl : m'.lastmaskfilter = m.lastmaskfilter := by rw [e1]
  unfold Normalized at hn ⊢
  rw [hwc, htl]
  by_cases hl : idx / 32 = m.maskdatacount - 1
  · rw [← hl, hv]
    rw [← hl] at hn
    apply or_and_not_zero _ _ _ hn
    apply Nat.eq_of_testBit_eq
    intro o
    rw [Nat.testBit_and, Nat.testBit_two_pow, Nat.zero_testBit]
    by_cases ho : idx % 32 = o
    · have ht := tail_bit_of_valid_index m hm idx hidx hl
      have ho32 : o < 32 := by rw [← ho]; exact Nat.mod_lt _ (by decide)
      rw [hm.2.2.1, testBit_not32 _ _ ho32, ← ho, ht]
      simp
    · rw [decide_eq_false ho, Bool.false_and]
  · rw [hother _ (Ne.symm hl)]
    exact hn

theorem bitclr_normalized (m m' : boardobjgrpmask) (hm : WellFormed m) (hn : Normalized m)
    (idx : Nat) (hidx : idx < m.bitcount)
    (h' : (boardobjgrpmask_bitclr (some m) idx).2 = some m') : Normalized m' := by
  rw [bitclr_some_eq m idx hidx] at h'
  have e1 := (Option.some.inj h').symm
  obtain ⟨hv, hother, _⟩ := word_update_facts m hm idx hidx _ m' e1
  have hwc : m'.maskdatacount = m.maskdatacount := by rw [e1]
  have htl : m'.lastmaskfilter = m.lastmaskfilter := by rw [e1]
  unfold Normalized at hn ⊢
  rw [hwc, htl]
  by_cases hl : idx / 32 = m.maskdatacount - 1
  · rw [← hl, hv]
    rw [← hl] at hn
    exact and_and_zero _ _ _ hn
  · rw [hother _ (Ne.symm hl)]
    exact hn

theorem init_normalized (raw : boardobjgrpmask) (bitsize : Nat)
    (extmask : Option ctrl_boardobjgrp_mask) (hb : bitsize = 32 ∨ bitsize = 255)
    (hlen : (bitsize + 31) / 32 ≤ raw.data.length) (m' : boardobjgrpmask)
    (h' : (boardobjgrpmask_init (some raw) bitsize extmask).2.1 = some m') :
    Normalized m' := by
  rw [init_supported raw bitsize extmask hb] at h'
  have hwf : WellFormed ⟨bitsize, (bitsize + 31) / 32, tailMaskOf bitsize, raw.data⟩ :=
    ⟨hb, rfl, rfl, hlen⟩
  cases extmask with
  | none =>
    exact clr_normalized ⟨bitsize, (bitsize + 31) / 32, tailMaskOf bitsize, raw.data⟩ m' hwf
      (by rw [clr_some_eq]; exact h')
  | some e =>
    exact import_normalized ⟨bitsize, (bitsize + 31) / 32, tailMaskOf bitsize, raw.data⟩ m' hwf
      e h'

theorem init_unsupported (raw : boardobjgrpmask) (bitsize : Nat)
    (extmask : Option ctrl_boardobjgrp_mask) (hb : ¬ (bitsize = 32 ∨ bitsize = 255)) :
    boardobjgrpmask_init (some raw) bitsize extmask = (NEG_EINVAL_U32, some raw, extmask) := by
  have hb' : bitsize ≠ 32 ∧ bitsize ≠ 255 := by omega
  simp only [boardobjgrpmask_init, CTRL_BOARDOBJGRP_E32_MAX_OBJECTS,
    CTRL_BOARDOBJGRP_E255_MAX_OBJECTS]
  rw [if_pos hb']

/-- A call of `boardobjgrpmask_import` either fails and hands the mask back, or
has a present buffer and the mask's own capacity as argument. -/
theorem import_cases (m : boardobjgrpmask) (bitsize : Nat)
    (extmask : Option ctrl_boardobjgrp_mask) :
    boardobjgrpmask_import (some m) bitsize extmask = (NEG_EINVAL_U32, some m, extmask) ∨
      (bitsize = m.bitcount ∧ ∃ e, extmask = some e) := by
  cases extmask with
  | none => left; simp [boardobjgrpmask_import]
  | some e =>
    by_cases h : m.bitcount = bitsize
    · right; exact ⟨h.symm, e, rfl⟩
    · left; simp [boardobjgrpmask_import, h]

theorem copy_cases (d : boardobjgrpmask) (src : Option boardobjgrpmask) :
    boardobjgrpmask_copy (some d) src = (NEG_EINVAL_U32, some d, src) ∨
      ∃ s, src = some s ∧ d.bitcount = s.bitcount := by
  cases src with
  | none => left; simp [boardobjgrpmask_copy, boardobjgrpmask_sizeeq]
  | some s =>
    by_cases h : d.bitcount = s.bitcount
    · right; exact ⟨s, rfl, h⟩
    · left; simp [boardobjgrpmask_copy, sizeeq_some, h]

/-- A call of a boolean combination either fails and hands every operand back,
or has both operands present with the destination's capacity. -/
theorem binop_cases (d : boardobjgrpmask) (op1 op2 : Option boardobjgrpmask) :
    (boardobjgrpmask_and (some d) op1 op2 = (NEG_EINVAL_U32, some d, op1, op2) ∧
      boardobjgrpmask_or (some d) op1 op2 = (NEG_EINVAL_U32, some d, op1, op2) ∧
      boardobjgrpmask_xor (some d) op1 op2 = (NEG_EINVAL_U32, some d, op1, op2)) ∨
    ∃ a b, op1 = some a ∧ op2 = some b ∧ d.bitcount = a.bitcount ∧
      d.bitcount = b.bitcount := by
  cases op1 with
  | none =>
    left
    simp [boardobjgrpmask_and, boardobjgrpmask_or, boardobjgrpmask_xor, boardobjgrpmask_sizeeq]
  | some a =>
    cases op2 with
    | none =>
      left
      simp [boardobjgrpmask_and, boardobjgrpmask_or, boardobjgrpmask_xor,
        boardobjgrpmask_sizeeq]
    | some b =>
      by_cases hab : d.bitcount = a.bitcount
      · by_cases hdb : d.bitcount = b.bitcount
        · right; exact ⟨a, b, rfl, rfl, hab, hdb⟩
        · left
          simp [boardobjgrpmask_and, boardobjgrpmask_or, boardobjgrpmask_xor, sizeeq_some,
            hab, hdb, hab ▸ hdb]
      · left
        simp [boardobjgrpmask_and, boardobjgrpmask_or, boardobjgrpmask_xor, sizeeq_some, hab]

theorem bitset_out_of_range (m : boardobjgrpmask) (idx : Nat) (h : m.bitcount ≤ idx) :
    boardobjgrpmask_bitset (some m) idx = (NEG_EINVAL_INT, some m) := by
  have h' : idx ≥ m.bitcount := h
  simp only [boardobjgrpmask_bitset, h', if_true]

theorem bitclr_out_of_range (m : boardobjgrpmask) (idx : Nat) (h : m.bitcount ≤ idx) :
    boardobjgrpmask_bitclr (some m) idx = (NEG_EINVAL_INT, some m) := by
  have h' : idx ≥ m.bitcount := h
  simp only [boardobjgrpmask_bitclr, h', if_true]

/-- C33, every mutator other than invert_bit preserves normalization: for a
mask laid out for capacity 32 or 255, clear, set_all, invert and a
successful import leave a normalized mask from any starting words, and so
does a successful init from any storage large enough; and if the mask is normalized
before the call it is normalized after import, init, copy, and, or, xor (the
source operands, when present, being normalized masks laid out for their
capacity), set_bit and clear_bit, whether the call succeeds or fails. -/
theorem mutators_preserve_normalization (m : boardobjgrpmask) (hm : WellFormed m) :
    (∀ m', (boardobjgrpmask_clr (some m)).2 = some m' → Normalized m') ∧
    (∀ m', (boardobjgrpmask_set (some m)).2 = some m' → Normalized m') ∧
    (∀ m', (boardobjgrpmask_inv (some m)).2 = some m' → Normalized m') ∧
    (∀ bitsize extmask m', (boardobjgrpmask_import (some m) bitsize extmask).1 = 0 →
      (boardobjgrpmask_import (some m) bitsize extmask).2.1 = some m' → Normalized m') ∧
    (∀ raw bitsize extmask m',
      ((bitsize = 32 ∨ bitsize = 255) → (bitsize + 31) / 32 ≤ raw.data.length) →
      (boardobjgrpmask_init (some raw) bitsize extmask).2.1 = some m' →
      ((boardobjgrpmask_init (some raw) bitsize extmask).1 = 0 → Normalized m') ∧
      (Normalized raw → Normalized m')) ∧
    (Normalized m →
      (∀ bitsize extmask m',
        (boardobjgrpmask_import (some m) bitsize extmask).2.1 = some m' → Normalized m') ∧
      (∀ src m', (∀ s, src = some s → WellFormed s ∧ Normalized s) →
        (boardobjgrpmask_copy (some m) src).2.1 = some m' → Normalized m') ∧
      (∀ op1 op2 m', (∀ a, op1 = some a → WellFormed a ∧ Normalized a) →
        (∀ b, op2 = some b → WellFormed b ∧ Normalized b) →
        ((boardobjgrpmask_and (some m) op1 op2).2.1 = some m' → Normalized m') ∧
        ((boardobjgrpmask_or (some m) op1 op2).2.1 = some m' → Normalized m') ∧
        ((boardobjgrpmask_xor (some m) op1 op2).2.1 = some m' → Normalized m')) ∧
      (∀ idx m', (boardobjgrpmask_bitset (some m) idx).2 = some m' → Normalized m') ∧
      (∀ idx m', (boardobjgrpmask_bitclr (some m) idx).2 = some m' → Normalized m')) := by
  have hne : NEG_EINVAL_U32 ≠ 0 := by decide
  refine ⟨fun m' h => clr_normalized m m' hm h, fun m' h => set_normalized m m' hm h,
    fun m' h => inv_normalized m m' hm h, ?_, ?_, ?_⟩
  · intro bitsize extmask m' hok h'
    rcases import_cases m bitsize extmask with hf | ⟨hb, e, he⟩
    · rw [hf] at hok
      exact absurd hok hne
    · subst hb he
      exact import_normalized m m' hm e h'
  · intro raw bitsize extmask m' hlen h'
    by_cases hb : bitsize = 32 ∨ bitsize = 255
    · have hn := init_normalized raw bitsize extmask hb (hlen hb) m' h'
      exact ⟨fun _ => hn, fun _ => hn⟩
    · rw [init_unsupported raw bitsize extmask hb] at h' ⊢
      have e := Option.some.inj h'
      refine ⟨fun hok => absurd hok hne, fun hr => e ▸ hr⟩
  · intro hn
    refine ⟨?_, ?_, ?_, ?_, ?_⟩
    · intro bitsize extmask m' h'
      rcases import_cases m bitsize extmask with hf | ⟨hb, e, he⟩
      · rw [hf] at h'
        exact Option.some.inj h' ▸ hn
      · subst hb he
        exact import_normalized m m' hm e h'
    · intro src m' hsrc h'
      rcases copy_cases m src with hf | ⟨s, hs, hbc⟩
      · rw [hf] at h'
        exact Option.some.inj h' ▸ hn
      · subst hs
        obtain ⟨hws, hns⟩ := hsrc s rfl
        exact copy_normalized m s m' hm hws hbc hns h'
    · intro op1 op2 m' h1 h2
      rcases binop_cases m op1 op2 with ⟨fa, fo, fx⟩ | ⟨a, b, ha, hb, hab, hdb⟩
      · rw [fa, fo, fx]
        exact ⟨fun h' => Option.some.inj h' ▸ hn, fun h' => Option.some.inj h' ▸ hn,
          fun h' => Option.some.inj h' ▸ hn⟩
      · subst ha hb
        obtain ⟨hwa, hna⟩ := h1 a rfl
        obtain ⟨hwb, hnb⟩ := h2 b rfl
        rw [and_some_eq m a b hab hdb, or_some_eq m a b hab hdb, xor_some_eq m a b hab hdb]
        refine ⟨?_, ?_, ?_⟩
        · intro h'
          exact (binop_loop_facts (fun x y => x &&& y) (fun p q => p && q)
            (fun x y o => Nat.testBit_and x y o) rfl m a b hm hwa hwb hab hdb m'
            (Option.some.inj h').symm).2.2.2.2.2 hna hnb
        · intro h'
          exact (binop_loop_facts (fun x y => x ||| y) (fun p q => p || q)
            (fun x y o => Nat.testBit_or x y o) rfl m a b hm hwa hwb hab hdb m'
            (Option.some.inj h').symm).2.2.2.2.2 hna hnb
        · intro h'
          exact (binop_loop_facts (fun x y => x ^^^ y) (fun p q => p ^^ q)
            (fun x y o => Nat.testBit_xor x y o) rfl m a b hm hwa hwb hab hdb m'
            (Option.some.inj h').symm).2.2.2.2.2 hna hnb
    · intro idx m' h'
      by_cases hidx : idx < m.bitcount
      · exact bitset_normalized m m' hm hn idx hidx h'
      · rw [bitset_out_of_range m idx (by omega)] at h'
        exact Option.some.inj h' ▸ hn
    · intro idx m' h'
      by_cases hidx : idx < m.bitcount
      · exact bitclr_normalized m m' hm hn idx hidx h'
      · rw [bitclr_out_of_range m idx (by omega)] at h'
        exact Option.some.inj h' ▸ hn

/-- Witness of C33: `set_all`, `invert` and `set_bit(100)` on the sample 255-bit
mask leave normalized masks. -/
theorem mutators_preserve_normalization_witness :
    (∀ m', (boardobjgrpmask_set (some sampleMask255)).2 = some m' → Normalized m') ∧
    (∀ m', (boardobjgrpmask_inv (some sampleMask255)).2 = some m' → Normalized m') ∧
    (∀ m', (boardobjgrpmask_bitset (some sampleMask255) 100).2 = some m' → Normalized m') :=
  ⟨(mutators_preserve_normalization sampleMask255 (by decide)).2.1,
   (mutators_preserve_normalization sampleMask255 (by decide)).2.2.1,
   fun m' h => ((mutators_preserve_normalization sampleMask255 (by decide)).2.2.2.2.2
     (by decide)).2.2.2.1 100 m' h⟩

/-- C34, exactly when invert_bit keeps a mask normalized: for a normalized
mask laid out for capacity 32 or 255 and `idx < capacity_bits`, the mask after
`boardobjgrpmask_bitinv` is normalized if and only if the capacity is 32 or
`idx < 224`; for capacity 255 and `224 <= idx` the padding bit at position 255
(bit 31 of word 7) is 1 afterwards. -/
theorem invert_bit_normalized_iff (m : boardobjgrpmask) (hm : WellFormed m)
    (hn : Normalized m) (idx : Nat) (hidx : idx < m.bitcount) :
    ∃ m', (boardobjgrpmask_bitinv (some m) idx).2 = some m' ∧
      (Normalized m' ↔ (m.bitcount = 32 ∨ idx < 224)) ∧
      (m.bitcount = 255 → 224 ≤ idx → (m'.data.getD 7 0).testBit 31 = true) := by
  rw [bitinv_some_eq m idx hidx]
  obtain ⟨hv, hother, _⟩ := word_update_facts m hm idx hidx
    (m.data.getD (idx / 32) 0 ^^^ not32 (2 ^ (idx % 32))) _ rfl
  have hoff : idx % 32 < 32 := Nat.mod_lt _ (by decide)
  obtain ⟨hcap, hcnt, htail, _⟩ := hm
  refine ⟨_, rfl, ?_, ?_⟩
  · rcases hcap with h | h
    · -- capacity 32: the tail mask is all-ones, nothing is padding
      have ht : m.lastmaskfilter = 0xFFFFFFFF := by rw [htail, h]; decide
      constructor
      · intro _; exact Or.inl h
      · intro _
        unfold Normalized
        show List.getD _ _ 0 &&& not32 m.lastmaskfilter = 0
        rw [ht, show not32 0xFFFFFFFF = 0 by decide, Nat.and_zero]
    · have hc8 : m.maskdatacount = 8 := by rw [hcnt, h]
      have ht8 : m.lastmaskfilter = 0x7FFFFFFF := by rw [htail, h]; decide
      have h31 := normalized_top_bit m hn hc8 ht8
      rw [h] at hidx
      constructor
      · intro hn'
        right
        by_contra hge
        have hw : idx / 32 = 7 := by omega
        have ho : idx % 32 ≠ 31 := by omega
        have hbit := normalized_top_bit _ hn' hc8 ht8
        rw [← hw, hv, testBit_xor_not32_two_pow _ _ _ hoff (by decide), if_neg (Ne.symm ho),
          hw, h31] at hbit
        exact Bool.noConfusion hbit
      · rintro (h32 | hlt)
        · rw [h] at h32; exact absurd h32 (by decide)
        · have hw : (7 : Nat) ≠ idx / 32 := by omega
          unfold Normalized at hn ⊢
          show List.getD _ (m.maskdatacount - 1) 0 &&& not32 m.lastmaskfilter = 0
          rw [hc8] at hn ⊢
          rw [hother _ hw]
          exact hn
  · intro h hge
    have hc8 : m.maskdatacount = 8 := by rw [hcnt, h]
    have ht8 : m.lastmaskfilter = 0x7FFFFFFF := by rw [htail, h]; decide
    have h31 := normalized_top_bit m hn hc8 ht8
    rw [h] at hidx
    have hw : idx / 32 = 7 := by omega
    have ho : idx % 32 ≠ 31 := by omega
    rw [← hw, hv, testBit_xor_not32_two_pow _ _ _ hoff (by decide), if_neg (Ne.symm ho),
      hw, h31]
    rfl

/-- Witness of C34: inverting at index 224 of the sample 255-bit mask sets the
padding bit. -/
theorem invert_bit_normalized_iff_witness :
    ∃ m', (boardobjgrpmask_bitinv (some sampleMask255) 224).2 = some m' ∧
      (Normalized m' ↔ (sampleMask255.bitcount = 32 ∨ 224 < 224)) ∧
      (sampleMask255.bitcount = 255 → 224 ≤ 224 → (m'.data.getD 7 0).testBit 31 = true) :=
  invert_bit_normalized_iff sampleMask255 (by decide) (by decide) 224 (by decide)

/-! ## What the highest-bit scan computes -/

theorem scanDown_spec (w : Nat) :
    ∀ (n : Nat), (∃ j, j < n ∧ w.testBit j = true) →
      scanDown w n < n ∧ w.testBit (scanDown w n) = true ∧
      ∀ j, scanDown w n < j → j < n → w.testBit j = false := by
  intro n
  induction n with
  | zero =>
    intro h
    obtain ⟨j, hj, _⟩ := h
    omega
  | succ k ih =>
    intro h
    by_cases hb : w.testBit k = true
    · have e1 : scanDown w (k + 1) = k := by simp [scanDown, hb]
      rw [e1]
      refine ⟨by omega, hb, ?_⟩
      intro j h1 h2
      omega
    · have e1 : scanDown w (k + 1) = scanDown w k := by simp [scanDown, hb]
      rw [e1]
      obtain ⟨j, hj, hbit⟩ := h
      have hjk : j ≠ k := by
        intro e
        rw [e] at hbit
        exact hb hbit
      obtain ⟨a, b, c⟩ := ih ⟨j, by omega, hbit⟩
      refine ⟨by omega, b, ?_⟩
      intro j2 h1 h2
      by_cases e : j2 = k
      · rw [e]; simpa using hb
      · exact c j2 h1 (by omega)

theorem highestbitidx_spec (w : Nat) (h0 : w ≠ 0) (hw : w < 2 ^ 32) :
    HIGHESTBITIDX_32 w < 32 ∧ w.testBit (HIGHESTBITIDX_32 w) = true ∧
      ∀ j, HIGHESTBITIDX_32 w < j → w.testBit j = false := by
  obtain ⟨j, hj, hb⟩ := exists_bit_of_ne_zero w h0 hw
  obtain ⟨a, b, c⟩ := scanDown_spec w 32 ⟨j, hj, hb⟩
  refine ⟨a, b, ?_⟩
  intro j2 h1
  by_cases h32 : j2 < 32
  · exact c j2 h1 h32
  · exact Nat.testBit_lt_two_pow
      (lt_of_lt_of_le hw (Nat.pow_le_pow_right (by decide) (by omega)))

/-- C35, what `boardobjgrpmask_bitidxhighest` computes: for a mask laid out
for capacity 32 or 255 with 32-bit words whose first non-zero word is word
`k`, it returns `32 * k` plus the index of the highest set bit of word `k`;
for capacity 32 that is the greatest set bit index of the mask; and the
result is at least `boardobjgrpmask_bitidxlowest`. -/
theorem bitidxhighest_scans_upward (m : boardobjgrpmask)
    (hm : WellFormed m) (hu : WordsU32 m.data)
    (k : Nat) (hk : k < m.maskdatacount)
    (hne : m.data.getD k 0 ≠ 0) (hz : ∀ j, j < k → m.data.getD j 0 = 0) :
    boardobjgrpmask_bitidxhighest (some m) =
      32 * k + HIGHESTBITIDX_32 (m.data.getD k 0) ∧
    (HIGHESTBITIDX_32 (m.data.getD k 0) < 32 ∧
      (m.data.getD k 0).testBit (HIGHESTBITIDX_32 (m.data.getD k 0)) = true ∧
      ∀ o, HIGHESTBITIDX_32 (m.data.getD k 0) < o → (m.data.getD k 0).testBit o = false) ∧
    (m.bitcount = 32 →
      boardobjgrpmask_bitget (some m) (boardobjgrpmask_bitidxhighest (some m)) = true ∧
      ∀ j, boardobjgrpmask_bitidxhighest (some m) < j →
        boardobjgrpmask_bitget (some m) j = false) ∧
    boardobjgrpmask_bitidxlowest (some m) ≤ boardobjgrpmask_bitidxhighest (some m) := by
  have hw32 := getD_lt_of_wordsU32 _ hu k
  obtain ⟨hh, hbit, hhigh⟩ := highestbitidx_spec (m.data.getD k 0) hne hw32
  obtain ⟨hl, hlbit, hlow⟩ := lowestbitidx_spec (m.data.getD k 0) hne hw32
  obtain ⟨hcap, hcnt, _, _⟩ := hm
  have hk8 : k < 8 := by
    rcases hcap with h | h <;> rw [hcnt, h] at hk <;> omega
  have hr : boardobjgrpmask_bitidxhighest (some m) =
      32 * k + HIGHESTBITIDX_32 (m.data.getD k 0) := by
    rw [bitidxhighest_first_word m k hk hne hz, CTRL_BOARDOBJGRP_MASK_MASK_ELEMENT_BIT_SIZE]
    omega
  have hrl : boardobjgrpmask_bitidxlowest (some m) =
      32 * k + LOWESTBITIDX_32 (m.data.getD k 0) := by
    rw [bitidxlowest_first_word m k hk hne hz, CTRL_BOARDOBJGRP_MASK_MASK_ELEMENT_BIT_SIZE]
    omega
  refine ⟨hr, ⟨hh, hbit, hhigh⟩, ?_, ?_⟩
  · intro h32
    have hk0 : k = 0 := by rw [hcnt, h32] at hk; omega
    subst hk0
    rw [hr]
    have hdiv : (32 * 0 + HIGHESTBITIDX_32 (m.data.getD 0 0)) / 32 = 0 := by omega
    have hmod : (32 * 0 + HIGHESTBITIDX_32 (m.data.getD 0 0)) % 32 =
        HIGHESTBITIDX_32 (m.data.getD 0 0) := by omega
    constructor
    · rw [bitget_some, h32, decide_eq_true (by omega), Bool.true_and, hdiv, hmod]
      exact hbit
    · intro j hj
      rw [bitget_some, h32]
      by_cases hj32 : j < 32
      · have hjd : j / 32 = 0 := by omega
        have hjm : j % 32 = j := by omega
        rw [hjd, hjm, hhigh j (by omega), Bool.and_false]
      · rw [decide_eq_false hj32, Bool.false_and]
  · rw [hr, hrl]
    have : ¬ HIGHESTBITIDX_32 (m.data.getD k 0) < LOWESTBITIDX_32 (m.data.getD k 0) := by
      intro hlt
      rw [hlow _ hlt] at hbit
      exact Bool.noConfusion hbit
    omega

/-- Witness of C35: on the sample 255-bit mask (bits 0, 32 and 254 set) the
scan answers from word 0. -/
theorem bitidxhighest_scans_upward_witness :
    boardobjgrpmask_bitidxhighest (some sampleMask255) =
      32 * 0 + HIGHESTBITIDX_32 (sampleMask255.data.getD 0 0) :=
  (bitidxhighest_scans_upward sampleMask255 (by decide) (by decide) 0 (by decide)
    (by decide) (by decide)).1

/-! ## Counting lemmas: complement and single-bit updates -/

/-- `boardobjgrpmask_inv` on a well-formed mask leaves a well-formed mask whose
logical bits are the negations of the previous ones. -/
theorem inv_bitget (m m' : boardobjgrpmask) (hm : WellFormed m)
    (h' : (boardobjgrpmask_inv (some m)).2 = some m') :
    WellFormed m' ∧ m'.bitcount = m.bitcount ∧
    ∀ idx, idx < m.bitcount →
      boardobjgrpmask_bitget (some m') idx = !boardobjgrpmask_bitget (some m) idx := by
  obtain ⟨hbc, hwc, htl, hln, hwords⟩ := inv_words m hm.2.2.2 m' h'
  have hwf : WellFormed m' :=
    ⟨by rw [hbc]; exact hm.1, by rw [hwc, hbc]; exact hm.2.1,
      by rw [htl, hbc]; exact hm.2.2.1, by rw [hwc, hln]; exact hm.2.2.2⟩
  refine ⟨hwf, hbc, ?_⟩
  intro idx hidx
  obtain ⟨hiw, _⟩ := word_index_lt m hm idx hidx
  have ho : idx % 32 < 32 := Nat.mod_lt _ (by decide)
  rw [bitget_some, bitget_some, hbc, decide_eq_true hidx, Bool.true_and, Bool.true_and,
    hwords _ hiw]
  by_cases hl : idx / 32 = m.maskdatacount - 1
  · rw [if_pos hl, Nat.testBit_and, testBit_not32 _ _ ho, hm.2.2.1,
      tail_bit_of_valid_index m hm idx hidx hl, Bool.and_true]
  · rw [if_neg hl, testBit_not32 _ _ ho]

theorem countP_add_countP_not (p : Nat → Bool) (n : Nat) :
    (List.range n).countP p + (List.range n).countP (fun i => !p i) = n := by
  have h := @List.length_eq_countP_add_countP _ p (List.range n)
  rw [List.length_range] at h
  have e : (List.range n).countP (fun a => decide ¬p a = true) =
      (List.range n).countP (fun i => !p i) := by
    apply List.countP_congr
    intro a _
    cases p a <;> simp
  rw [e] at h
  exact h.symm

/-- C37, the complement count: for a normalized mask laid out for capacity
32 or 255, `boardobjgrpmask_bitsetcount` after `boardobjgrpmask_inv` equals
`capacity_bits` minus the count before, the two counts adding up to
`capacity_bits` as natural numbers. -/
theorem complement_count (m : boardobjgrpmask) (hm : WellFormed m) (hn : Normalized m) :
    ∃ m', (boardobjgrpmask_inv (some m)).2 = some m' ∧
      boardobjgrpmask_bitsetcount (some m') =
        m.bitcount - boardobjgrpmask_bitsetcount (some m) ∧
      boardobjgrpmask_bitsetcount (some m') + boardobjgrpmask_bitsetcount (some m) =
        m.bitcount := by
  have hex : ∃ m', (boardobjgrpmask_inv (some m)).2 = some m' := by
    rw [inv_some_eq]; exact ⟨_, rfl⟩
  obtain ⟨m', h'⟩ := hex
  obtain ⟨hwf, hbc, hneg⟩ := inv_bitget m m' hm h'
  have hn' := inv_normalized m m' hm h'
  have hsum : boardobjgrpmask_bitsetcount (some m') + boardobjgrpmask_bitsetcount (some m) =
      m.bitcount := by
    rw [bitsetcount_eq_setBitCount m' hwf hn', bitsetcount_eq_setBitCount m hm hn]
    unfold setBitCount
    rw [hbc]
    have e : (List.range m.bitcount).countP (fun idx => boardobjgrpmask_bitget (some m') idx) =
        (List.range m.bitcount).countP (fun idx => !boardobjgrpmask_bitget (some m) idx) := by
      apply List.countP_congr
      intro a ha
      rw [hneg a (List.mem_range.mp ha)]
    rw [e, Nat.add_comm]
    exact countP_add_countP_not _ _
  exact ⟨m', h', by omega, hsum⟩

/-- Witness of C37: the counts of the sample 255-bit mask and of its inverse. -/
theorem complement_count_witness :
    ∃ m', (boardobjgrpmask_inv (some sampleMask255)).2 = some m' ∧
      boardobjgrpmask_bitsetcount (some m') =
        sampleMask255.bitcount - boardobjgrpmask_bitsetcount (some sampleMask255) ∧
      boardobjgrpmask_bitsetcount (some m') + boardobjgrpmask_bitsetcount (some sampleMask255) =
        sampleMask255.bitcount :=
  complement_count sampleMask255 (by decide) (by decide)

theorem bitset_bitget (m m' : boardobjgrpmask) (hm : WellFormed m) (idx : Nat)
    (hidx : idx < m.bitcount) (h' : (boardobjgrpmask_bitset (some m) idx).2 = some m') :
    WellFormed m' ∧ m'.bitcount = m.bitcount ∧
    boardobjgrpmask_bitget (some m') idx = true ∧
    ∀ j, j < m.bitcount → j ≠ idx →
      boardobjgrpmask_bitget (some m') j = boardobjgrpmask_bitget (some m) j := by
  rw [bitset_some_eq m idx hidx] at h'
  have e1 := (Option.some.inj h').symm
  obtain ⟨_, _, hget⟩ := word_update_facts m hm idx hidx _ m' e1
  have hwf : WellFormed m' := by
    rw [e1]
    exact ⟨hm.1, hm.2.1, hm.2.2.1, by show m.maskdatacount ≤ List.length _
                                      rw [List.length_set]; exact hm.2.2.2⟩
  refine ⟨hwf, by rw [e1], ?_, ?_⟩
  · rw [hget idx hidx, if_pos rfl, Nat.testBit_or, Nat.testBit_two_pow_self, Bool.or_true]
  · intro j hj hne
    rw [hget j hj]
    by_cases hw : j / 32 = idx / 32
    · have ho : idx % 32 ≠ j % 32 := fun e => hne (index_eq_of_word_offset j idx hw e.symm)
      rw [if_pos hw, Nat.testBit_or, Nat.testBit_two_pow, decide_eq_false ho, Bool.or_false,
        bitget_some, decide_eq_true hj, Bool.true_and, hw]
    · rw [if_neg hw]

theorem bitclr_bitget (m m' : boardobjgrpmask) (hm : WellFormed m) (idx : Nat)
    (hidx : idx < m.bitcount) (h' : (boardobjgrpmask_bitclr (some m) idx).2 = some m') :
    WellFormed m' ∧ m'.bitcount = m.bitcount ∧
    boardobjgrpmask_bitget (some m') idx = false ∧
    ∀ j, j < m.bitcount → j ≠ idx →
      boardobjgrpmask_bitget (some m') j = boardobjgrpmask_bitget (some m) j := by
  rw [bitclr_some_eq m idx hidx] at h'
  have e1 := (Option.some.inj h').symm
  obtain ⟨_, _, hget⟩ := word_update_facts m hm idx hidx _ m' e1
  have hoff : idx % 32 < 32 := Nat.mod_lt _ (by decide)
  have hwf : WellFormed m' := by
    rw [e1]
    exact ⟨hm.1, hm.2.1, hm.2.2.1, by show m.maskdatacount ≤ List.length _
                                      rw [List.length_set]; exact hm.2.2.2⟩
  refine ⟨hwf, by rw [e1], ?_, ?_⟩
  · rw [hget idx hidx, if_pos rfl, Nat.testBit_and, testBit_not32_two_pow _ _ hoff]
    simp
  · intro j hj hne
    rw [hget j hj]
    by_cases hw : j / 32 = idx / 32
    · have ho : j % 32 ≠ idx % 32 := fun e => hne (index_eq_of_word_offset j idx hw e)
      have hj32 : j % 32 < 32 := Nat.mod_lt _ (by decide)
      rw [if_pos hw, Nat.testBit_and, testBit_not32_two_pow _ _ hoff, decide_eq_true hj32,
        decide_eq_false ho, bitget_some, decide_eq_true hj, Bool.true_and, hw]
      simp
    · rw [if_neg hw]

/-- Two predicates that differ at exactly one index of a range, false in the
first and true in the second, have counts that differ by one. -/
theorem countP_flip_one (p q : Nat → Bool) :
    ∀ (n idx : Nat), idx < n → p idx = false → q idx = true →
      (∀ j, j < n → j ≠ idx → q j = p j) →
      (List.range n).countP q = (List.range n).countP p + 1 := by
  intro n
  induction n with
  | zero => intro idx h; omega
  | succ k ih =>
    intro idx hidx hp hq hsame
    rw [List.range_succ, List.countP_append, List.countP_append, List.countP_singleton,
      List.countP_singleton]
    by_cases he : idx = k
    · subst he
      have hc : (List.range idx).countP q = (List.range idx).countP p := by
        apply List.countP_congr
        intro a ha
        have ha' := List.mem_range.mp ha
        rw [hsame a (by omega) (by omega)]
      rw [hc, hp, hq]
      simp
    · have hk := ih idx (by omega) hp hq (fun j hj hne => hsame j (by omega) hne)
      rw [hk, hsame k (by omega) (fun e => he e.symm)]
      omega

theorem countP_same (p q : Nat → Bool) (n : Nat) (h : ∀ j, j < n → q j = p j) :
    (List.range n).countP q = (List.range n).countP p := by
  apply List.countP_congr
  intro a ha
  rw [h a (List.mem_range.mp ha)]

/-- C39, single-bit updates and the count: for a normalized mask laid out
for capacity 32 or 255 and `idx < capacity_bits`, the count after
`set_bit(idx)` is the previous count if the bit was set and the previous
count plus one otherwise; the count after `clear_bit(idx)` is the previous
count minus one if the bit was set and the previous count otherwise. -/
theorem single_bit_update_count (m : boardobjgrpmask) (hm : WellFormed m)
    (hn : Normalized m) (idx : Nat) (hidx : idx < m.bitcount) :
    (∃ m', (boardobjgrpmask_bitset (some m) idx).2 = some m' ∧
      boardobjgrpmask_bitsetcount (some m') =
        if boardobjgrpmask_bitget (some m) idx = true then boardobjgrpmask_bitsetcount (some m)
        else boardobjgrpmask_bitsetcount (some m) + 1) ∧
    (∃ m', (boardobjgrpmask_bitclr (some m) idx).2 = some m' ∧
      boardobjgrpmask_bitsetcount (some m') =
        if boardobjgrpmask_bitget (some m) idx = true then
          boardobjgrpmask_bitsetcount (some m) - 1
        else boardobjgrpmask_bitsetcount (some m)) := by
  constructor
  · have hex : ∃ m', (boardobjgrpmask_bitset (some m) idx).2 = some m' := by
      rw [bitset_some_eq m idx hidx]; exact ⟨_, rfl⟩
    obtain ⟨m', h'⟩ := hex
    obtain ⟨hwf, hbc, hset, hsame⟩ := bitset_bitget m m' hm idx hidx h'
    have hn' := bitset_normalized m m' hm hn idx hidx h'
    refine ⟨m', h', ?_⟩
    rw [bitsetcount_eq_setBitCount m' hwf hn', bitsetcount_eq_setBitCount m hm hn]
    unfold setBitCount
    rw [hbc]
    by_cases hb : boardobjgrpmask_bitget (some m) idx = true
    · rw [if_pos hb]
      apply countP_same
      intro j hj
      by_cases hji : j = idx
      · rw [hji, hset, hb]
      · exact hsame j hj hji
    · rw [if_neg hb]
      have hb' : boardobjgrpmask_bitget (some m) idx = false := by
        cases h : boardobjgrpmask_bitget (some m) idx
        · rfl
        · exact absurd h hb
      exact countP_flip_one _ _ m.bitcount idx hidx hb' hset hsame
  · have hex : ∃ m', (boardobjgrpmask_bitclr (some m) idx).2 = some m' := by
      rw [bitclr_some_eq m idx hidx]; exact ⟨_, rfl⟩
    obtain ⟨m', h'⟩ := hex
    obtain ⟨hwf, hbc, hclr, hsame⟩ := bitclr_bitget m m' hm idx hidx h'
    have hn' := bitclr_normalized m m' hm hn idx hidx h'
    refine ⟨m', h', ?_⟩
    rw [bitsetcount_eq_setBitCount m' hwf hn', bitsetcount_eq_setBitCount m hm hn]
    unfold setBitCount
    rw [hbc]
    by_cases hb : boardobjgrpmask_bitget (some m) idx = true
    · rw [if_pos hb]
      have h1 := countP_flip_one (fun j => boardobjgrpmask_bitget (some m') j)
        (fun j => boardobjgrpmask_bitget (some m) j) m.bitcount idx hidx hclr hb
        (fun j hj hne => (hsame j hj hne).symm)
      rw [h1]
      omega
    · rw [if_neg hb]
      have hb' : boardobjgrpmask_bitget (some m) idx = false := by
        cases h : boardobjgrpmask_bitget (some m) idx
        · rfl
        · exact absurd h hb
      apply countP_same
      intro j hj
      by_cases hji : j = idx
      · rw [hji, hclr, hb']
      · exact hsame j hj hji

/-- Witness of C39: setting and clearing bit 100 of the sample 255-bit mask. -/
theorem single_bit_update_count_witness :
    (∃ m', (boardobjgrpmask_bitset (some sampleMask255) 100).2 = some m' ∧
      boardobjgrpmask_bitsetcount (some m') =
        if boardobjgrpmask_bitget (some sampleMask255) 100 = true then
          boardobjgrpmask_bitsetcount (some sampleMask255)
        else boardobjgrpmask_bitsetcount (some sampleMask255) + 1) ∧
    (∃ m', (boardobjgrpmask_bitclr (some sampleMask255) 100).2 = some m' ∧
      boardobjgrpmask_bitsetcount (some m') =
        if boardobjgrpmask_bitget (some sampleMask255) 100 = true then
          boardobjgrpmask_bitsetcount (some sampleMask255) - 1
        else boardobjgrpmask_bitsetcount (some sampleMask255)) :=
  single_bit_update_count sampleMask255 (by decide) (by decide) 100 (by decide)

/-! ## De Morgan under normalization -/

theorem not32_and (x y : Nat) (hx : x < 2 ^ 32) (hy : y < 2 ^ 32) :
    not32 (x &&& y) = not32 x ||| not32 y := by
  apply Nat.eq_of_testBit_eq
  intro o
  by_cases ho : o < 32
  · rw [Nat.testBit_or, testBit_not32 _ _ ho, testBit_not32 _ _ ho, testBit_not32 _ _ ho,
      Nat.testBit_and]
    cases x.testBit o <;> cases y.testBit o <;> rfl
  · have hpow : 2 ^ 32 ≤ 2 ^ o := Nat.pow_le_pow_right (by decide) (by omega)
    have hxo : x.testBit o = false := Nat.testBit_lt_two_pow (lt_of_lt_of_le hx hpow)
    have hyo : y.testBit o = false := Nat.testBit_lt_two_pow (lt_of_lt_of_le hy hpow)
    have hF : (0xFFFFFFFF : Nat).testBit o = false := by
      have := Nat.testBit_two_pow_sub_one 32 o
      rw [this]
      exact decide_eq_false ho
    unfold not32
    rw [Nat.testBit_or, Nat.testBit_xor, Nat.testBit_xor, Nat.testBit_xor, Nat.testBit_and,
      hxo, hyo, hF]
    rfl

theorem not32_and_tail (x y bits : Nat) :
    not32 (x &&& y) &&& tailMaskOf bits =
      (not32 x &&& tailMaskOf bits) ||| (not32 y &&& tailMaskOf bits) := by
  apply Nat.eq_of_testBit_eq
  intro o
  rw [Nat.testBit_and, Nat.testBit_or, Nat.testBit_and, Nat.testBit_and]
  cases ht : (tailMaskOf bits).testBit o
  · simp
  · have ho := testBit_tailMaskOf_lt bits o ht
    rw [testBit_not32 _ _ ho, testBit_not32 _ _ ho, testBit_not32 _ _ ho, Nat.testBit_and]
    cases x.testBit o <;> cases y.testBit o <;> rfl

/-- C38, De Morgan under normalization: for masks `a`, `b` with 32-bit words
and destinations `t`, `d`, all laid out for the same capacity, `and(t, a, b)`
followed by `invert(t)` leaves in `t` the same capacity fields and the same
`word_count` words as `invert(a)`, `invert(b)` followed by `or(d, a, b)`
leaves in `d`; every call returns 0. -/
theorem de_morgan_law (t d a b : boardobjgrpmask)
    (ht : WellFormed t) (hd : WellFormed d) (ha : WellFormed a) (hb : WellFormed b)
    (hua : WordsU32 a.data) (hub : WordsU32 b.data)
    (hta : t.bitcount = a.bitcount) (htb : t.bitcount = b.bitcount)
    (hdt : d.bitcount = t.bitcount) :
    (boardobjgrpmask_and (some t) (some a) (some b)).1 = 0 ∧
    (boardobjgrpmask_inv (boardobjgrpmask_and (some t) (some a) (some b)).2.1).1 = 0 ∧
    (boardobjgrpmask_inv (some a)).1 = 0 ∧ (boardobjgrpmask_inv (some b)).1 = 0 ∧
    (boardobjgrpmask_or (some d) (boardobjgrpmask_inv (some a)).2
      (boardobjgrpmask_inv (some b)).2).1 = 0 ∧
    ∃ l r,
      (boardobjgrpmask_inv (boardobjgrpmask_and (some t) (some a) (some b)).2.1).2 = some l ∧
      (boardobjgrpmask_or (some d) (boardobjgrpmask_inv (some a)).2
        (boardobjgrpmask_inv (some b)).2).2.1 = some r ∧
      l.bitcount = r.bitcount ∧ l.maskdatacount = r.maskdatacount ∧
      l.lastmaskfilter = r.lastmaskfilter ∧
      ∀ i, i < l.maskdatacount → l.data.getD i 0 = r.data.getD i 0 := by
  -- the two inverted operands
  have hexa : ∃ a', (boardobjgrpmask_inv (some a)).2 = some a' := by
    rw [inv_some_eq]; exact ⟨_, rfl⟩
  have hexb : ∃ b', (boardobjgrpmask_inv (some b)).2 = some b' := by
    rw [inv_some_eq]; exact ⟨_, rfl⟩
  obtain ⟨a', ha'⟩ := hexa
  obtain ⟨b', hb'⟩ := hexb
  obtain ⟨habc, hawc, _, _, hawords⟩ := inv_words a ha.2.2.2 a' ha'
  obtain ⟨hbbc, hbwc, _, _, hbwords⟩ := inv_words b hb.2.2.2 b' hb'
  -- the conjunction and its inverse
  have hand := and_some_eq t a b hta htb
  have hext : ∃ t', (boardobjgrpmask_and (some t) (some a) (some b)).2.1 = some t' ∧
      t'.bitcount = t.bitcount ∧ t'.maskdatacount = t.maskdatacount ∧
      t'.lastmaskfilter = t.lastmaskfilter ∧ t'.maskdatacount ≤ t'.data.length ∧
      ∀ i, i < t.maskdatacount → t'.data.getD i 0 = a.data.getD i 0 &&& b.data.getD i 0 := by
    rw [hand]
    refine ⟨_, rfl, rfl, rfl, rfl, ?_, ?_⟩
    · show t.maskdatacount ≤ List.length _
      rw [forIndex_set_length (fun index _ => a.data.getD index 0 &&& b.data.getD index 0)]
      exact ht.2.2.2
    · intro i hi
      show List.getD _ i 0 = _
      rw [store_loop_getD (fun index => a.data.getD index 0 &&& b.data.getD index 0),
        if_pos ⟨hi, by have := ht.2.2.2; omega⟩]
  obtain ⟨t', ht', htbc, htwc, httl, htlen, htwords⟩ := hext
  have hexl : ∃ l, (boardobjgrpmask_inv (some t')).2 = some l := by
    rw [inv_some_eq]; exact ⟨_, rfl⟩
  obtain ⟨l, hl⟩ := hexl
  obtain ⟨hlbc, hlwc, hltl, _, hlwords⟩ := inv_words t' htlen l hl
  -- the disjunction of the inverted operands
  have hda' : d.bitcount = a'.bitcount := by rw [habc, hdt, hta]
  have hdb' : d.bitcount = b'.bitcount := by rw [hbbc, hdt, htb]
  have hor := or_some_eq d a' b' hda' hdb'
  -- layouts
  obtain ⟨_, hcntt, htailt, _⟩ := ht
  obtain ⟨_, hcntd, htaild, hlend⟩ := hd
  obtain ⟨_, hcnta, htaila, _⟩ := ha
  obtain ⟨_, hcntb, htailb, _⟩ := hb
  have hwc_dt : d.maskdatacount = t.maskdatacount := by rw [hcntd, hcntt, hdt]
  have hwc_at : a.maskdatacount = t.maskdatacount := by rw [hcnta, hcntt, hta]
  have hwc_bt : b.maskdatacount = t.maskdatacount := by rw [hcntb, hcntt, htb]
  refine ⟨by rw [hand], by rw [ht', inv_some_eq], by rw [inv_some_eq], by rw [inv_some_eq],
    by rw [ha', hb', hor], l, _, by rw [ht']; exact hl, by rw [ha', hb', hor], ?_, ?_, ?_, ?_⟩
  · show l.bitcount = d.bitcount
    rw [hlbc, htbc, hdt]
  · show l.maskdatacount = d.maskdatacount
    rw [hlwc, htwc, hwc_dt]
  · show l.lastmaskfilter = d.lastmaskfilter
    rw [hltl, httl, htailt, htaild, hdt]
  · intro i hi
    rw [hlwc, htwc] at hi
    show l.data.getD i 0 = List.getD _ i 0
    rw [store_loop_getD (fun index => a'.data.getD index 0 ||| b'.data.getD index 0),
      if_pos ⟨by omega, by omega⟩, hlwords i (by omega), htwords i hi,
      hawords i (by omega), hbwords i (by omega), htwc, httl, hwc_at, hwc_bt,
      htailt, htaila, htailb, ← hta, ← htb]
    by_cases hlast : i = t.maskdatacount - 1
    · rw [if_pos hlast, if_pos hlast, if_pos hlast]
      exact not32_and_tail _ _ _
    · rw [if_neg hlast, if_neg hlast, if_neg hlast]
      exact not32_and _ _ (getD_lt_of_wordsU32 _ hua i) (getD_lt_of_wordsU32 _ hub i)

/-- Witness of C38: De Morgan on the two 255-bit samples. -/
theorem de_morgan_law_witness :
    ∃ l r,
      (boardobjgrpmask_inv (boardobjgrpmask_and (some sampleMaskBit70) (some sampleMask255)
        (some sampleMaskBit70)).2.1).2 = some l ∧
      (boardobjgrpmask_or (some sampleMask255) (boardobjgrpmask_inv (some sampleMask255)).2
        (boardobjgrpmask_inv (some sampleMaskBit70)).2).2.1 = some r ∧
      ∀ i, i < l.maskdatacount → l.data.getD i 0 = r.data.getD i 0 :=
  match de_morgan_law sampleMaskBit70 sampleMask255 sampleMask255 sampleMaskBit70
      (by decide) (by decide) (by decide) (by decide) (by decide) (by decide)
      (by decide) (by decide) (by decide) with
  | ⟨_, _, _, _, _, l, r, h1, h2, _, _, _, h3⟩ => ⟨l, r, h1, h2, h3⟩

/-! ## The reverse round trip -/

/-- C40, the reverse round trip: for masks `m` and `m2` laid out for the same
capacity and a buffer of at least `word_count` words, `export` of `m` followed
by `import` into `m2` both return 0 and leave in `m2` the capacity fields of
`m`, the words of `m` below the last, and the last word of `m` ANDed with
`tail_mask`; when `m` is normalized with 32-bit words, every word of `m2`
equals the word of `m`. -/
theorem export_import_round_trip (m m2 : boardobjgrpmask) (buf : ctrl_boardobjgrp_mask)
    (hm : WellFormed m) (hm2 : WellFormed m2) (hbc : m2.bitcount = m.bitcount)
    (hbuf : m.maskdatacount ≤ buf.data.length) :
    (boardobjgrpmask_export (some m) m.bitcount (some buf)).1 = 0 ∧
    (boardobjgrpmask_import (some m2) m.bitcount
      (boardobjgrpmask_export (some m) m.bitcount (some buf)).2.2).1 = 0 ∧
    ∃ r, (boardobjgrpmask_import (some m2) m.bitcount
        (boardobjgrpmask_export (some m) m.bitcount (some buf)).2.2).2.1 = some r ∧
      r.bitcount = m.bitcount ∧ r.maskdatacount = m.maskdatacount ∧
      r.lastmaskfilter = m.lastmaskfilter ∧
      (∀ i, i < m.maskdatacount - 1 → r.data.getD i 0 = m.data.getD i 0) ∧
      r.data.getD (m.maskdatacount - 1) 0 =
        m.data.getD (m.maskdatacount - 1) 0 &&& m.lastmaskfilter ∧
      (WordsU32 m.data → Normalized m →
        ∀ i, i < m.maskdatacount → r.data.getD i 0 = m.data.getD i 0) := by
  have hpos := wellFormed_pos m hm
  obtain ⟨_, hcnt, htail, _⟩ := hm
  obtain ⟨_, hcnt2, htail2, hlen2⟩ := hm2
  have hwc : m2.maskdatacount = m.maskdatacount := by rw [hcnt2, hcnt, hbc]
  have htl : m2.lastmaskfilter = m.lastmaskfilter := by rw [htail2, htail, hbc]
  rw [export_some_eq m buf]
  dsimp only
  have himp := import_some_eq m2
    ⟨forIndex (fun index d => d.set index (m.data.getD index 0)) m.maskdatacount 0 buf.data⟩
  rw [hbc] at himp
  rw [himp]
  have hwords : ∀ i, i < m.maskdatacount →
      ((forIndex (fun index d => d.set index
            ((forIndex (fun index d => d.set index (m.data.getD index 0))
              m.maskdatacount 0 buf.data).getD index 0)) m2.maskdatacount 0 m2.data).set
          (m2.maskdatacount - 1)
          ((forIndex (fun index d => d.set index
            ((forIndex (fun index d => d.set index (m.data.getD index 0))
              m.maskdatacount 0 buf.data).getD index 0)) m2.maskdatacount 0 m2.data).getD
            (m2.maskdatacount - 1) 0 &&& m2.lastmaskfilter)).getD i 0 =
        if i = m.maskdatacount - 1 then m.data.getD i 0 &&& m.lastmaskfilter
        else m.data.getD i 0 := by
    intro i hi
    have h1 := import_words m2
      ⟨forIndex (fun index d => d.set index (m.data.getD index 0)) m.maskdatacount 0 buf.data⟩
      hlen2 i (by omega)
    dsimp only at h1
    rw [h1, export_data_getD,
      if_pos (show i < m.maskdatacount ∧ i < buf.data.length from ⟨hi, by omega⟩), hwc, htl]
  refine ⟨rfl, rfl, _, rfl, rfl, hwc, htl, ?_, ?_, ?_⟩
  · intro i hi
    show List.getD _ i 0 = _
    rw [hwords i (by omega), if_neg (by omega)]
  · show List.getD _ (m.maskdatacount - 1) 0 = _
    rw [hwords _ (by omega), if_pos rfl]
  · intro hu hn i hi
    show List.getD _ i 0 = _
    rw [hwords i hi]
    by_cases hl : i = m.maskdatacount - 1
    · rw [if_pos hl, hl]
      exact and_eq_self_of_and_not32 _ _ (getD_lt_of_wordsU32 _ hu _) hn
    · rw [if_neg hl]

/-- Witness of C40: the sample 255-bit mask exported into a stale buffer,
then imported into the mask whose only set bit is bit 70. -/
theorem export_import_round_trip_witness :
    ∃ r, (boardobjgrpmask_import (some sampleMaskBit70) sampleMask255.bitcount
        (boardobjgrpmask_export (some sampleMask255) sampleMask255.bitcount
          (some staleBuffer255)).2.2).2.1 = some r ∧
      ∀ i, i < sampleMask255.maskdatacount → r.data.getD i 0 = sampleMask255.data.getD i 0 :=
  match export_import_round_trip sampleMask255 sampleMaskBit70 staleBuffer255
      (by decide) (by decide) (by decide) (by decide) with
  | ⟨_, _, r, h1, _, _, _, _, _, h2⟩ => ⟨r, h1, h2 (by decide) (by decide)⟩

/-! ## The bit-to-storage mapping stays inside the mask's words -/

/-- The loop visits the indices `start, start + 1, ..., start + count - 1`, in
that order, and no other. -/
theorem forIndex_eq_foldl {σ : Type} (body : Nat → σ → σ) :
    ∀ (count start : Nat) (s : σ),
      forIndex body count start s =
        (List.range' start count).foldl (fun acc i => body i acc) s := by
  intro count
  induction count with
  | zero => intro start s; rfl
  | succ k ih =>
    intro start s
    rw [List.range'_succ, List.foldl_cons]
    exact ih (start + 1) (body start s)

/-- Two loop bodies that agree at every index the loop visits give the same
result: the loop consults its body at no index outside
`start .. start + count - 1`. -/
theorem forIndex_congr {σ : Type} (b1 b2 : Nat → σ → σ) :
    ∀ (count start : Nat) (s : σ),
      (∀ i, start ≤ i → i < start + count → ∀ t, b1 i t = b2 i t) →
      forIndex b1 count start s = forIndex b2 count start s := by
  intro count
  induction count with
  | zero => intro start s _; rfl
  | succ k ih =>
    intro start s h
    show forIndex b1 k (start + 1) (b1 start s) = forIndex b2 k (start + 1) (b2 start s)
    rw [h start (Nat.le_refl _) (by omega)]
    exact ih (start + 1) _ (fun i h1 h2 t => h i (by omega) (by omega) t)

/-- The same for a loop that can leave early. -/
theorem forIndexBreak_congr {σ : Type} (b1 b2 : Nat → σ → σ × Bool) :
    ∀ (count start : Nat) (s : σ),
      (∀ i, start ≤ i → i < start + count → ∀ t, b1 i t = b2 i t) →
      forIndexBreak b1 count start s = forIndexBreak b2 count start s := by
  intro count
  induction count with
  | zero => intro start s _; rfl
  | succ k ih =>
    intro start s h
    show (if (b1 start s).2 then (b1 start s).1
        else forIndexBreak b1 k (start + 1) (b1 start s).1) =
      (if (b2 start s).2 then (b2 start s).1
        else forIndexBreak b2 k (start + 1) (b2 start s).1)
    rw [h start (Nat.le_refl _) (by omega)]
    rw [ih (start + 1) _ (fun i h1 h2 t => h i (by omega) (by omega) t)]

/-- A word inside the storage is a real element of it, and a store at its
index lands there, changes no other element and keeps the length. -/
theorem word_in_storage (d : List Nat) (i : Nat) (hi : i < d.length) :
    d[i]? = some (d.getD i 0) ∧
    ∀ v, (d.set i v)[i]? = some v ∧ (d.set i v).length = d.length ∧
      ∀ j, j ≠ i → (d.set i v)[j]? = d[j]? := by
  refine ⟨?_, ?_⟩
  · rw [List.getD_eq_getElem?_getD, List.getElem?_eq_getElem hi]
    rfl
  · intro v
    refine ⟨?_, List.length_set _ _ _, ?_⟩
    · exact List.getElem?_set_self hi
    · intro j hj
      exact List.getElem?_set_ne (Ne.symm hj)

/-- The four single-bit operations address word `idx / 32` at offset
`idx mod 32`, a word that lies inside the mask's `word_count` words. -/
theorem single_bit_word_access (m : boardobjgrpmask) (hm : WellFormed m) (idx : Nat)
    (hidx : idx < m.bitcount) :
    CTRL_BOARDOBJGRP_MASK_MASK_ELEMENT_INDEX idx = idx / 32 ∧
    CTRL_BOARDOBJGRP_MASK_MASK_ELEMENT_OFFSET idx = idx % 32 ∧
    idx / 32 < m.maskdatacount ∧ idx / 32 < m.data.length ∧ idx % 32 < 32 ∧
    ∃ w, m.data[idx / 32]? = some w ∧
      boardobjgrpmask_bitget (some m) idx = w.testBit (idx % 32) ∧
      boardobjgrpmask_bitset (some m) idx =
        (0, some { m with data := m.data.set (idx / 32) (w ||| 2 ^ (idx % 32)) }) ∧
      boardobjgrpmask_bitclr (some m) idx =
        (0, some { m with data := m.data.set (idx / 32) (w &&& not32 (2 ^ (idx % 32))) }) ∧
      boardobjgrpmask_bitinv (some m) idx =
        (0, some { m with data := m.data.set (idx / 32) (w ^^^ not32 (2 ^ (idx % 32))) }) ∧
      ∀ v, (m.data.set (idx / 32) v)[idx / 32]? = some v ∧
        (m.data.set (idx / 32) v).length = m.data.length ∧
        ∀ j, j ≠ idx / 32 → (m.data.set (idx / 32) v)[j]? = m.data[j]? := by
  obtain ⟨h1, h2⟩ := word_index_lt m hm idx hidx
  obtain ⟨hw, hset⟩ := word_in_storage m.data (idx / 32) h2
  refine ⟨rfl, rfl, h1, h2, Nat.mod_lt _ (by decide), m.data.getD (idx / 32) 0, hw, ?_, ?_, ?_,
    ?_, hset⟩
  · rw [bitget_some, decide_eq_true hidx, Bool.true_and]
  · exact bitset_some_eq m idx hidx
  · exact bitclr_some_eq m idx hidx
  · exact bitinv_some_eq m idx hidx

/-- The loop of each of the nine storing operations, written as the list of
the indices it visits: `0, 1, ..., maskdatacount - 1`, each once and in that
order. -/
theorem bulk_loops_visit_range (m : boardobjgrpmask) :
    boardobjgrpmask_clr (some m) =
      (0, some { m with
        data := (List.range m.maskdatacount).foldl (fun d index => d.set index 0) m.data }) ∧
    boardobjgrpmask_set (some m) =
      (0, some (BOARDOBJGRPMASK_NORMALIZE { m with
        data := (List.range m.maskdatacount).foldl
          (fun d index => d.set index 0xFFFFFFFF) m.data })) ∧
    boardobjgrpmask_inv (some m) =
      (0, some (BOARDOBJGRPMASK_NORMALIZE { m with
        data := (List.range m.maskdatacount).foldl
          (fun d index => d.set index (not32 (d.getD index 0))) m.data })) ∧
    (∀ e : ctrl_boardobjgrp_mask,
      boardobjgrpmask_import (some m) m.bitcount (some e) =
        (0, some (BOARDOBJGRPMASK_NORMALIZE { m with
          data := (List.range m.maskdatacount).foldl
            (fun d index => d.set index (e.data.getD index 0)) m.data }), some e)) ∧
    (∀ e : ctrl_boardobjgrp_mask,
      boardobjgrpmask_export (some m) m.bitcount (some e) =
        (0, some m, some { e with
          data := (List.range m.maskdatacount).foldl
            (fun d index => d.set index (m.data.getD index 0)) e.data })) ∧
    (∀ s : boardobjgrpmask, m.bitcount = s.bitcount →
      boardobjgrpmask_copy (some m) (some s) =
        (0, some { m with
          data := (List.range m.maskdatacount).foldl
            (fun d index => d.set index (s.data.getD index 0)) m.data }, some s)) ∧
    (∀ a b : boardobjgrpmask, m.bitcount = a.bitcount → m.bitcount = b.bitcount →
      boardobjgrpmask_and (some m) (some a) (some b) =
        (0, some { m with
          data := (List.range m.maskdatacount).foldl
            (fun d index => d.set index (a.data.getD index 0 &&& b.data.getD index 0))
            m.data }, some a, some b) ∧
      boardobjgrpmask_or (some m) (some a) (some b) =
        (0, some { m with
          data := (List.range m.maskdatacount).foldl
            (fun d index => d.set index (a.data.getD index 0 ||| b.data.getD index 0))
            m.data }, some a, some b) ∧
      boardobjgrpmask_xor (some m) (some a) (some b) =
        (0, some { m with
          data := (List.range m.maskdatacount).foldl
            (fun d index => d.set index (a.data.getD index 0 ^^^ b.data.getD index 0))
            m.data }, some a, some b)) := by
  refine ⟨?_, ?_, ?_, ?_, ?_, ?_, ?_⟩
  · rw [clr_some_eq, forIndex_eq_foldl, List.range_eq_range']
  · rw [List.range_eq_range', ← forIndex_eq_foldl]
    rfl
  · rw [List.range_eq_range', ← forIndex_eq_foldl]
    rfl
  · intro e
    rw [List.range_eq_range', ← forIndex_eq_foldl, import_some_eq]
    rfl
  · intro e
    rw [export_some_eq, forIndex_eq_foldl, List.range_eq_range']
  · intro s hs
    rw [copy_some_eq m s hs, forIndex_eq_foldl, List.range_eq_range']
  · intro a b ha hb
    rw [and_some_eq m a b ha hb, or_some_eq m a b ha hb, xor_some_eq m a b ha hb,
      forIndex_eq_foldl, forIndex_eq_foldl, forIndex_eq_foldl, List.range_eq_range']
    exact ⟨rfl, rfl, rfl⟩

/-- What the loops store, word by word: each of the nine storing operations
succeeds, keeps the length of the storage it writes, stores the value that
belongs to index `j` at every `j < maskdatacount` (the last word masked where
the operation normalizes) and leaves every word at `j ≥ maskdatacount` as it
was. -/
theorem bulk_loops_write_words (m : boardobjgrpmask) (hm : WellFormed m) :
    (∃ r, boardobjgrpmask_clr (some m) = (0, some r) ∧
      r.data.length = m.data.length ∧
      ∀ j, r.data.getD j 0 = if j < m.maskdatacount then 0 else m.data.getD j 0) ∧
    (∃ r, boardobjgrpmask_set (some m) = (0, some r) ∧
      r.data.length = m.data.length ∧
      ∀ j, r.data.getD j 0 =
        if j < m.maskdatacount then
          (if j = m.maskdatacount - 1 then 0xFFFFFFFF &&& m.lastmaskfilter else 0xFFFFFFFF)
        else m.data.getD j 0) ∧
    (∃ r, boardobjgrpmask_inv (some m) = (0, some r) ∧
      r.data.length = m.data.length ∧
      ∀ j, r.data.getD j 0 =
        if j < m.maskdatacount then
          (if j = m.maskdatacount - 1 then not32 (m.data.getD j 0) &&& m.lastmaskfilter
            else not32 (m.data.getD j 0))
        else m.data.getD j 0) ∧
    (∀ e : ctrl_boardobjgrp_mask,
      ∃ r, boardobjgrpmask_import (some m) m.bitcount (some e) = (0, some r, some e) ∧
        r.data.length = m.data.length ∧
        ∀ j, r.data.getD j 0 =
          if j < m.maskdatacount then
            (if j = m.maskdatacount - 1 then e.data.getD j 0 &&& m.lastmaskfilter
              else e.data.getD j 0)
          else m.data.getD j 0) ∧
    (∀ e : ctrl_boardobjgrp_mask,
      ∃ r, boardobjgrpmask_export (some m) m.bitcount (some e) = (0, some m, some r) ∧
        r.data.length = e.data.length ∧
        ∀ j, r.data.getD j 0 =
          if j < m.maskdatacount ∧ j < e.data.length then m.data.getD j 0
          else e.data.getD j 0) ∧
    (∀ s : boardobjgrpmask, m.bitcount = s.bitcount →
      ∃ r, boardobjgrpmask_copy (some m) (some s) = (0, some r, some s) ∧
        r.data.length = m.data.length ∧
        ∀ j, r.data.getD j 0 =
          if j < m.maskdatacount then s.data.getD j 0 else m.data.getD j 0) ∧
    (∀ a b : boardobjgrpmask, m.bitcount = a.bitcount → m.bitcount = b.bitcount →
      (∃ r, boardobjgrpmask_and (some m) (some a) (some b) = (0, some r, some a, some b) ∧
        r.data.length = m.data.length ∧
        ∀ j, r.data.getD j 0 =
          if j < m.maskdatacount then a.data.getD j 0 &&& b.data.getD j 0
          else m.data.getD j 0) ∧
      (∃ r, boardobjgrpmask_or (some m) (some a) (some b) = (0, some r, some a, some b) ∧
        r.data.length = m.data.length ∧
        ∀ j, r.data.getD j 0 =
          if j < m.maskdatacount then a.data.getD j 0 ||| b.data.getD j 0
          else m.data.getD j 0) ∧
      (∃ r, boardobjgrpmask_xor (some m) (some a) (some b) = (0, some r, some a, some b) ∧
        r.data.length = m.data.length ∧
        ∀ j, r.data.getD j 0 =
          if j < m.maskdatacount then a.data.getD j 0 ^^^ b.data.getD j 0
          else m.data.getD j 0)) := by
  have hpos := wellFormed_pos m hm
  have hlen := hm.2.2.2
  have hstore : ∀ (g : Nat → Nat) (j : Nat),
      (forIndex (fun index dd => dd.set index (g index)) m.maskdatacount 0 m.data).getD j 0 =
        if j < m.maskdatacount then g j else m.data.getD j 0 := by
    intro g j
    rw [store_loop_getD]
    by_cases hj : j < m.maskdatacount
    · rw [if_pos ⟨hj, by omega⟩, if_pos hj]
    · rw [if_neg (fun h => hj h.1), if_neg hj]
  refine ⟨?_, ?_, ?_, ?_, ?_, ?_, ?_⟩
  · exact ⟨_, clr_some_eq m, forIndex_set_length (fun _ _ => 0) _ _ _,
      fun j => clr_words _ _ j⟩
  · exact ⟨_, set_some_eq m, loop_normalize_length (fun _ _ => 0xFFFFFFFF) _ _ _,
      fun j => loop_normalize_getD (fun _ _ => 0xFFFFFFFF) _ _ _ hpos hlen j⟩
  · exact ⟨_, inv_some_eq m, loop_normalize_length (fun _ x => not32 x) _ _ _,
      fun j => loop_normalize_getD (fun _ x => not32 x) _ _ _ hpos hlen j⟩
  · intro e
    exact ⟨_, import_some_eq m e,
      loop_normalize_length (fun i _ => e.data.getD i 0) _ _ _,
      fun j => loop_normalize_getD (fun i _ => e.data.getD i 0) _ _ _ hpos hlen j⟩
  · intro e
    exact ⟨_, export_some_eq m e,
      forIndex_set_length (fun index _ => m.data.getD index 0) _ _ _,
      fun j => export_data_getD m e j⟩
  · intro s hs
    exact ⟨_, copy_some_eq m s hs,
      forIndex_set_length (fun index _ => s.data.getD index 0) _ _ _,
      fun j => hstore (fun index => s.data.getD index 0) j⟩
  · intro a b ha hb
    exact ⟨⟨_, and_some_eq m a b ha hb,
        forIndex_set_length (fun index _ => a.data.getD index 0 &&& b.data.getD index 0) _ _ _,
        fun j => hstore (fun index => a.data.getD index 0 &&& b.data.getD index 0) j⟩,
      ⟨_, or_some_eq m a b ha hb,
        forIndex_set_length (fun index _ => a.data.getD index 0 ||| b.data.getD index 0) _ _ _,
        fun j => hstore (fun index => a.data.getD index 0 ||| b.data.getD index 0) j⟩,
      ⟨_, xor_some_eq m a b ha hb,
        forIndex_set_length (fun index _ => a.data.getD index 0 ^^^ b.data.getD index 0) _ _ _,
        fun j => hstore (fun index => a.data.getD index 0 ^^^ b.data.getD index 0) j⟩⟩

/-- No storing operation changes a word at an index at or beyond
`maskdatacount`, whatever its other arguments are and whether it succeeds or
fails. -/
theorem bulk_loops_frame (m : boardobjgrpmask) (hm : WellFormed m) (j : Nat)
    (hj : m.maskdatacount ≤ j) :
    (∀ m', (boardobjgrpmask_clr (some m)).2 = some m' →
      m'.data.getD j 0 = m.data.getD j 0) ∧
    (∀ m', (boardobjgrpmask_set (some m)).2 = some m' →
      m'.data.getD j 0 = m.data.getD j 0) ∧
    (∀ m', (boardobjgrpmask_inv (some m)).2 = some m' →
      m'.data.getD j 0 = m.data.getD j 0) ∧
    (∀ bitsize extmask m',
      (boardobjgrpmask_import (some m) bitsize extmask).2.1 = some m' →
      m'.data.getD j 0 = m.data.getD j 0) ∧
    (∀ e e', (boardobjgrpmask_export (some m) m.bitcount (some e)).2.2 = some e' →
      e'.data.getD j 0 = e.data.getD j 0) ∧
    (∀ src m', (boardobjgrpmask_copy (some m) src).2.1 = some m' →
      m'.data.getD j 0 = m.data.getD j 0) ∧
    (∀ op1 op2 m',
      ((boardobjgrpmask_and (some m) op1 op2).2.1 = some m' →
        m'.data.getD j 0 = m.data.getD j 0) ∧
      ((boardobjgrpmask_or (some m) op1 op2).2.1 = some m' →
        m'.data.getD j 0 = m.data.getD j 0) ∧
      ((boardobjgrpmask_xor (some m) op1 op2).2.1 = some m' →
        m'.data.getD j 0 = m.data.getD j 0)) := by
  have hpos := wellFormed_pos m hm
  have hlen := hm.2.2.2
  refine ⟨?_, ?_, ?_, ?_, ?_, ?_, ?_⟩
  · intro m' h'
    rw [clr_some_eq] at h'
    rw [← Option.some.inj h']
    show List.getD _ j 0 = _
    rw [clr_words, if_neg (by omega)]
  · intro m' h'
    rw [set_some_eq] at h'
    rw [← Option.some.inj h']
    have h1 := loop_normalize_getD (fun _ _ => 0xFFFFFFFF) m.maskdatacount m.lastmaskfilter
      m.data hpos hlen j
    rw [if_neg (by omega)] at h1
    exact h1
  · intro m' h'
    rw [inv_some_eq] at h'
    rw [← Option.some.inj h']
    have h1 := loop_normalize_getD (fun _ x => not32 x) m.maskdatacount m.lastmaskfilter
      m.data hpos hlen j
    rw [if_neg (by omega)] at h1
    exact h1
  · intro bitsize extmask m' h'
    rcases import_cases m bitsize extmask with hf | ⟨hb, e, he⟩
    · rw [hf] at h'
      rw [← Option.some.inj h']
    · subst hb he
      rw [import_some_eq] at h'
      rw [← Option.some.inj h']
      have h1 := loop_normalize_getD (fun i _ => e.data.getD i 0) m.maskdatacount
        m.lastmaskfilter m.data hpos hlen j
      rw [if_neg (by omega)] at h1
      exact h1
  · intro e e' h'
    rw [export_some_eq] at h'
    rw [← Option.some.inj h']
    show List.getD _ j 0 = _
    rw [export_data_getD, if_neg (by omega)]
  · intro src m' h'
    rcases copy_cases m src with hf | ⟨s, hs, hbc⟩
    · rw [hf] at h'
      rw [← Option.some.inj h']
    · subst hs
      rw [copy_some_eq m s hbc] at h'
      rw [← Option.some.inj h']
      show List.getD _ j 0 = _
      rw [store_loop_getD (fun index => s.data.getD index 0), if_neg (by omega)]
  · intro op1 op2 m'
    rcases binop_cases m op1 op2 with ⟨fa, fo, fx⟩ | ⟨a, b, ha, hb, hab, hdb⟩
    · rw [fa, fo, fx]
      exact ⟨fun h' => by rw [← Option.some.inj h'],
        fun h' => by rw [← Option.some.inj h'],
        fun h' => by rw [← Option.some.inj h']⟩
    · subst ha hb
      rw [and_some_eq m a b hab hdb, or_some_eq m a b hab hdb, xor_some_eq m a b hab hdb]
      refine ⟨?_, ?_, ?_⟩
      · intro h'
        rw [← Option.some.inj h']
        show List.getD _ j 0 = _
        rw [store_loop_getD (fun index => a.data.getD index 0 &&& b.data.getD index 0),
          if_neg (by omega)]
      · intro h'
        rw [← Option.some.inj h']
        show List.getD _ j 0 = _
        rw [store_loop_getD (fun index => a.data.getD index 0 ||| b.data.getD index 0),
          if_neg (by omega)]
      · intro h'
        rw [← Option.some.inj h']
        show List.getD _ j 0 = _
        rw [store_loop_getD (fun index => a.data.getD index 0 ^^^ b.data.getD index 0),
          if_neg (by omega)]

/-- The reading loops consult no word at or beyond `maskdatacount`: a second
mask with the same capacity fields and the same words below `maskdatacount`
gets the same answer from `is_zero`, `count_set_bits`, the two index
queries and `is_subset`, whatever the rest of its storage holds; and the
counting loop, which never leaves early, is the fold over the indices
`0 .. maskdatacount - 1`. -/
theorem query_loops_read_range (m m2 : boardobjgrpmask)
    (hwc : m2.maskdatacount = m.maskdatacount) (hbc : m2.bitcount = m.bitcount)
    (hw : ∀ j, j < m.maskdatacount → m2.data.getD j 0 = m.data.getD j 0) :
    boardobjgrpmask_iszero (some m2) = boardobjgrpmask_iszero (some m) ∧
    boardobjgrpmask_bitsetcount (some m2) = boardobjgrpmask_bitsetcount (some m) ∧
    boardobjgrpmask_bitidxlowest (some m2) = boardobjgrpmask_bitidxlowest (some m) ∧
    boardobjgrpmask_bitidxhighest (some m2) = boardobjgrpmask_bitidxhighest (some m) ∧
    (∀ o : boardobjgrpmask,
      boardobjgrpmask_issubset (some m2) (some o) =
        boardobjgrpmask_issubset (some m) (some o)) ∧
    boardobjgrpmask_bitsetcount (some m) =
      (List.range m.maskdatacount).foldl
        (fun result index => (result + NUMSETBITS_32 (m.data.getD index 0) % 2 ^ 8) % 2 ^ 8)
        0 := by
  refine ⟨?_, ?_, ?_, ?_, ?_, ?_⟩
  · show forIndexBreak _ m2.maskdatacount 0 true = forIndexBreak _ m.maskdatacount 0 true
    rw [hwc]
    apply forIndexBreak_congr
    intro i _ hi t
    show (if m2.data.getD i 0 ≠ 0 then (false, true) else (t, false)) = _
    rw [hw i (by omega)]
  · show forIndex _ m2.maskdatacount 0 0 = forIndex _ m.maskdatacount 0 0
    rw [hwc]
    apply forIndex_congr
    intro i _ hi t
    show (t + NUMSETBITS_32 (m2.data.getD i 0) % 2 ^ 8) % 2 ^ 8 = _
    rw [hw i (by omega)]
  · show forIndexBreak _ m2.maskdatacount 0 CTRL_BOARDOBJ_IDX_INVALID =
      forIndexBreak _ m.maskdatacount 0 CTRL_BOARDOBJ_IDX_INVALID
    rw [hwc]
    apply forIndexBreak_congr
    intro i _ hi t
    show (if m2.data.getD i 0 ≠ 0 then
        ((LOWESTBITIDX_32 (m2.data.getD i 0) % 2 ^ 8 +
          i * CTRL_BOARDOBJGRP_MASK_MASK_ELEMENT_BIT_SIZE) % 2 ^ 8, true)
      else (t, false)) = _
    rw [hw i (by omega)]
  · show forIndexBreak _ m2.maskdatacount 0 CTRL_BOARDOBJ_IDX_INVALID =
      forIndexBreak _ m.maskdatacount 0 CTRL_BOARDOBJ_IDX_INVALID
    rw [hwc]
    apply forIndexBreak_congr
    intro i _ hi t
    show (if m2.data.getD i 0 ≠ 0 then
        ((HIGHESTBITIDX_32 (m2.data.getD i 0) % 2 ^ 8 +
          i * CTRL_BOARDOBJGRP_MASK_MASK_ELEMENT_BIT_SIZE) % 2 ^ 8, true)
      else (t, false)) = _
    rw [hw i (by omega)]
  · intro o
    unfold boardobjgrpmask_issubset boardobjgrpmask_sizeeq
    simp only [hbc, hwc]
    split
    · rfl
    · apply forIndexBreak_congr
      intro i _ hi t
      show (if (m2.data.getD i 0 &&& o.data.getD i 0) ≠ m2.data.getD i 0 then (false, true)
        else (t, false)) = _
      rw [hw i (by omega)]
  · show forIndex _ m.maskdatacount 0 0 = _
    rw [forIndex_eq_foldl, List.range_eq_range']

/-- The layout `boardobjgrpmask_init` computes puts every valid bit index
inside the words the loops cover: whenever the call returns 0, the mask it
leaves has `bitcount = bitsize`, `maskdatacount = ceil(bitsize / 32)`, and
every `idx < bitcount` has `idx / 32 < maskdatacount`. -/
theorem init_layout_in_bounds (raw : boardobjgrpmask) (bitsize : Nat)
    (extmask : Option ctrl_boardobjgrp_mask)
    (h0 : (boardobjgrpmask_init (some raw) bitsize extmask).1 = 0) :
    ∃ r, (boardobjgrpmask_init (some raw) bitsize extmask).2.1 = some r ∧
      r.bitcount = bitsize ∧ r.maskdatacount = (bitsize + 31) / 32 ∧
      r.data.length = raw.data.length ∧
      ∀ idx, idx < r.bitcount → idx / 32 < r.maskdatacount := by
  have hb : bitsize = 32 ∨ bitsize = 255 := by
    by_contra hn
    rw [init_unsupported raw bitsize extmask hn] at h0
    exact absurd h0 (show ¬ NEG_EINVAL_U32 = 0 by decide)
  have hbound : ∀ idx, idx < bitsize → idx / 32 < (bitsize + 31) / 32 := by
    intro idx hidx
    omega
  cases extmask with
  | none =>
    rw [init_supported raw bitsize none hb]
    exact ⟨_, rfl, rfl, rfl, forIndex_set_length (fun _ _ => 0) _ _ _, hbound⟩
  | some e =>
    rw [init_supported raw bitsize (some e) hb]
    show ∃ r, (boardobjgrpmask_import
        (some ⟨bitsize, (bitsize + 31) / 32, tailMaskOf bitsize, raw.data⟩) bitsize
        (some e)).2.1 = some r ∧ _
    rw [import_some_eq ⟨bitsize, (bitsize + 31) / 32, tailMaskOf bitsize, raw.data⟩ e]
    exact ⟨_, rfl, rfl, rfl,
      loop_normalize_length (fun i _ => e.data.getD i 0) _ _ _, hbound⟩

/-- C32, the bit-to-storage mapping is in bounds.  For a mask laid out for
capacity 32 or 255:

* every `idx < capacity_bits` is addressed at word `idx / 32` and offset
  `idx mod 32`, with `idx / 32 < word_count`, inside the storage, and
  `idx mod 32 < 32`; that word is an element `w` of the storage, `get_bit`
  returns bit `idx mod 32` of `w`, `set_bit`, `clear_bit` and `invert_bit`
  return 0 and store `w | bit`, `w & ~bit` and `w ^ ~bit` at index `idx / 32`,
  and a store at that index lands in the storage, changes no other element
  and keeps its length;
* the loop of each storing operation (clear, set_all, invert, export, copy,
  and, or, xor, and the load of a buffer of matching capacity) is the fold of
  its body over the index list `0, 1, ..., word_count - 1`;
* each of these operations succeeds and stores, at every `j < word_count`,
  the value that belongs to index `j` (masked by `tail_mask` in the last
  word where the operation normalizes), and at every `j ≥ word_count` the
  word is what it was; export writes the buffer words the buffer has;
* no storing operation, succeeding or failing, changes a word at or beyond
  `word_count`;
* an operand laid out for the same capacity has the same `word_count`
  inside its own storage, so the loops read its words in bounds;
* the reading loops (is_zero, count_set_bits, lowest and highest index,
  is_subset) consult no word at or beyond `word_count`, and the counting
  loop is the fold over `0, 1, ..., word_count - 1`;
* the layout `boardobjgrpmask_init` leaves on success has
  `word_count = ceil(capacity_bits / 32)` and `idx / 32 < word_count` for
  every `idx < capacity_bits`. -/
theorem storage_access_in_bounds (m : boardobjgrpmask) (hm : WellFormed m) :
    (∀ idx, idx < m.bitcount →
      CTRL_BOARDOBJGRP_MASK_MASK_ELEMENT_INDEX idx = idx / 32 ∧
      CTRL_BOARDOBJGRP_MASK_MASK_ELEMENT_OFFSET idx = idx % 32 ∧
      idx / 32 < m.maskdatacount ∧ idx / 32 < m.data.length ∧ idx % 32 < 32 ∧
      ∃ w, m.data[idx / 32]? = some w ∧
        boardobjgrpmask_bitget (some m) idx = w.testBit (idx % 32) ∧
        boardobjgrpmask_bitset (some m) idx =
          (0, some { m with data := m.data.set (idx / 32) (w ||| 2 ^ (idx % 32)) }) ∧
        boardobjgrpmask_bitclr (some m) idx =
          (0, some { m with data := m.data.set (idx / 32) (w &&& not32 (2 ^ (idx % 32))) }) ∧
        boardobjgrpmask_bitinv (some m) idx =
          (0, some { m with data := m.data.set (idx / 32) (w ^^^ not32 (2 ^ (idx % 32))) }) ∧
        ∀ v, (m.data.set (idx / 32) v)[idx / 32]? = some v ∧
          (m.data.set (idx / 32) v).length = m.data.length ∧
          ∀ j, j ≠ idx / 32 → (m.data.set (idx / 32) v)[j]? = m.data[j]?) ∧
    (boardobjgrpmask_clr (some m) =
        (0, some { m with
          data := (List.range m.maskdatacount).foldl (fun d index => d.set index 0) m.data }) ∧
      boardobjgrpmask_set (some m) =
        (0, some (BOARDOBJGRPMASK_NORMALIZE { m with
          data := (List.range m.maskdatacount).foldl
            (fun d index => d.set index 0xFFFFFFFF) m.data })) ∧
      boardobjgrpmask_inv (some m) =
        (0, some (BOARDOBJGRPMASK_NORMALIZE { m with
          data := (List.range m.maskdatacount).foldl
            (fun d index => d.set index (not32 (d.getD index 0))) m.data })) ∧
      (∀ e : ctrl_boardobjgrp_mask,
        boardobjgrpmask_import (some m) m.bitcount (some e) =
          (0, some (BOARDOBJGRPMASK_NORMALIZE { m with
            data := (List.range m.maskdatacount).foldl
              (fun d index => d.set index (e.data.getD index 0)) m.data }), some e)) ∧
      (∀ e : ctrl_boardobjgrp_mask,
        boardobjgrpmask_export (some m) m.bitcount (some e) =
          (0, some m, some { e with
            data := (List.range m.maskdatacount).foldl
              (fun d index => d.set index (m.data.getD index 0)) e.data })) ∧
      (∀ s : boardobjgrpmask, m.bitcount = s.bitcount →
        boardobjgrpmask_copy (some m) (some s) =
          (0, some { m with
            data := (List.range m.maskdatacount).foldl
              (fun d index => d.set index (s.data.getD index 0)) m.data }, some s)) ∧
      (∀ a b : boardobjgrpmask, m.bitcount = a.bitcount → m.bitcount = b.bitcount →
        boardobjgrpmask_and (some m) (some a) (some b) =
          (0, some { m with
            data := (List.range m.maskdatacount).foldl
              (fun d index => d.set index (a.data.getD index 0 &&& b.data.getD index 0))
              m.data }, some a, some b) ∧
        boardobjgrpmask_or (some m) (some a) (some b) =
          (0, some { m with
            data := (List.range m.maskdatacount).foldl
              (fun d index => d.set index (a.data.getD index 0 ||| b.data.getD index 0))
              m.data }, some a, some b) ∧
        boardobjgrpmask_xor (some m) (some a) (some b) =
          (0, some { m with
            data := (List.range m.maskdatacount).foldl
              (fun d index => d.set index (a.data.getD index 0 ^^^ b.data.getD index 0))
              m.data }, some a, some b))) ∧
    ((∃ r, boardobjgrpmask_clr (some m) = (0, some r) ∧
        r.data.length = m.data.length ∧
        ∀ j, r.data.getD j 0 = if j < m.maskdatacount then 0 else m.data.getD j 0) ∧
      (∃ r, boardobjgrpmask_set (some m) = (0, some r) ∧
        r.data.length = m.data.length ∧
        ∀ j, r.data.getD j 0 =
          if j < m.maskdatacount then
            (if j = m.maskdatacount - 1 then 0xFFFFFFFF &&& m.lastmaskfilter else 0xFFFFFFFF)
          else m.data.getD j 0) ∧
      (∃ r, boardobjgrpmask_inv (some m) = (0, some r) ∧
        r.data.length = m.data.length ∧
        ∀ j, r.data.getD j 0 =
          if j < m.maskdatacount then
            (if j = m.maskdatacount - 1 then not32 (m.data.getD j 0) &&& m.lastmaskfilter
              else not32 (m.data.getD j 0))
          else m.data.getD j 0) ∧
      (∀ e : ctrl_boardobjgrp_mask,
        ∃ r, boardobjgrpmask_import (some m) m.bitcount (some e) = (0, some r, some e) ∧
          r.data.length = m.data.length ∧
          ∀ j, r.data.getD j 0 =
            if j < m.maskdatacount then
              (if j = m.maskdatacount - 1 then e.data.getD j 0 &&& m.lastmaskfilter
                else e.data.getD j 0)
            else m.data.getD j 0) ∧
      (∀ e : ctrl_boardobjgrp_mask,
        ∃ r, boardobjgrpmask_export (some m) m.bitcount (some e) = (0, some m, some r) ∧
          r.data.length = e.data.length ∧
          ∀ j, r.data.getD j 0 =
            if j < m.maskdatacount ∧ j < e.data.length then m.data.getD j 0
            else e.data.getD j 0) ∧
      (∀ s : boardobjgrpmask, m.bitcount = s.bitcount →
        ∃ r, boardobjgrpmask_copy (some m) (some s) = (0, some r, some s) ∧
          r.data.length = m.data.length ∧
          ∀ j, r.data.getD j 0 =
            if j < m.maskdatacount then s.data.getD j 0 else m.data.getD j 0) ∧
      (∀ a b : boardobjgrpmask, m.bitcount = a.bitcount → m.bitcount = b.bitcount →
        (∃ r, boardobjgrpmask_and (some m) (some a) (some b) = (0, some r, some a, some b) ∧
          r.data.length = m.data.length ∧
          ∀ j, r.data.getD j 0 =
            if j < m.maskdatacount then a.data.getD j 0 &&& b.data.getD j 0
            else m.data.getD j 0) ∧
        (∃ r, boardobjgrpmask_or (some m) (some a) (some b) = (0, some r, some a, some b) ∧
          r.data.length = m.data.length ∧
          ∀ j, r.data.getD j 0 =
            if j < m.maskdatacount then a.data.getD j 0 ||| b.data.getD j 0
            else m.data.getD j 0) ∧
        (∃ r, boardobjgrpmask_xor (some m) (some a) (some b) = (0, some r, some a, some b) ∧
          r.data.length = m.data.length ∧
          ∀ j, r.data.getD j 0 =
            if j < m.maskdatacount then a.data.getD j 0 ^^^ b.data.getD j 0
            else m.data.getD j 0))) ∧
    (∀ j, m.maskdatacount ≤ j →
      (∀ m', (boardobjgrpmask_clr (some m)).2 = some m' →
        m'.data.getD j 0 = m.data.getD j 0) ∧
      (∀ m', (boardobjgrpmask_set (some m)).2 = some m' →
        m'.data.getD j 0 = m.data.getD j 0) ∧
      (∀ m', (boardobjgrpmask_inv (some m)).2 = some m' →
        m'.data.getD j 0 = m.data.getD j 0) ∧
      (∀ bitsize extmask m',
        (boardobjgrpmask_import (some m) bitsize extmask).2.1 = some m' →
        m'.data.getD j 0 = m.data.getD j 0) ∧
      (∀ e e', (boardobjgrpmask_export (some m) m.bitcount (some e)).2.2 = some e' →
        e'.data.getD j 0 = e.data.getD j 0) ∧
      (∀ src m', (boardobjgrpmask_copy (some m) src).2.1 = some m' →
        m'.data.getD j 0 = m.data.getD j 0) ∧
      (∀ op1 op2 m',
        ((boardobjgrpmask_and (some m) op1 op2).2.1 = some m' →
          m'.data.getD j 0 = m.data.getD j 0) ∧
        ((boardobjgrpmask_or (some m) op1 op2).2.1 = some m' →
          m'.data.getD j 0 = m.data.getD j 0) ∧
        ((boardobjgrpmask_xor (some m) op1 op2).2.1 = some m' →
          m'.data.getD j 0 = m.data.getD j 0))) ∧
    (∀ a : boardobjgrpmask, WellFormed a → m.bitcount = a.bitcount →
      a.maskdatacount = m.maskdatacount ∧ m.maskdatacount ≤ a.data.length) ∧
    (∀ m2 : boardobjgrpmask, m2.maskdatacount = m.maskdatacount →
      m2.bitcount = m.bitcount →
      (∀ j, j < m.maskdatacount → m2.data.getD j 0 = m.data.getD j 0) →
      boardobjgrpmask_iszero (some m2) = boardobjgrpmask_iszero (some m) ∧
      boardobjgrpmask_bitsetcount (some m2) = boardobjgrpmask_bitsetcount (some m) ∧
      boardobjgrpmask_bitidxlowest (some m2) = boardobjgrpmask_bitidxlowest (some m) ∧
      boardobjgrpmask_bitidxhighest (some m2) = boardobjgrpmask_bitidxhighest (some m) ∧
      (∀ o : boardobjgrpmask,
        boardobjgrpmask_issubset (some m2) (some o) =
          boardobjgrpmask_issubset (some m) (some o)) ∧
      boardobjgrpmask_bitsetcount (some m) =
        (List.range m.maskdatacount).foldl
          (fun result index =>
            (result + NUMSETBITS_32 (m.data.getD index 0) % 2 ^ 8) % 2 ^ 8)
          0) ∧
    (∀ (raw : boardobjgrpmask) (bitsize : Nat) (extmask : Option ctrl_boardobjgrp_mask),
      (boardobjgrpmask_init (some raw) bitsize extmask).1 = 0 →
      ∃ r, (boardobjgrpmask_init (some raw) bitsize extmask).2.1 = some r ∧
        r.bitcount = bitsize ∧ r.maskdatacount = (bitsize + 31) / 32 ∧
        r.data.length = raw.data.length ∧
        ∀ idx, idx < r.bitcount → idx / 32 < r.maskdatacount) := by
  refine ⟨fun idx hidx => single_bit_word_access m hm idx hidx, bulk_loops_visit_range m,
    bulk_loops_write_words m hm, fun j hj => bulk_loops_frame m hm j hj, ?_,
    fun m2 hwc hbc hw => query_loops_read_range m m2 hwc hbc hw,
    fun raw bitsize extmask h0 => init_layout_in_bounds raw bitsize extmask h0⟩
  intro a ha hab
  have h1 : a.maskdatacount = m.maskdatacount := by
    rw [ha.2.1, hm.2.1, hab]
  exact ⟨h1, h1 ▸ ha.2.2.2⟩

/-- Witness of C32: on the sample 255-bit mask, bit 254 is addressed at word
7 and offset 30, inside the eight words; `set_bit(254)` stores into word 7;
and the clearing loop is the fold over the eight indices. -/
theorem storage_access_in_bounds_witness :
    254 / 32 < sampleMask255.maskdatacount ∧ 254 / 32 < sampleMask255.data.length ∧
    254 % 32 < 32 ∧
    (∃ w, sampleMask255.data[254 / 32]? = some w ∧
      boardobjgrpmask_bitset (some sampleMask255) 254 =
        (0, some { sampleMask255 with
          data := sampleMask255.data.set (254 / 32) (w ||| 2 ^ (254 % 32)) })) ∧
    boardobjgrpmask_clr (some sampleMask255) =
      (0, some { sampleMask255 with
        data := (List.range sampleMask255.maskdatacount).foldl
          (fun d index => d.set index 0) sampleMask255.data }) :=
  have h := storage_access_in_bounds sampleMask255 (by decide)
  match h.1 254 (by decide) with
  | ⟨_, _, h3, h4, h5, w, hw, _, hset, _⟩ => ⟨h3, h4, h5, ⟨w, hw, hset⟩, h.2.1.1⟩

end Nvgpu
